import Mathlib

/-!
# Boggle solver: the dictionary trie and the board search

A shallow embedding of `Trie.h`/`Trie.cpp` and `Board.h`/`Board.cpp`.

Modelling conventions.

* `std::string` is `String`; a pair of string iterators `(it, end)` is the list of
  the characters still to be read.
* `struct Node` is the inductive type `Node`.  The owning array
  `std::unique_ptr<Node> children[26]` is a list of optional nodes (a fresh node
  has 26 empty slots).  Reading or writing a slot outside `0..25` is undefined
  behaviour in the source; here such a read finds no child and such a write
  changes nothing.  No statement below rests on such a write: every insertion is
  taken on a string of its input language (A-Z for `insert`, ASCII letters for
  `insertCase` and `insertCase_nocache`), where all subscripts are in range; in
  the embedding `Heap` such an access has no result.
* The non-owning `parent` pointer is not a field.  A `Node*` that is only read
  through (a `SearchIterator`, the argument of `Node::toString`) is the chain
  `NodePtr` made of the node followed by its parent, grandparent, ... up to the
  root; the empty chain is `nullptr`.
* A `Node*` that is written through (the result of `Trie::insert(Node*, ..)` and of
  `Trie::insertForeignIt(..)`) is the list of child indices leading to it from
  the node the call started at; `Node.modifyAt` performs the write.
* `Node::toString` also stores the string it returns in the node's cache.  The
  cache then holds the very string that was returned, so the write is invisible
  to every later `toString`; it is left out of `Trie.enqueue`.
* `char board[5][5]` and `bool used[5][5]` are functions of a row and a column in
  `Fin 5`, indexed through `Grid.at`/`Grid.set` with the `int` coordinates of the
  source.
* The recursion of `Board::allWords` is given an explicit depth budget; running
  out of budget is the result `none`.
* An `int` variable that is counted up (`m_size`, the `pts` of
  `Board::countPoints`) is an `Int`, and each sum stored in it is brought into the
  range of a 32-bit `int` by `int32`: past `INT_MAX` the value wraps around, as
  the compiled code does (the source leaves signed overflow undefined).
* What depends on the pointers themselves (the `parent` field, which nodes a call
  writes to, accesses outside an array or through a pointer to no node) is stated
  on a second embedding of the same code, in the namespace `Heap`, in which the
  nodes live in a memory and are referred to by address.
-/

namespace Boggle

/-! ## Trie.h / Trie.cpp -/

/-- The enum `Trie::SearchResult`. -/
inductive SearchResult where
  | FOUND
  | NOTFOUND
  | NOPREFIX
  deriving DecidableEq, Repr

/-- The struct `Trie::Node` (without the `parent` back pointer, see above). -/
inductive Node where
  | mk (char_here : Char) (value_here : Bool) (children : List (Option Node))
      (str : Option String) : Node

/-- The field `char_here`. -/
def Node.char_here : Node → Char
  | .mk c _ _ _ => c

/-- The field `value_here`. -/
def Node.value_here : Node → Bool
  | .mk _ v _ _ => v

/-- The field `children`. -/
def Node.children : Node → List (Option Node)
  | .mk _ _ cs _ => cs

/-- The field `str`, the cached string. -/
def Node.str : Node → Option String
  | .mk _ _ _ s => s

/-- A read-only `Node*`: the node, its parent, ..., the root; `[]` is `nullptr`. -/
abbrev NodePtr := List Node

/-- The constructor `Node::Node(c, p)`: not a word, no children, nothing cached. -/
def Node.new (c : Char) : Node :=
  .mk c false (List.replicate 26 none) none

/-- The character `(char) 0`, held by the root. -/
def nul : Char := Char.ofNat 0

/-- The value a 32-bit `int` holds when the arithmetic result `x` is stored in it:
`x` itself from `-2147483648` to `2147483647`, wrapped around modulo `2^32`
otherwise. -/
def int32 (x : Int) : Int :=
  (x + 2147483648) % 4294967296 - 2147483648

/-- `Node::index(c)`, that is `(int) (c - 'A')`. -/
def Node.index (c : Char) : Int :=
  (c.toNat : Int) - ('A'.toNat : Int)

/-- The read `children[i].get()`. -/
def Node.child (n : Node) (i : Int) : Option Node :=
  if 0 ≤ i then n.children.getD i.toNat none else none

/-- The write `children[i].reset(m)`. -/
def Node.setChild (n : Node) (i : Int) (m : Node) : Node :=
  if 0 ≤ i then .mk n.char_here n.value_here (n.children.set i.toNat (some m)) n.str else n

/-- The write `value_here = v`. -/
def Node.setValue (n : Node) (v : Bool) : Node :=
  .mk n.char_here v n.children n.str

/-- `Node::setCacheString(s)`. -/
def Node.setCacheString (n : Node) (s : String) : Node :=
  .mk n.char_here n.value_here n.children (some s)

/-- `Node::getCacheString()`: the cached string, or null. -/
def Node.getCacheString (n : Node) : Option String :=
  n.str

/-- The node returned by `Node::get(c)`: the child for `c`, a new `Node(c, this)`
when there is none.  (The caller stores it back with `setChild`.) -/
def Node.get (n : Node) (c : Char) : Node :=
  match n.child (Node.index c) with
  | some m => m
  | none => Node.new c

/-- The state of `this` after `Node::get(c)`: the child for `c` exists. -/
def Node.withChild (n : Node) (c : Char) : Node :=
  n.setChild (Node.index c) (n.get c)

/-- A write through a `Node*` into the tree below `n`: `f` is applied to the node
reached from `n` by the child indices `p`. -/
def Node.modifyAt (f : Node → Node) : List Int → Node → Node
  | [], n => f n
  | i :: p, n =>
    match n.child i with
    | some m => n.setChild i (Node.modifyAt f p m)
    | none => n

/-- `Node::buildString(s, n)`: appends to `s` the characters from the root down
to `n`. -/
def Node.buildString : String → NodePtr → String
  | s, [] => s
  | s, n :: parent =>
    if n.char_here = nul then s
    else (Node.buildString s parent).push n.char_here

/-- `Node::toString()`: the cached string, else the string built from the path
(a null dereference in the source on `nullptr`; the empty string here). -/
def Node.toString : NodePtr → String
  | [] => ""
  | n :: parent =>
    match n.str with
    | some s => s
    | none => Node.buildString "" (n :: parent)

/-- The class `Trie`. -/
structure Trie where
  /-- The root of the Trie. -/
  root : Node
  /-- The number of elements in this Trie. -/
  m_size : Int

/-- The constructor `Trie::Trie()`. -/
def Trie.empty : Trie :=
  { root := Node.new nul, m_size := 0 }

/-- The class `Trie::SearchIterator`. -/
structure SearchIterator where
  /-- The current node being visited. -/
  curNode : NodePtr

/-- `SearchIterator::inSet()`. -/
def SearchIterator.inSet (it : SearchIterator) : Bool :=
  match it.curNode with
  | [] => false
  | n :: _ => n.value_here

/-- `SearchIterator::reachable()`. -/
def SearchIterator.reachable (it : SearchIterator) : Bool :=
  match it.curNode with
  | [] => false
  | _ :: _ => true

/-- `SearchIterator::next(c)`. -/
def SearchIterator.next (it : SearchIterator) (c : Char) : SearchIterator :=
  match it.curNode with
  | [] => it
  | n :: parent =>
    match n.child (Node.index c) with
    | none => { curNode := [] }
    | some m => { curNode := m :: n :: parent }

/-- `SearchIterator::toString()`. -/
def SearchIterator.toString (it : SearchIterator) : String :=
  Node.toString it.curNode

/-- `SearchIterator::charHere()` (a null dereference in the source on the
invalid iterator; `nul` here). -/
def SearchIterator.charHere (it : SearchIterator) : Char :=
  match it.curNode with
  | [] => nul
  | n :: _ => n.char_here

/-- `SearchIterator::up()`. -/
def SearchIterator.up (it : SearchIterator) : SearchIterator :=
  match it.curNode with
  | [] => it
  | _ :: parent => { curNode := parent }

/-- `SearchIterator::getCacheString()`. -/
def SearchIterator.getCacheString (it : SearchIterator) : Option String :=
  match it.curNode with
  | [] => none
  | n :: _ => n.getCacheString

/-- `Trie::beginSearch()`. -/
def Trie.beginSearch (t : Trie) : SearchIterator :=
  { curNode := [t.root] }

/-- The recursive helper `Trie::insert(Node* n, it, end)`: the node `n` after the
call, and the returned pointer as child indices from `n`. -/
def Trie.insertRec : Node → List Char → Node × List Int
  | n, [] => (n.setValue true, [])
  | n, c :: cs =>
    let r := Trie.insertRec (n.get c) cs
    (n.setChild (Node.index c) r.1, Node.index c :: r.2)

/-- `Trie::insert(s)`. -/
def Trie.insert (t : Trie) (s : String) : Trie :=
  let r := Trie.insertRec t.root s.data
  { root := Node.modifyAt (fun n => n.setCacheString s) r.2 r.1
    m_size := int32 (t.m_size + 1) }

/-- The recursive helper `Trie::insertForeignIt(it, r, c)`, by recursion on the
chain of the iterator (`it.up()` drops its head): the local root `r` after the
call, and the returned pointer as child indices from `r`. -/
def Trie.insertForeignItRec : NodePtr → Node → Char → Node × List Int
  | [], r, _ => (r, [])
  | m :: parent, r, c =>
    let tmp := m.char_here
    let n := Trie.insertForeignItRec parent r tmp
    if c = nul then n
    else (Node.modifyAt (fun x => x.withChild c) n.2 n.1, n.2 ++ [Node.index c])

/-- `Trie::insertForeignIt(it)`. -/
def Trie.insertForeignIt (t : Trie) (it : SearchIterator) : Trie :=
  let n := Trie.insertForeignItRec it.curNode t.root nul
  let root1 := Node.modifyAt (fun x => x.setValue true) n.2 n.1
  let root2 :=
    match it.getCacheString with
    | some s => Node.modifyAt (fun x => x.setCacheString s) n.2 root1
    | none => root1
  { root := root2, m_size := int32 (t.m_size + 1) }

/-- The recursive helper `Trie::find(Node* n, it, end)`. -/
def Trie.findRec : Option Node → List Char → SearchResult
  | none, _ => .NOPREFIX
  | some n, [] => if n.value_here then .FOUND else .NOTFOUND
  | some n, c :: cs => Trie.findRec (n.child (Node.index c)) cs

/-- `Trie::find(s)`. -/
def Trie.find (t : Trie) (s : String) : SearchResult :=
  Trie.findRec (some t.root) s.data

/-- `Trie::get(s)`. -/
def Trie.get (t : Trie) (s : String) : Bool :=
  decide (t.find s = .FOUND)

mutual
/-- The recursive helper `Trie::enqueue(Node* n, q)` on a non-null `n` whose
parent chain is `parent`. -/
def Trie.enqueueNode : NodePtr → Node → List String → List String
  | parent, .mk c v cs s, q =>
    Trie.enqueueChildren (.mk c v cs s :: parent) cs
      (if v then q ++ [Node.toString (.mk c v cs s :: parent)] else q)
/-- The loop `for (i = 0; i < 26; ++i) enqueue(n->children[i].get(), q)` over the
slots not yet visited; a null slot returns at once. -/
def Trie.enqueueChildren : NodePtr → List (Option Node) → List String → List String
  | _, [], q => q
  | p, none :: cs, q => Trie.enqueueChildren p cs q
  | p, some m :: cs, q => Trie.enqueueChildren p cs (Trie.enqueueNode p m q)
end

/-- `Trie::enqueue()`: the loop runs over the children of the root. -/
def Trie.enqueue (t : Trie) : List String :=
  Trie.enqueueChildren [t.root] t.root.children []

/-- `Trie::size()`. -/
def Trie.size (t : Trie) : Int :=
  t.m_size

/-- The C function `toupper` on a `char` (in the "C" locale). -/
def toupper (c : Char) : Char :=
  c.toUpper

/-- The recursive helper `Trie::insertCase(Node* n, it, end)`: the node `n` after
the call, and the returned pointer as child indices from `n`. -/
def Trie.insertCaseRec : Node → List Char → Node × List Int
  | n, [] => (n.setValue true, [])
  | n, c :: cs =>
    let r := Trie.insertCaseRec (n.get (toupper c)) cs
    (n.setChild (Node.index (toupper c)) r.1, Node.index (toupper c) :: r.2)

/-- `Trie::insertCase(s)`. -/
def Trie.insertCase (t : Trie) (s : String) : Trie :=
  let r := Trie.insertCaseRec t.root s.data
  { root := Node.modifyAt (fun n => n.setCacheString s) r.2 r.1
    m_size := int32 (t.m_size + 1) }

/-- `Trie::insertCase_nocache(s)`. -/
def Trie.insertCase_nocache (t : Trie) (s : String) : Trie :=
  { root := (Trie.insertCaseRec t.root s.data).1
    m_size := int32 (t.m_size + 1) }

/-- The write `*(prefix.rbegin()) = c`: the last character becomes `c`. -/
def setLastChar (s : String) (c : Char) : String :=
  String.mk (s.data.dropLast ++ [c])

mutual
/-- The recursive helper `Trie::enqueue_nocache(Node* n, prefix, q)` on a non-null
`n`. -/
def Trie.enqueueNocacheNode : Node → String → List String → List String
  | .mk _ v cs _, pre, q =>
    Trie.enqueueNocacheChildren cs 0 (pre.push 'X') (if v then q ++ [pre] else q)
/-- The loop of the helper over the slots from `i` on: the last character of the
prefix is set to the letter of the slot, then the child is visited with a copy of
the prefix; a null child returns at once. -/
def Trie.enqueueNocacheChildren :
    List (Option Node) → Nat → String → List String → List String
  | [], _, _, q => q
  | none :: cs, i, pre, q =>
    Trie.enqueueNocacheChildren cs (i + 1) (setLastChar pre (Char.ofNat ('A'.toNat + i))) q
  | some m :: cs, i, pre, q =>
    Trie.enqueueNocacheChildren cs (i + 1) (setLastChar pre (Char.ofNat ('A'.toNat + i)))
      (Trie.enqueueNocacheNode m (setLastChar pre (Char.ofNat ('A'.toNat + i))) q)
end

/-- The loop of `Trie::enqueue_nocache(q)` over the slots of the root from `i` on:
the child is visited with the one-letter prefix `std::string(1, 'A' + i)`. -/
def Trie.enqueueNocacheRoot : List (Option Node) → Nat → List String → List String
  | [], _, q => q
  | none :: cs, i, q => Trie.enqueueNocacheRoot cs (i + 1) q
  | some m :: cs, i, q =>
    Trie.enqueueNocacheRoot cs (i + 1)
      (Trie.enqueueNocacheNode m (String.singleton (Char.ofNat ('A'.toNat + i))) q)

/-- `Trie::enqueue_nocache()`. -/
def Trie.enqueue_nocache (t : Trie) : List String :=
  Trie.enqueueNocacheRoot t.root.children 0 []

/-! ## Board.h / Board.cpp -/

/-- A `T[5][5]` array. -/
abbrev Grid (α : Type) := Fin 5 → Fin 5 → α

/-- The read `g[y][x]` (only performed with `0 ≤ y, x < 5`). -/
def Grid.at {α : Type} (g : Grid α) (y x : Int) : α :=
  g (Fin.ofNat y.toNat) (Fin.ofNat x.toNat)

/-- The write `g[y][x] = v` (only performed with `0 ≤ y, x < 5`). -/
def Grid.set {α : Type} (g : Grid α) (y x : Int) (v : α) : Grid α :=
  fun i j => if i = Fin.ofNat y.toNat ∧ j = Fin.ofNat x.toNat then v else g i j

/-- The class `Board`. -/
structure Board where
  /-- The letters of the 25 cells. -/
  board : Grid Char
  /-- The dictionary. -/
  englishWords : Trie

/-- The points `Board::countPoints` adds for one word of the given length. -/
def Board.wordPoints (len : Nat) : Int :=
  match len with
  | 1 => 0
  | 2 => 0
  | 3 => 1
  | 4 => 1
  | 5 => 2
  | 6 => 3
  | 7 => 5
  | _ => 11

/-- `Board::countPoints(q)`; the points are summed up in the `int pts`. -/
def Board.countPoints (q : List String) : Int :=
  q.foldl
    (fun pts s =>
      match s.length with
      | 1 => pts
      | 2 => pts
      | 3 => int32 (pts + 1)
      | 4 => int32 (pts + 1)
      | 5 => int32 (pts + 2)
      | 6 => int32 (pts + 3)
      | 7 => int32 (pts + 5)
      | _ => int32 (pts + 11))
    0

/-- The iterator after one board move onto a cell holding `ch`: `it.next(ch)`,
and `it.next('U')` as well when `ch == 'Q'`. -/
def Board.step (it : SearchIterator) (ch : Char) : SearchIterator :=
  let it1 := it.next ch
  if ch = 'Q' then it1.next 'U' else it1

/-- The recursive helper `Board::allWords(si, r, c, used, foundwords)` with a depth
budget: the `used` array and the found words after the call. -/
def Board.allWordsRec (b : Board) :
    Nat → SearchIterator → Int → Int → Grid Bool → Trie → Option (Grid Bool × Trie)
  | 0, _, _, _, _, _ => none
  | fuel + 1, si, r, c, used, foundwords =>
    if !si.reachable then some (used, foundwords)
    else
      let foundwords1 := if si.inSet then foundwords.insertForeignIt si else foundwords
      [r - 1, r, r + 1].foldlM
        (fun st y =>
          [c - 1, c, c + 1].foldlM
            (fun st x =>
              if x < 0 ∨ y < 0 ∨ y ≥ 5 ∨ x ≥ 5 then some st
              else if !(Grid.at st.1 y x) then
                let ch := Grid.at b.board y x
                match Board.allWordsRec b fuel (Board.step si ch) y x
                    (Grid.set st.1 y x true) st.2 with
                | none => none
                | some st1 => some (Grid.set st1.1 y x false, st1.2)
              else some st)
            st)
        (used, foundwords1)

/-- `Board::allWords()`. -/
def Board.allWords (b : Board) : Option (List String) :=
  let start : Grid Bool × Trie := (fun _ _ => false, Trie.empty)
  let done :=
    [(0 : Int), 1, 2, 3, 4].foldlM
      (fun st r =>
        [(0 : Int), 1, 2, 3, 4].foldlM
          (fun st c =>
            let ch := Grid.at b.board r c
            match Board.allWordsRec b 25 (Board.step b.englishWords.beginSearch ch) r c
                (Grid.set st.1 r c true) st.2 with
            | none => none
            | some st1 => some (Grid.set st1.1 r c false, st1.2))
          st)
      start
  match done with
  | none => none
  | some st => some st.2.enqueue

/-- `Board::toString()`. -/
def Board.toString (b : Board) : String :=
  [(0 : Int), 1, 2, 3, 4].foldl
    (fun s r =>
      let s1 :=
        [(0 : Int), 1, 2, 3, 4].foldl
          (fun s c =>
            let s2 := s.push (Grid.at b.board r c)
            if Grid.at b.board r c = 'Q' then s2 ++ "u" else s2 ++ " ")
          s
      if r < 4 then s1 ++ "\n" else s1)
    ""

/-- The table of the 25 dice in `Board::newGame`, in the order of the assignments
`dieRolls[0]`, ..., `dieRolls[24]`. -/
def Board.dice : List String :=
  ["AAAFRS", "AAEEEE", "AAFIRS", "ADENNN", "AEEEEM", "AEEGMU", "AEGMNN", "AFIRSY", "BJKQXZ",
    "CCENST", "CEIILT", "CEILPT", "CEIPST", "DDHNOT", "DHHLOR", "DHLNOR", "DHLNOR", "EIIITT",
    "EMOTTT", "ENSSSU", "FIPRSY", "GORRVW", "IPRRRY", "NOOTUW", "OOOTTU"]

/-- The array `dieRolls` of `Board::newGame` after its 25 assignments, `rand i`
being the value returned by the `i`-th call of `rand()`. -/
def Board.dieRolls (rand : Nat → Nat) : List Char :=
  (List.range 25).map fun i => (Board.dice.getD i "").data.getD (rand i % 6) 'A'

/-- The grid left by `Board::newGame(seed)`: `rand` stands for the values `rand()`
returns after `srand(seed)` and `shuffle` for the rearrangement
`std::random_shuffle` performs; the shuffled rolls fill the rows one after the
other. -/
def Board.newGame (rand : Nat → Nat) (shuffle : List Char → List Char) : Grid Char :=
  fun row c => (shuffle (Board.dieRolls rand)).getD (5 * row.val + c.val) 'A'

/-- The dictionary the constructor `Board::Board(seed)` builds: `insertCase` of each
line of the word list, in order. -/
def Board.loadWords (lines : List String) : Trie :=
  lines.foldl Trie.insertCase Trie.empty


/-! ## The pointer-level embedding

The same code once more, with the pointers kept: the nodes of all tries live in
one memory, a `Node*` is an address into it (`none` is `nullptr`), a node holds the
address of its parent and the addresses of its children, and `new` places a node
at the next free address.  Every access the source leaves unchecked is checked
here: dereferencing an address that holds no node, subscripting `children` outside
`0..25` and subscripting a `[5][5]` array outside `0..4` have no result (`none`).
The recursions that follow pointers are given a budget; running out of budget is
`none` as well. -/

namespace Heap

/-- The struct `Trie::Node`; `parent` and the owned `children` are addresses. -/
structure Node where
  /-- This node's parent (null if root). -/
  parent : Option Nat
  /-- The character at this node. -/
  char_here : Char
  /-- Whether this node represents a string in the Trie. -/
  value_here : Bool
  /-- The child node array. -/
  children : List (Option Nat)
  /-- The cached string. -/
  str : Option String
  deriving DecidableEq

/-- The memory: the node at address `a` is the entry at position `a`. -/
abbrev Mem := List Node

/-- The constructor `Node::Node(c, p)`. -/
def Node.new (c : Char) (p : Option Nat) : Node :=
  { parent := p, char_here := c, value_here := false, children := List.replicate 26 none,
    str := none }

/-- The subscript of `children[i]`: there are the elements `0..25`. -/
def slot (i : Int) : Option Nat :=
  if 0 ≤ i ∧ i < 26 then some i.toNat else none

/-- The read `a->children[i].get()`. -/
def child (m : Mem) (a : Nat) (i : Int) : Option (Option Nat) :=
  match m[a]?, slot i with
  | some n, some k => n.children[k]?
  | _, _ => none

/-- A write to the node at address `a`. -/
def update (m : Mem) (a : Nat) (f : Node → Node) : Option Mem :=
  match m[a]? with
  | some n => some (m.set a (f n))
  | none => none

/-- The write `a->children[i].reset(b)`. -/
def setChild (m : Mem) (a : Nat) (i : Int) (b : Nat) : Option Mem :=
  match slot i with
  | some k => update m a fun n => { n with children := n.children.set k (some b) }
  | none => none

/-- `Node::get(c)` called on the node at address `a`: the memory after the call and
the address returned. -/
def get (m : Mem) (a : Nat) (c : Char) : Option (Mem × Nat) :=
  match child m a (Boggle.Node.index c) with
  | none => none
  | some (some n) => some (m, n)
  | some none =>
    match setChild (m ++ [Node.new c (some a)]) a (Boggle.Node.index c) m.length with
    | none => none
    | some m1 => some (m1, m.length)

/-- `Node::setCacheString(s)` called on the node at address `a`. -/
def setCacheString (m : Mem) (a : Nat) (s : String) : Option Mem :=
  update m a fun n => { n with str := some s }

/-- The write `a->value_here = true`. -/
def setValue (m : Mem) (a : Nat) : Option Mem :=
  update m a fun n => { n with value_here := true }

/-- The recursive helper `Trie::insert(Node* n, it, end)`. -/
def insertRec : List Char → Mem → Nat → Option (Mem × Nat)
  | [], m, n =>
    match setValue m n with
    | none => none
    | some m1 => some (m1, n)
  | c :: cs, m, n =>
    match get m n c with
    | none => none
    | some r => insertRec cs r.1 r.2

/-- The recursive helper `Trie::insertCase(Node* n, it, end)`. -/
def insertCaseRec : List Char → Mem → Nat → Option (Mem × Nat)
  | [], m, n =>
    match setValue m n with
    | none => none
    | some m1 => some (m1, n)
  | c :: cs, m, n =>
    match get m n (toupper c) with
    | none => none
    | some r => insertCaseRec cs r.1 r.2

/-- The class `Trie`: the address of the member `root` and the member `m_size`. -/
structure Trie where
  /-- The address of the root of the Trie. -/
  root : Nat
  /-- The number of elements in this Trie. -/
  m_size : Int
  deriving DecidableEq

/-- The constructor `Trie::Trie()`: the root `Node(0, nullptr)` takes the next free
address. -/
def Trie.new (m : Mem) : Mem × Trie :=
  (m ++ [Node.new nul none], { root := m.length, m_size := 0 })

/-- `Trie::insert(s)`. -/
def Trie.insert (m : Mem) (t : Trie) (s : String) : Option (Mem × Trie) :=
  match insertRec s.data m t.root with
  | none => none
  | some r =>
    match setCacheString r.1 r.2 s with
    | none => none
    | some m2 => some (m2, { t with m_size := int32 (t.m_size + 1) })

/-- `Trie::insertCase(s)`. -/
def Trie.insertCase (m : Mem) (t : Trie) (s : String) : Option (Mem × Trie) :=
  match insertCaseRec s.data m t.root with
  | none => none
  | some r =>
    match setCacheString r.1 r.2 s with
    | none => none
    | some m2 => some (m2, { t with m_size := int32 (t.m_size + 1) })

/-- `Trie::insertCase_nocache(s)`. -/
def Trie.insertCase_nocache (m : Mem) (t : Trie) (s : String) : Option (Mem × Trie) :=
  match insertCaseRec s.data m t.root with
  | none => none
  | some r => some (r.1, { t with m_size := int32 (t.m_size + 1) })

/-- The class `Trie::SearchIterator`. -/
structure SearchIterator where
  /-- The current node being visited. -/
  curNode : Option Nat
  deriving DecidableEq

/-- `Trie::beginSearch()`. -/
def Trie.beginSearch (t : Trie) : SearchIterator :=
  { curNode := some t.root }

/-- `SearchIterator::inSet()`. -/
def SearchIterator.inSet (m : Mem) (it : SearchIterator) : Option Bool :=
  match it.curNode with
  | none => some false
  | some a =>
    match m[a]? with
    | none => none
    | some n => some n.value_here

/-- `SearchIterator::reachable()`. -/
def SearchIterator.reachable (it : SearchIterator) : Bool :=
  match it.curNode with
  | none => false
  | some _ => true

/-- `SearchIterator::next(c)`. -/
def SearchIterator.next (m : Mem) (it : SearchIterator) (c : Char) : Option SearchIterator :=
  match it.curNode with
  | none => some it
  | some a =>
    match child m a (Boggle.Node.index c) with
    | none => none
    | some b => some { curNode := b }

/-- `SearchIterator::charHere()`: dereferences `curNode` without a test. -/
def SearchIterator.charHere (m : Mem) (it : SearchIterator) : Option Char :=
  match it.curNode with
  | none => none
  | some a =>
    match m[a]? with
    | none => none
    | some n => some n.char_here

/-- `SearchIterator::up()`. -/
def SearchIterator.up (m : Mem) (it : SearchIterator) : Option SearchIterator :=
  match it.curNode with
  | none => some it
  | some a =>
    match m[a]? with
    | none => none
    | some n => some { curNode := n.parent }

/-- `SearchIterator::getCacheString()`. -/
def SearchIterator.getCacheString (m : Mem) (it : SearchIterator) : Option (Option String) :=
  match it.curNode with
  | none => some none
  | some a =>
    match m[a]? with
    | none => none
    | some n => some n.str

/-- The recursive helper `Trie::insertForeignIt(it, r, c)` with a budget for the
walk up the parent pointers. -/
def insertForeignItRec (m : Mem) : Nat → SearchIterator → Nat → Char → Option (Mem × Nat)
  | 0, _, _, _ => none
  | fuel + 1, it, r, c =>
    if !it.reachable then some (m, r)
    else
      match it.charHere m, it.up m with
      | some tmp, some it1 =>
        match insertForeignItRec m fuel it1 r tmp with
        | none => none
        | some n => if c = nul then some n else get n.1 n.2 c
      | _, _ => none

/-- `Trie::insertForeignIt(it)`; the walk up gets one step for each node of the
memory, and one more. -/
def Trie.insertForeignIt (m : Mem) (t : Trie) (it : SearchIterator) : Option (Mem × Trie) :=
  match insertForeignItRec m (m.length + 1) it t.root nul with
  | none => none
  | some n =>
    match setValue n.1 n.2 with
    | none => none
    | some m1 =>
      match it.getCacheString m1 with
      | none => none
      | some none => some (m1, { t with m_size := int32 (t.m_size + 1) })
      | some (some s) =>
        match setCacheString m1 n.2 s with
        | none => none
        | some m2 => some (m2, { t with m_size := int32 (t.m_size + 1) })

/-- The read `g[y][x]` of a `[5][5]` array. -/
def read {α : Type} (g : Grid α) (y x : Int) : Option α :=
  if 0 ≤ y ∧ y < 5 ∧ 0 ≤ x ∧ x < 5 then some (Grid.at g y x) else none

/-- The write `g[y][x] = v` to a `[5][5]` array. -/
def write {α : Type} (g : Grid α) (y x : Int) (v : α) : Option (Grid α) :=
  if 0 ≤ y ∧ y < 5 ∧ 0 ≤ x ∧ x < 5 then some (Grid.set g y x v) else none

/-- The class `Board`. -/
structure Board where
  /-- The letters of the 25 cells. -/
  board : Grid Char
  /-- The dictionary. -/
  englishWords : Trie

/-- The iterator after one board move onto a cell holding `ch`: `it.next(ch)`,
and `it.next('U')` as well when `ch == 'Q'`. -/
def Board.step (m : Mem) (it : SearchIterator) (ch : Char) : Option SearchIterator :=
  match it.next m ch with
  | none => none
  | some it1 => if ch = 'Q' then it1.next m 'U' else some it1

/-- The state the search works on: the memory, the array `used` and the object
`foundwords`. -/
abbrev SearchState := Mem × Grid Bool × Trie

/-- The recursive helper `Board::allWords(si, r, c, used, foundwords)` with a depth
budget. -/
def Board.allWordsRec (b : Board) :
    Nat → SearchIterator → Int → Int → SearchState → Option SearchState
  | 0, _, _, _, _ => none
  | fuel + 1, si, r, c, st =>
    if !si.reachable then some st
    else
      match si.inSet st.1 with
      | none => none
      | some inS =>
        match (if inS then
            match st.2.2.insertForeignIt st.1 si with
            | none => none
            | some r1 => some (r1.1, st.2.1, r1.2)
          else some st) with
        | none => none
        | some st0 =>
          [r - 1, r, r + 1].foldlM
            (fun st y =>
              [c - 1, c, c + 1].foldlM
                (fun (st : SearchState) x =>
                  if x < 0 ∨ y < 0 ∨ y ≥ 5 ∨ x ≥ 5 then some st
                  else
                    match read st.2.1 y x with
                    | none => none
                    | some u =>
                      if !u then
                        match write st.2.1 y x true, read b.board y x with
                        | some used1, some ch =>
                          match Board.step st.1 si ch with
                          | none => none
                          | some it =>
                            match Board.allWordsRec b fuel it y x (st.1, used1, st.2.2) with
                            | none => none
                            | some st1 =>
                              match write st1.2.1 y x false with
                              | none => none
                              | some used2 => some (st1.1, used2, st1.2.2)
                        | _, _ => none
                      else some st)
                st)
            st0

/-- The search of `Board::allWords()`, up to its `return` statement: the memory and
the object `foundwords` when the loops are done. -/
def Board.allWordsLoops (b : Board) (m : Mem) : Option SearchState :=
  [(0 : Int), 1, 2, 3, 4].foldlM
    (fun st r =>
      [(0 : Int), 1, 2, 3, 4].foldlM
        (fun (st : SearchState) c =>
          match write st.2.1 r c true, read b.board r c with
          | some used1, some ch =>
            match Board.step st.1 b.englishWords.beginSearch ch with
            | none => none
            | some it =>
              match Board.allWordsRec b 25 it r c (st.1, used1, st.2.2) with
              | none => none
              | some st1 =>
                match write st1.2.1 r c false with
                | none => none
                | some used2 => some (st1.1, used2, st1.2.2)
          | _, _ => none)
        st)
    ((Trie.new m).1, fun _ _ => false, (Trie.new m).2)

/-- `Node::buildString(s, n)` with a budget for the walk up the parent pointers. -/
def buildString (m : Mem) : Nat → String → Option Nat → Option String
  | 0, _, _ => none
  | fuel + 1, s, n =>
    match n with
    | none => some s
    | some a =>
      match m[a]? with
      | none => none
      | some node =>
        if node.char_here = nul then some s
        else
          match buildString m fuel s node.parent with
          | none => none
          | some s1 => some (s1.push node.char_here)

/-- `Node::toString()` called on the node at address `a`: the memory after the call
(the string built is stored in the cache) and the string returned. -/
def toString (m : Mem) (a : Nat) : Option (Mem × String) :=
  match m[a]? with
  | none => none
  | some node =>
    match node.str with
    | some s => some (m, s)
    | none =>
      match buildString m (m.length + 1) "" (some a) with
      | none => none
      | some s =>
        match setCacheString m a s with
        | none => none
        | some m1 => some (m1, s)

/-- The recursive helper `Trie::enqueue(Node* n, q)` with a depth budget, on the
memory and the vector `q`. -/
def enqueueRec : Nat → Option Nat → Mem × List String → Option (Mem × List String)
  | 0, _, _ => none
  | _ + 1, none, st => some st
  | fuel + 1, some a, st =>
    match st.1[a]? with
    | none => none
    | some node =>
      match (if node.value_here then
          match toString st.1 a with
          | none => none
          | some r => some (r.1, st.2 ++ [r.2])
        else some st) with
      | none => none
      | some st1 =>
        (List.range 26).foldlM
          (fun st i =>
            match child st.1 a (i : Int) with
            | none => none
            | some ch => enqueueRec fuel ch st)
          st1

/-- `Trie::enqueue()`; the recursion gets one level for each node of the memory. -/
def Trie.enqueue (m : Mem) (t : Trie) : Option (Mem × List String) :=
  (List.range 26).foldlM
    (fun st i =>
      match child st.1 t.root (i : Int) with
      | none => none
      | some ch => enqueueRec m.length ch st)
    (m, [])

/-- `Board::allWords()`: the memory after the call and the vector returned. -/
def Board.allWords (b : Board) (m : Mem) : Option (Mem × List String) :=
  match b.allWordsLoops m with
  | none => none
  | some st => st.2.2.enqueue st.1

end Heap

/-! ## Specification vocabulary -/

/-- The character is one of the letters `A` .. `Z`. -/
def isAZ (c : Char) : Prop :=
  65 ≤ c.toNat ∧ c.toNat ≤ 90

instance (c : Char) : Decidable (isAZ c) :=
  inferInstanceAs (Decidable (65 ≤ c.toNat ∧ c.toNat ≤ 90))

/-- A string over the alphabet `A` .. `Z`. -/
def AZ (s : String) : Prop :=
  ∀ c ∈ s.data, isAZ c

instance (s : String) : Decidable (AZ s) :=
  inferInstanceAs (Decidable (∀ c ∈ s.data, isAZ c))

/-- The node reached from a (nullable) node by following the child links for the
characters of a string, as `Trie::find` and `SearchIterator::next` do. -/
def Node.descend : Option Node → List Char → Option Node
  | none, _ => none
  | some n, [] => some n
  | some n, c :: cs => Node.descend (n.child (Node.index c)) cs

/-- The node after the chain of `Node::get` calls for the characters of a string:
the path exists, missing nodes having been created. -/
def Node.ensure : Node → List Char → Node
  | n, [] => n
  | n, c :: cs => n.setChild (Node.index c) (Node.ensure (n.get c) cs)

/-- The trie obtained from the empty trie by `insert` calls, in order. -/
def Trie.build (ws : List String) : Trie :=
  ws.foldl Trie.insert Trie.empty

/-- The iterator obtained from `beginSearch()` by `next(c)` for each character of
the string, in order. -/
def Trie.cursorAt (t : Trie) (s : String) : SearchIterator :=
  s.data.foldl SearchIterator.next t.beginSearch

/-- What can be read off a single node: its fields other than the child nodes
themselves, of which only the number of slots is kept. -/
structure NodeView where
  /-- The field `char_here`. -/
  ch : Char
  /-- The field `value_here`. -/
  val : Bool
  /-- The field `str`. -/
  cache : Option String
  /-- The number of child slots. -/
  slots : Nat

/-- The view of a node. -/
def Node.view (n : Node) : NodeView :=
  { ch := n.char_here, val := n.value_here, cache := n.str, slots := n.children.length }

/-- The view of the node at the end of a path, if the path exists. -/
def Node.obs (o : Option Node) (p : List Char) : Option NodeView :=
  (Node.descend o p).map Node.view

/-- The view of a node just created by `Node::get` at the end of the path `p`. -/
def NodeView.fresh (p : List Char) : NodeView :=
  { ch := p.getLastD nul, val := false, cache := none, slots := 26 }

/-- Every node below `n` has its 26 child slots. -/
def Node.LenOK (n : Node) : Prop :=
  ∀ p v, Node.obs (some n) p = some v → v.slots = 26

/-- The view of the node of a trie at the end of a path from the root. -/
def Trie.obs (t : Trie) (p : List Char) : Option NodeView :=
  Node.obs (some t.root) p

/-- The shape every trie has: each node has 26 child slots, the root holds the
character 0 and the child in the slot of a letter holds that letter. -/
structure Trie.WF (t : Trie) : Prop where
  /-- Each node has its 26 child slots. -/
  slots : ∀ p v, t.obs p = some v → v.slots = 26
  /-- Each node holds the last character of its path. -/
  chars : ∀ p v, t.obs p = some v → v.ch = p.getLastD nul

/-- Each word node caches the string of its own path (what `insert` leaves). -/
def Trie.Cached (t : Trie) : Prop :=
  ∀ p v, t.obs p = some v → v.val = true → v.cache = some (String.mk p)

/-- The path that `Trie::insertForeignIt(it, r, c)` walks in the local trie: the
characters read on the way up from the node of the iterator, in root-first order,
followed by `c`; the character 0 stands for no character. -/
def Trie.pathOf : NodePtr → Char → List Char
  | [], _ => []
  | m :: parent, c => Trie.pathOf parent m.char_here ++ (if c = nul then [] else [c])

/-- The letter whose child slot is `i` (for `i < 26`). -/
def letter (i : Nat) : Char :=
  Char.ofNat (65 + i)

/-- The path `p` below the node exists and ends on a word node. -/
def Node.isWord (o : Option Node) (p : List Char) : Prop :=
  ∃ v, Node.obs o p = some v ∧ v.val = true

/-- Each word node below `n`, itself at the end of the path `base`, caches the
string of its own path. -/
def Node.CachedAt (base : List Char) (n : Node) : Prop :=
  ∀ p v, Node.obs (some n) p = some v → v.val = true → v.cache = some (String.mk (base ++ p))

/-- A cell of the board: its row and column. -/
abbrev Cell := Fin 5 × Fin 5

/-- The row of a cell as the `int` the source computes with. -/
def Cell.row (a : Cell) : Int :=
  (a.1.val : Int)

/-- The column of a cell as the `int` the source computes with. -/
def Cell.col (a : Cell) : Int :=
  (a.2.val : Int)

/-- Row and column of the two cells differ by at most one (the cell itself
included). -/
def near (a a' : Cell) : Prop :=
  a'.row - a.row ≤ 1 ∧ a.row - a'.row ≤ 1 ∧ a'.col - a.col ≤ 1 ∧ a.col - a'.col ≤ 1

instance (a a' : Cell) : Decidable (near a a') :=
  inferInstanceAs (Decidable (_ ∧ _ ∧ _ ∧ _))

/-- The two cells are 8-adjacent: distinct, and neighbours horizontally,
vertically or diagonally, without wraparound. -/
def adjacent (a a' : Cell) : Prop :=
  a ≠ a' ∧ near a a'

instance (a a' : Cell) : Decidable (adjacent a a') :=
  inferInstanceAs (Decidable (_ ∧ _))

/-- The letters a cell contributes to a word: its letter, and `QU` for `Q`. -/
def cellLetters (ch : Char) : List Char :=
  if ch = 'Q' then ['Q', 'U'] else [ch]

/-- The string spelled by a sequence of cells of the board. -/
def Board.spell (b : Board) (path : List Cell) : List Char :=
  path.flatMap (fun a => cellLetters (b.board a.1 a.2))

/-- A board path: a non-empty sequence of pairwise distinct cells in which each
consecutive pair is 8-adjacent. -/
def IsBoardPath (path : List Cell) : Prop :=
  path ≠ [] ∧ path.Nodup ∧ List.Chain' adjacent path

instance (path : List Cell) : Decidable (IsBoardPath path) :=
  inferInstanceAs (Decidable (_ ∧ _ ∧ _))

/-- The cells `ext` continue a path standing on `a`: each step goes to a near
cell, no cell is repeated and none is marked in `used`. -/
def Reach (used : Grid Bool) (a : Cell) (ext : List Cell) : Prop :=
  List.Chain near a ext ∧ ext.Nodup ∧ ∀ a' ∈ ext, used a'.1 a'.2 = false

/-- The number of cells not marked in `used`. -/
def unusedCount (used : Grid Bool) : Nat :=
  (Finset.univ.filter (fun a : Cell => used a.1 a.2 = false)).card

/-- The iterator obtained from `beginSearch()` by `next(c)` for each character of
the list, in order. -/
def Trie.cursorAtList (t : Trie) (p : List Char) : SearchIterator :=
  p.foldl SearchIterator.next t.beginSearch

/-- One pass of the body of the two nested loops of the recursive helper
`Board::allWords`, for the neighbour in row `y` and column `x`. -/
def Board.neighbour (b : Board) (fuel : Nat) (si : SearchIterator) (st : Grid Bool × Trie)
    (y x : Int) : Option (Grid Bool × Trie) :=
  if x < 0 ∨ y < 0 ∨ y ≥ 5 ∨ x ≥ 5 then some st
  else if !(Grid.at st.1 y x) then
    let ch := Grid.at b.board y x
    match Board.allWordsRec b fuel (Board.step si ch) y x (Grid.set st.1 y x true) st.2 with
    | none => none
    | some st1 => some (Grid.set st1.1 y x false, st1.2)
  else some st

/-- One pass of the body of the two nested loops of `Board::allWords()`, for the
start cell in row `r` and column `c`. -/
def Board.start (b : Board) (st : Grid Bool × Trie) (r c : Int) : Option (Grid Bool × Trie) :=
  let ch := Grid.at b.board r c
  match Board.allWordsRec b 25 (Board.step b.englishWords.beginSearch ch) r c
      (Grid.set st.1 r c true) st.2 with
  | none => none
  | some st1 => some (Grid.set st1.1 r c false, st1.2)

/-- The word `x` is found from the cell `a`, reached with the letters `p`: it is a
dictionary word and `p` followed by the letters of a continuation of the path. -/
def Board.Added (b : Board) (used : Grid Bool) (p : List Char) (a : Cell) (x : List Char) :
    Prop :=
  Node.isWord (some b.englishWords.root) x ∧ ∃ ext, Reach used a ext ∧ x = p ++ b.spell ext

/-- With the depth budget `fuel`, every call of the recursive helper of
`Board::allWords` whose budget exceeds the number of unmarked cells returns, leaves
`used` as it was and adds to the found words exactly the words found from its cell. -/
def Board.CallOK (b : Board) (fuel : Nat) : Prop :=
  ∀ (p : List Char) (a : Cell) (used : Grid Bool) (fw : Trie),
    unusedCount used < fuel → fw.WF → fw.Cached →
      ∃ fw', b.allWordsRec fuel (b.englishWords.cursorAtList p) a.row a.col used fw =
          some (used, fw') ∧ fw'.WF ∧ fw'.Cached ∧
        ∀ x, Node.isWord (some fw'.root) x ↔ Node.isWord (some fw.root) x ∨ b.Added used p a x

/-- The example board: `C A T` in the first row, `X X S` in the second, and `X`
in every other cell. -/
def exampleGrid : Grid Char :=
  fun i j => ((["CATXX", "XXSXX", "XXXXX", "XXXXX", "XXXXX"].getD i.val "").data.getD j.val 'X')

/-- The character is an ASCII letter, upper or lower case. -/
def isLetter (c : Char) : Prop :=
  isAZ c ∨ (97 ≤ c.toNat ∧ c.toNat ≤ 122)

instance (c : Char) : Decidable (isLetter c) :=
  inferInstanceAs (Decidable (_ ∨ _))

/-- A string of ASCII letters. -/
def Letters (s : String) : Prop :=
  ∀ c ∈ s.data, isLetter c

instance (s : String) : Decidable (Letters s) :=
  inferInstanceAs (Decidable (∀ c ∈ s.data, isLetter c))

/-- The string with every character passed through `toupper`. -/
def upperString (s : String) : String :=
  String.mk (s.data.map toupper)

/-- The trie `t'` is the trie `t` with the path `w` made a word: the nodes on the
path exist (the missing ones fresh), the node at its end is a word node with some
cache, and nothing else differs. -/
structure Trie.Adds (t t' : Trie) (w : List Char) : Prop where
  /-- The node at the end of `w` is a word node. -/
  target : ∃ c, t'.obs w =
    some { (t.obs w).getD (NodeView.fresh w) with val := true, cache := c }
  /-- The nodes on the way to `w` exist and are otherwise unchanged. -/
  onPath : ∀ p, p ≠ w → p <+: w → t'.obs p = some ((t.obs p).getD (NodeView.fresh p))
  /-- The nodes off the path are unchanged. -/
  offPath : ∀ p, ¬ p <+: w → t'.obs p = t.obs p

/-- The rendering of one cell: `Qu` for `Q`, else the letter and a space. -/
def renderCell (ch : Char) : String :=
  if ch = 'Q' then "Qu" else String.mk [ch, ' ']

/-- The rendering of one row: its five cells in column order. -/
def Board.renderRow (b : Board) (r : Fin 5) : String :=
  String.join ((List.finRange 5).map fun c => renderCell (b.board r c))

/-- The rendering of the board: its five rows joined by line breaks. -/
def Board.render (b : Board) : String :=
  "\n".intercalate ((List.finRange 5).map b.renderRow)

/-- The 25 cells of a grid, row after row. -/
def Grid.cells {α : Type} (g : Grid α) : List α :=
  (List.finRange 5).flatMap fun r => (List.finRange 5).map fun c => g r c

/-- Each node below `n` holds the letter of the slot it is in. -/
def Node.CharsOK (n : Node) : Prop :=
  ∀ p c v, Node.obs (some n) (p ++ [c]) = some v → v.ch = c

/-- The string `enqueue` reports for a word node: the cached string, and the string
of the path when nothing is cached. -/
def effString (o : Option NodeView) (path : List Char) : String :=
  (o.bind NodeView.cache).getD (String.mk path)

/-- With the depth budget `fuel`, every call of the recursive helper of
`Board::allWords` on an iterator satisfying `Q` whose budget exceeds the number of
unmarked cells returns, leaves `used` as it was and keeps the property `P` of the
found words. -/
def Board.RunsOK (b : Board) (Q : SearchIterator → Prop) (P : Trie → Prop) (fuel : Nat) :
    Prop :=
  ∀ (si : SearchIterator) (r c : Int) (used : Grid Bool) (fw : Trie),
    Q si → P fw → unusedCount used < fuel →
      ∃ fw', b.allWordsRec fuel si r c used fw = some (used, fw') ∧ P fw'

/-- Each word node caches a string whose upper-case form is the path of the node
(what `insertCase` leaves). -/
def Trie.CachedUpper (t : Trie) : Prop :=
  ∀ p v, t.obs p = some v → v.val = true → ∃ s, v.cache = some s ∧ s.data.map toupper = p

/-- A call of one of the three string insertions of `Trie`. -/
inductive TrieOp where
  | insert (s : String)
  | insertCase (s : String)
  | insertCase_nocache (s : String)

/-- The string passed to the call. -/
def TrieOp.word : TrieOp → String
  | .insert s => s
  | .insertCase s => s
  | .insertCase_nocache s => s

/-- The string passed to the call is in the input language of the call: a string
over A-Z for `insert`, a string of ASCII letters for `insertCase` and
`insertCase_nocache`, which convert it to upper case. -/
def TrieOp.inLanguage : TrieOp → Prop
  | .insert s => AZ s
  | .insertCase s => Letters s
  | .insertCase_nocache s => Letters s

instance (op : TrieOp) : Decidable op.inLanguage :=
  match op with
  | .insert s => inferInstanceAs (Decidable (AZ s))
  | .insertCase s => inferInstanceAs (Decidable (Letters s))
  | .insertCase_nocache s => inferInstanceAs (Decidable (Letters s))

/-- The trie after the call. -/
def TrieOp.apply (t : Trie) : TrieOp → Trie
  | .insert s => t.insert s
  | .insertCase s => t.insertCase s
  | .insertCase_nocache s => t.insertCase_nocache s

/-- The trie obtained from the empty trie by the calls, in order. -/
def Trie.run (ops : List TrieOp) : Trie :=
  ops.foldl TrieOp.apply Trie.empty

/-- The tries that can be built from the empty trie by calls of `insert` (on strings
over A-Z), `insertCase`, `insertCase_nocache` (on strings of ASCII letters) and
`insertForeignIt` (on an iterator moved by `next` calls over another such trie). -/
inductive Trie.Built : Trie → Prop where
  | empty : Trie.Built Trie.empty
  | insert {t : Trie} (s : String) : Trie.Built t → AZ s → Trie.Built (t.insert s)
  | insertCase {t : Trie} (s : String) : Trie.Built t → Letters s → Trie.Built (t.insertCase s)
  | insertCase_nocache {t : Trie} (s : String) :
      Trie.Built t → Letters s → Trie.Built (t.insertCase_nocache s)
  | insertForeignIt {t A : Trie} (p : String) :
      Trie.Built t → Trie.Built A → Trie.Built (t.insertForeignIt (A.cursorAt p))

/-- No dead branches: every node other than the root has a word node below it
(itself included). -/
def Trie.NoDead (t : Trie) : Prop :=
  ∀ p, t.obs p ≠ none → p ≠ [] → ∃ e, Node.isWord (some t.root) (p ++ e)


namespace Heap

/-- The shape of the memory: each node has 26 child slots; the child stored in slot
`k` of the node at `a` lies at a later address, has `a` as its parent and holds the
letter of the slot; a node with a parent lies after it and holds a letter A-Z; a
node without parent (a root) holds the character 0. -/
structure Inv (m : Mem) : Prop where
  /-- Each node has its 26 child slots. -/
  slots : ∀ (a : Nat) (n : Node), m[a]? = some n → n.children.length = 26
  /-- The child in slot `k` points back to the node and holds the letter of `k`. -/
  child : ∀ (a : Nat) (n : Node) (k b : Nat), m[a]? = some n →
    n.children[k]? = some (some b) →
    a < b ∧ ∃ nb : Node, m[b]? = some nb ∧ nb.parent = some a ∧ nb.char_here = letter k
  /-- A parent lies at an earlier address; a node with a parent holds a letter. -/
  parent : ∀ (a : Nat) (n : Node) (p : Nat), m[a]? = some n → n.parent = some p → p < a ∧ isAZ n.char_here
  /-- A root holds the character 0. -/
  root : ∀ (a : Nat) (n : Node), m[a]? = some n → n.parent = none → n.char_here = nul

/-- The iterator is null or points to a node of the memory. -/
def Valid (m : Mem) (it : SearchIterator) : Prop :=
  ∀ a, it.curNode = some a → a < m.length

/-- The memories that calls of the constructor and of the four insertions of `Trie`
produce from the empty memory: `insert` on strings over A-Z, `insertCase` and
`insertCase_nocache` on strings of ASCII letters, on a trie whose root is in the
memory, `insertForeignIt` on an iterator that is null or points to a node. -/
inductive Built : Mem → Prop where
  | empty : Built []
  | newTrie {m : Mem} : Built m → Built (Trie.new m).1
  | insert {m : Mem} (t : Trie) (s : String) (r : Mem × Trie) :
      Built m → t.root < m.length → AZ s → t.insert m s = some r → Built r.1
  | insertCase {m : Mem} (t : Trie) (s : String) (r : Mem × Trie) :
      Built m → t.root < m.length → Letters s → t.insertCase m s = some r → Built r.1
  | insertCase_nocache {m : Mem} (t : Trie) (s : String) (r : Mem × Trie) :
      Built m → t.root < m.length → Letters s → t.insertCase_nocache m s = some r → Built r.1
  | insertForeignIt {m : Mem} (t : Trie) (it : SearchIterator) (r : Mem × Trie) :
      Built m → t.root < m.length → Valid m it → t.insertForeignIt m it = some r → Built r.1

/-- A new trie in the empty memory, and `insert` of each string, in order. -/
def Trie.build (ws : List String) : Option (Mem × Trie) :=
  ws.foldlM (fun st w => st.2.insert st.1 w) (Trie.new [])

/-- The first two statements of the helper once the iterator is known to be
reachable: `if (si.inSet()) foundwords.insertForeignIt(si)`. -/
def Board.found (si : SearchIterator) (st : SearchState) : Option SearchState :=
  match si.inSet st.1 with
  | none => none
  | some inS =>
    if inS then
      match st.2.2.insertForeignIt st.1 si with
      | none => none
      | some r1 => some (r1.1, st.2.1, r1.2)
    else some st

/-- One pass of the body of the two nested loops of the recursive helper
`Board::allWords`, for the neighbour in row `y` and column `x`. -/
def Board.neighbour (b : Board) (fuel : Nat) (si : SearchIterator) (st : SearchState)
    (y x : Int) : Option SearchState :=
  if x < 0 ∨ y < 0 ∨ y ≥ 5 ∨ x ≥ 5 then some st
  else
    match read st.2.1 y x with
    | none => none
    | some u =>
      if !u then
        match write st.2.1 y x true, read b.board y x with
        | some used1, some ch =>
          match Board.step st.1 si ch with
          | none => none
          | some it =>
            match Board.allWordsRec b fuel it y x (st.1, used1, st.2.2) with
            | none => none
            | some st1 =>
              match write st1.2.1 y x false with
              | none => none
              | some used2 => some (st1.1, used2, st1.2.2)
        | _, _ => none
      else some st

/-- One pass of the body of the two nested loops of `Board::allWords()`, for the
start cell in row `r` and column `c`. -/
def Board.start (b : Board) (st : SearchState) (r c : Int) : Option SearchState :=
  match write st.2.1 r c true, read b.board r c with
  | some used1, some ch =>
    match Board.step st.1 b.englishWords.beginSearch ch with
    | none => none
    | some it =>
      match Board.allWordsRec b 25 it r c (st.1, used1, st.2.2) with
      | none => none
      | some st1 =>
        match write st1.2.1 r c false with
        | none => none
        | some used2 => some (st1.1, used2, st1.2.2)
  | _, _ => none

/-- The memory after `Trie t; t.insert("AT")`: the root at address 0, the node of
`A` at 1 and the node of `AT` at 2. -/
def exampleMem : Mem :=
  [{ parent := none, char_here := nul, value_here := false,
      children := (List.replicate 26 none).set 0 (some 1), str := none },
    { parent := some 0, char_here := 'A', value_here := false,
      children := (List.replicate 26 none).set 19 (some 2), str := none },
    { parent := some 1, char_here := 'T', value_here := true,
      children := List.replicate 26 none, str := some "AT" }]

/-- With the depth budget `fuel`, every call of the recursive helper of
`Board::allWords` whose budget exceeds the number of unmarked cells returns, leaves
`used` as it was, keeps the shape of the memory and leaves every node at an address
below the root of `foundwords` as it was. -/
def Board.RunsOK (b : Board) (fuel : Nat) : Prop :=
  ∀ (si : SearchIterator) (r c : Int) (m : Mem) (used : Grid Bool) (fw : Trie),
    Inv m → Valid m si → fw.root < m.length → unusedCount used < fuel →
      ∃ (m' : Mem) (fw' : Trie),
        b.allWordsRec fuel si r c (m, used, fw) = some (m', used, fw') ∧ Inv m' ∧
          m.length ≤ m'.length ∧ fw'.root = fw.root ∧ ∀ x, x < fw.root → m'[x]? = m[x]?

/-- One pass of the loop of the helper of `enqueue` over the children of the node
at `a`: the visit of the child in slot `i`. -/
def enqueueChild (fuel : Nat) (a : Nat) (st : Mem × List String) (i : Nat) :
    Option (Mem × List String) :=
  match child st.1 a (i : Int) with
  | none => none
  | some ch => enqueueRec fuel ch st

/-- The statement `if (n->value_here) q.push_back(n->toString())` of the helper of
`enqueue`. -/
def enqueueHere (a : Nat) (node : Node) (st : Mem × List String) :
    Option (Mem × List String) :=
  if node.value_here then
    match toString st.1 a with
    | none => none
    | some r => some (r.1, st.2 ++ [r.2])
  else some st

end Heap

/-! ## Child slots -/

theorem index_nonneg_of_isAZ {c : Char} (h : isAZ c) : 0 ≤ Node.index c := by
  unfold Node.index
  have : ('A' : Char).toNat = 65 := by decide
  unfold isAZ at h
  omega

theorem index_toNat_lt_of_isAZ {c : Char} (h : isAZ c) : (Node.index c).toNat < 26 := by
  unfold Node.index
  have : ('A' : Char).toNat = 65 := by decide
  unfold isAZ at h
  omega

theorem toNat_inj_of_char {c d : Char} (h : c.toNat = d.toNat) : c = d := by
  rw [← Char.ofNat_toNat c, ← Char.ofNat_toNat d, h]

theorem index_inj {c d : Char} (h : Node.index c = Node.index d) : c = d := by
  unfold Node.index at h
  apply toNat_inj_of_char
  omega

theorem isAZ_of_index {c : Char} (h0 : 0 ≤ Node.index c) (h1 : (Node.index c).toNat < 26) :
    isAZ c := by
  unfold Node.index at h0 h1
  have : ('A' : Char).toNat = 65 := by decide
  unfold isAZ
  omega

theorem child_eq_some_range {n : Node} {i : Int} {m : Node} (h : n.child i = some m) :
    0 ≤ i ∧ i.toNat < n.children.length := by
  unfold Node.child at h
  split at h
  · rename_i h0
    refine ⟨h0, ?_⟩
    by_contra hlt
    rw [List.getD_eq_getElem?_getD, List.getElem?_eq_none (by omega)] at h
    simp at h
  · simp at h

theorem char_here_setChild (n : Node) (i : Int) (m : Node) :
    (n.setChild i m).char_here = n.char_here := by
  unfold Node.setChild
  split <;> rfl

theorem value_here_setChild (n : Node) (i : Int) (m : Node) :
    (n.setChild i m).value_here = n.value_here := by
  unfold Node.setChild
  split <;> rfl

theorem str_setChild (n : Node) (i : Int) (m : Node) :
    (n.setChild i m).str = n.str := by
  unfold Node.setChild
  split <;> rfl

theorem length_children_setChild (n : Node) (i : Int) (m : Node) :
    (n.setChild i m).children.length = n.children.length := by
  unfold Node.setChild
  split
  · simp [Node.children]
  · rfl

theorem child_setChild_self {n : Node} {i : Int} (m : Node) (h0 : 0 ≤ i)
    (h1 : i.toNat < n.children.length) : (n.setChild i m).child i = some m := by
  cases n with
  | mk c v cs s =>
    simp only [Node.children] at h1
    simp [Node.child, Node.setChild, h0, Node.children, List.getD_eq_getElem?_getD,
      List.getElem?_set, h1]

theorem child_setChild_ne (n : Node) {i j : Int} (m : Node) (h : i ≠ j) :
    (n.setChild i m).child j = n.child j := by
  unfold Node.child Node.setChild
  by_cases hi : 0 ≤ i
  · by_cases hj : 0 ≤ j
    · have hne : i.toNat ≠ j.toNat := by omega
      simp [hi, hj, Node.children, List.getD_eq_getElem?_getD, List.getElem?_set, hne]
    · simp [hj]
  · simp [hi]

theorem setChild_setChild (n : Node) (i : Int) (a b : Node) :
    (n.setChild i a).setChild i b = n.setChild i b := by
  unfold Node.setChild
  by_cases hi : 0 ≤ i
  · simp [hi, Node.children, Node.char_here, Node.value_here, Node.str, List.set_set]
  · simp [hi]

theorem child_new (c : Char) (i : Int) : (Node.new c).child i = none := by
  unfold Node.child Node.new
  split
  · simp only [Node.children]
    rw [List.getD_eq_getElem?_getD, List.getElem?_replicate]
    split <;> rfl
  · rfl

theorem child_setValue (n : Node) (v : Bool) (i : Int) : (n.setValue v).child i = n.child i := rfl

theorem child_setCacheString (n : Node) (s : String) (i : Int) :
    (n.setCacheString s).child i = n.child i := rfl


/-! ## Paths -/

theorem descend_none (p : List Char) : Node.descend none p = none := by
  cases p <;> rfl

theorem descend_nil (o : Option Node) : Node.descend o [] = o := by
  cases o <;> rfl

theorem descend_cons (n : Node) (c : Char) (cs : List Char) :
    Node.descend (some n) (c :: cs) = Node.descend (n.child (Node.index c)) cs := rfl

theorem descend_append (o : Option Node) (p q : List Char) :
    Node.descend o (p ++ q) = Node.descend (Node.descend o p) q := by
  induction p generalizing o with
  | nil => rw [descend_nil]; rfl
  | cons c cs ih =>
    cases o with
    | none => simp [descend_none]
    | some n => simp only [List.cons_append, descend_cons, ih]

theorem obs_none (p : List Char) : Node.obs none p = none := by
  simp [Node.obs, descend_none]

theorem obs_nil (n : Node) : Node.obs (some n) [] = some n.view := rfl

theorem obs_cons (n : Node) (c : Char) (cs : List Char) :
    Node.obs (some n) (c :: cs) = Node.obs (n.child (Node.index c)) cs := rfl

theorem findRec_eq_obs (o : Option Node) (s : List Char) :
    Trie.findRec o s =
      match Node.obs o s with
      | none => SearchResult.NOPREFIX
      | some v => if v.val then SearchResult.FOUND else SearchResult.NOTFOUND := by
  induction s generalizing o with
  | nil =>
    cases o with
    | none => rfl
    | some n => rfl
  | cons c cs ih =>
    cases o with
    | none => rfl
    | some n =>
      rw [obs_cons, ← ih]
      rfl

theorem Node.LenOK.slots26 {n : Node} (h : n.LenOK) : n.children.length = 26 :=
  h [] n.view rfl

theorem Node.LenOK.ofChild {n : Node} (h : n.LenOK) {c : Char} {m : Node}
    (hm : n.child (Node.index c) = some m) : m.LenOK := by
  intro p v hv
  apply h (c :: p) v
  rw [obs_cons, hm]
  exact hv

theorem LenOK_new (c : Char) : (Node.new c).LenOK := by
  intro p v hv
  cases p with
  | nil =>
    simp only [obs_nil, Option.some.injEq] at hv
    subst hv
    simp [Node.view, Node.new, Node.children]
  | cons d ds =>
    rw [obs_cons, child_new, obs_none] at hv
    cases hv

theorem Node.LenOK.ofGet {n : Node} (h : n.LenOK) (c : Char) : (n.get c).LenOK := by
  unfold Node.get
  split
  · rename_i m hm
    exact h.ofChild hm
  · exact LenOK_new c

theorem isAZ_of_child {n : Node} (h : n.children.length = 26) {c : Char} {m : Node}
    (hm : n.child (Node.index c) = some m) : isAZ c := by
  have := child_eq_some_range hm
  exact isAZ_of_index this.1 (by omega)

theorem isAZ_of_descend {n : Node} (h : n.LenOK) {p : List Char} {m : Node}
    (hm : Node.descend (some n) p = some m) : ∀ c ∈ p, isAZ c := by
  induction p generalizing n with
  | nil => simp
  | cons d ds ih =>
    rw [descend_cons] at hm
    cases hc : n.child (Node.index d) with
    | none => rw [hc, descend_none] at hm; cases hm
    | some k =>
      rw [hc] at hm
      intro c hcmem
      rcases List.mem_cons.1 hcmem with rfl | h'
      · exact isAZ_of_child h.slots26 hc
      · exact ih (h.ofChild hc) hm c h'


/-! ## The path-creating descent and writes through a pointer -/

theorem view_setChild (n : Node) (i : Int) (m : Node) : (n.setChild i m).view = n.view := by
  simp [Node.view, char_here_setChild, value_here_setChild, str_setChild,
    length_children_setChild]

theorem view_new (c : Char) (p : List Char) : (Node.new c).view = NodeView.fresh (p ++ [c]) := by
  simp [Node.view, Node.new, NodeView.fresh, Node.char_here, Node.value_here, Node.str,
    Node.children, List.getLastD_eq_getLast?]

theorem fresh_cons (c : Char) {p : List Char} (h : p ≠ []) :
    NodeView.fresh (c :: p) = NodeView.fresh p := by
  cases p with
  | nil => exact absurd rfl h
  | cons d ds => simp [NodeView.fresh, List.getLastD_eq_getLast?, List.getLast?_cons_cons]

theorem obs_new (c : Char) (p : List Char) :
    Node.obs (some (Node.new c)) p = if p = [] then some (NodeView.fresh [c]) else none := by
  cases p with
  | nil => simp [obs_nil, view_new c []]
  | cons d ds => simp [obs_cons, child_new, obs_none]

theorem obs_get_getD (n : Node) (c : Char) (p : List Char) :
    (Node.obs (some (n.get c)) p).getD (NodeView.fresh p) =
      (Node.obs (n.child (Node.index c)) p).getD (NodeView.fresh (c :: p)) := by
  unfold Node.get
  cases hc : n.child (Node.index c) with
  | some m =>
    simp only
    cases p with
    | nil => simp [obs_nil]
    | cons d ds => rw [fresh_cons c (List.cons_ne_nil d ds)]
  | none =>
    simp only [obs_none, obs_new]
    by_cases hp : p = []
    · subst hp; simp
    · simp [hp, fresh_cons c hp]

theorem obs_get_of_ne_nil (n : Node) (c : Char) {p : List Char} (hp : p ≠ []) :
    Node.obs (some (n.get c)) p = Node.obs (n.child (Node.index c)) p := by
  unfold Node.get
  cases hc : n.child (Node.index c) with
  | some m => rfl
  | none => simp [obs_none, obs_new, hp]

theorem obs_ensure {n : Node} (h : n.LenOK) {w : List Char} (hw : ∀ c ∈ w, isAZ c)
    (p : List Char) :
    Node.obs (some (Node.ensure n w)) p =
      if p <+: w then some ((Node.obs (some n) p).getD (NodeView.fresh p))
      else Node.obs (some n) p := by
  induction w generalizing n p with
  | nil =>
    by_cases hp : p = []
    · subst hp; simp [Node.ensure, obs_nil]
    · simp [Node.ensure, hp]
  | cons c cs ih =>
    have hc : isAZ c := hw c (List.mem_cons_self c cs)
    have hcs : ∀ d ∈ cs, isAZ d := fun d hd => hw d (List.mem_cons_of_mem c hd)
    have h0 := index_nonneg_of_isAZ hc
    have h1 : (Node.index c).toNat < n.children.length := by
      rw [h.slots26]; exact index_toNat_lt_of_isAZ hc
    cases p with
    | nil => simp [Node.ensure, obs_nil, view_setChild]
    | cons d ds =>
      by_cases hdc : d = c
      · subst hdc
        simp only [Node.ensure, obs_cons, child_setChild_self _ h0 h1, List.prefix_cons_inj]
        rw [ih (h.ofGet d) hcs ds]
        by_cases hpre : ds <+: cs
        · simp only [hpre, if_true, obs_get_getD]
        · have hne : ds ≠ [] := by
            rintro rfl
            exact hpre List.nil_prefix
          simp only [hpre, if_false, obs_get_of_ne_nil n d hne]
      · have hne : Node.index c ≠ Node.index d := fun e => hdc (index_inj e).symm
        have hnp : ¬ (d :: ds <+: c :: cs) := by
          rw [List.cons_prefix_cons]
          exact fun e => hdc e.1
        simp only [Node.ensure, obs_cons, child_setChild_ne _ _ hne, hnp, if_false]

theorem child_congr {m k : Node} (h : m.children = k.children) (i : Int) :
    m.child i = k.child i := by
  unfold Node.child
  rw [h]

theorem obs_modifyAt (f : Node → Node) (F : NodeView → NodeView)
    (hf : ∀ m, (f m).children = m.children) (hF : ∀ m, (f m).view = F m.view)
    (w : List Char) (n : Node) (p : List Char) :
    Node.obs (some (Node.modifyAt f (w.map Node.index) n)) p =
      (Node.obs (some n) p).map (fun x => if p = w then F x else x) := by
  induction w generalizing n p with
  | nil =>
    cases p with
    | nil => simp [Node.modifyAt, obs_nil, hF]
    | cons d ds => simp [Node.modifyAt, obs_cons, child_congr (hf n)]
  | cons c cs ih =>
    simp only [List.map_cons, Node.modifyAt]
    cases hc : n.child (Node.index c) with
    | none =>
      simp only
      by_cases hp : p = c :: cs
      · subst hp
        simp [obs_cons, hc, obs_none]
      · simp [hp]
    | some m0 =>
      simp only
      have hr := child_eq_some_range hc
      cases p with
      | nil => simp [obs_nil, view_setChild]
      | cons d ds =>
        by_cases hdc : d = c
        · subst hdc
          simp only [obs_cons, child_setChild_self _ hr.1 hr.2, hc, ih m0 ds,
            List.cons.injEq, true_and]
        · have hne : Node.index c ≠ Node.index d := fun e => hdc (index_inj e).symm
          simp [obs_cons, child_setChild_ne _ _ hne, hdc]

theorem insertRec_eq {n : Node} (h : n.LenOK) {w : List Char} (hw : ∀ c ∈ w, isAZ c) :
    Trie.insertRec n w =
      (Node.modifyAt (fun x => x.setValue true) (w.map Node.index) (Node.ensure n w),
        w.map Node.index) := by
  induction w generalizing n with
  | nil => rfl
  | cons c cs ih =>
    have hc : isAZ c := hw c (List.mem_cons_self c cs)
    have hcs : ∀ d ∈ cs, isAZ d := fun d hd => hw d (List.mem_cons_of_mem c hd)
    have h0 := index_nonneg_of_isAZ hc
    have h1 : (Node.index c).toNat < n.children.length := by
      rw [h.slots26]; exact index_toNat_lt_of_isAZ hc
    simp only [Trie.insertRec, ih (h.ofGet c) hcs, List.map_cons, Node.ensure, Node.modifyAt,
      child_setChild_self _ h0 h1, setChild_setChild]

theorem ensure_append {n : Node} (h : n.LenOK) {q : List Char} (hq : ∀ c ∈ q, isAZ c)
    (c : Char) :
    Node.ensure n (q ++ [c]) =
      Node.modifyAt (fun x => x.withChild c) (q.map Node.index) (Node.ensure n q) := by
  induction q generalizing n with
  | nil => rfl
  | cons d ds ih =>
    have hd : isAZ d := hq d (List.mem_cons_self d ds)
    have hds : ∀ e ∈ ds, isAZ e := fun e he => hq e (List.mem_cons_of_mem d he)
    have h0 := index_nonneg_of_isAZ hd
    have h1 : (Node.index d).toNat < n.children.length := by
      rw [h.slots26]; exact index_toNat_lt_of_isAZ hd
    have e := ih (h.ofGet d) hds
    simp only [List.cons_append, Node.ensure, List.map_cons, Node.modifyAt,
      child_setChild_self _ h0 h1, setChild_setChild]
    rw [← e]
    rfl


/-! ## `insert` and `find` -/

theorem find_eq_obs (t : Trie) (s : String) :
    t.find s =
      match t.obs s.data with
      | none => SearchResult.NOPREFIX
      | some v => if v.val then SearchResult.FOUND else SearchResult.NOTFOUND :=
  findRec_eq_obs (some t.root) s.data

theorem find_eq_found_iff (t : Trie) (s : String) :
    t.find s = .FOUND ↔ ∃ v, t.obs s.data = some v ∧ v.val = true := by
  rw [find_eq_obs]
  cases t.obs s.data with
  | none => simp
  | some v => cases hv : v.val <;> simp [hv]

theorem find_eq_noprefix_iff (t : Trie) (s : String) :
    t.find s = .NOPREFIX ↔ t.obs s.data = none := by
  rw [find_eq_obs]
  cases t.obs s.data with
  | none => simp
  | some v => cases hv : v.val <;> simp [hv]

theorem find_eq_notfound_iff (t : Trie) (s : String) :
    t.find s = .NOTFOUND ↔ ∃ v, t.obs s.data = some v ∧ v.val = false := by
  rw [find_eq_obs]
  cases t.obs s.data with
  | none => simp
  | some v => cases hv : v.val <;> simp [hv]

theorem obs_insert {t : Trie} (h : t.root.LenOK) {s : String} (hs : AZ s) (p : List Char) :
    (t.insert s).obs p =
      if p = s.data then
        some { (t.obs p).getD (NodeView.fresh p) with val := true, cache := some s }
      else if p <+: s.data then some ((t.obs p).getD (NodeView.fresh p))
      else t.obs p := by
  unfold Trie.insert Trie.obs
  simp only [insertRec_eq h hs]
  rw [obs_modifyAt (fun n => n.setCacheString s) (fun v => { v with cache := some s })
      (fun _ => rfl) (fun _ => rfl),
    obs_modifyAt (fun n => n.setValue true) (fun v => { v with val := true })
      (fun _ => rfl) (fun _ => rfl),
    obs_ensure h hs]
  by_cases hp : p = s.data
  · subst hp
    simp
  · simp only [hp, if_false]
    split <;> simp

theorem obs_empty (p : List Char) :
    Trie.empty.obs p = if p = [] then some (NodeView.fresh []) else none := by
  unfold Trie.empty Trie.obs
  rw [obs_new]
  rfl

theorem WF_empty : Trie.empty.WF := by
  constructor
  · intro p v hv
    rw [obs_empty] at hv
    split at hv
    · cases hv; rfl
    · cases hv
  · intro p v hv
    rw [obs_empty] at hv
    split at hv
    · rename_i hp; cases hv; subst hp; rfl
    · cases hv

theorem WF_insert {t : Trie} (h : t.WF) {s : String} (hs : AZ s) : (t.insert s).WF := by
  constructor
  · intro p v hv
    rw [obs_insert h.slots hs] at hv
    cases ho : t.obs p with
    | none =>
      rw [ho] at hv
      split at hv
      · cases hv; rfl
      · split at hv
        · cases hv; rfl
        · cases hv
    | some u =>
      rw [ho] at hv
      have := h.slots p u ho
      split at hv
      · cases hv; exact this
      · split at hv <;> (cases hv; exact this)
  · intro p v hv
    rw [obs_insert h.slots hs] at hv
    cases ho : t.obs p with
    | none =>
      rw [ho] at hv
      split at hv
      · cases hv; rfl
      · split at hv
        · cases hv; rfl
        · cases hv
    | some u =>
      rw [ho] at hv
      have := h.chars p u ho
      split at hv
      · cases hv; exact this
      · split at hv <;> (cases hv; exact this)

theorem Cached_empty : Trie.empty.Cached := by
  intro p v hv hval
  rw [obs_empty] at hv
  split at hv
  · cases hv; cases hval
  · cases hv

theorem Cached_insert {t : Trie} (h : t.WF) (hc : t.Cached) {s : String} (hs : AZ s) :
    (t.insert s).Cached := by
  intro p v hv hval
  rw [obs_insert h.slots hs] at hv
  split at hv
  · rename_i hp
    cases hv
    subst hp
    rfl
  · cases ho : t.obs p with
    | none =>
      rw [ho] at hv
      split at hv
      · cases hv; cases hval
      · cases hv
    | some u =>
      rw [ho] at hv
      have : v = u := by split at hv <;> (cases hv; rfl)
      subst this
      exact hc p v ho hval

theorem build_append (ws : List String) (w : String) :
    Trie.build (ws ++ [w]) = (Trie.build ws).insert w := by
  simp [Trie.build, List.foldl_append]

theorem WF_build {ws : List String} (h : ∀ w ∈ ws, AZ w) : (Trie.build ws).WF := by
  induction ws using List.reverseRecOn with
  | nil => exact WF_empty
  | append_singleton ws w ih =>
    rw [build_append]
    exact WF_insert (ih fun x hx => h x (List.mem_append_left _ hx))
      (h w (List.mem_append_right _ (List.mem_singleton_self w)))

theorem Cached_build {ws : List String} (h : ∀ w ∈ ws, AZ w) : (Trie.build ws).Cached := by
  induction ws using List.reverseRecOn with
  | nil => exact Cached_empty
  | append_singleton ws w ih =>
    rw [build_append]
    have h' : ∀ x ∈ ws, AZ x := fun x hx => h x (List.mem_append_left _ hx)
    exact Cached_insert (WF_build h') (ih h')
      (h w (List.mem_append_right _ (List.mem_singleton_self w)))

theorem obs_build_isSome {ws : List String} (h : ∀ w ∈ ws, AZ w) (p : List Char) :
    (Trie.build ws).obs p ≠ none ↔ p = [] ∨ ∃ w ∈ ws, p <+: w.data := by
  induction ws using List.reverseRecOn with
  | nil =>
    show Trie.empty.obs p ≠ none ↔ _
    rw [obs_empty]
    by_cases hp : p = [] <;> simp [hp]
  | append_singleton ws w ih =>
    have h' : ∀ x ∈ ws, AZ x := fun x hx => h x (List.mem_append_left _ hx)
    have hw : AZ w := h w (List.mem_append_right _ (List.mem_singleton_self w))
    rw [build_append, obs_insert (WF_build h').slots hw]
    have ih' := ih h'
    by_cases hp : p = w.data
    · subst hp
      simp only [if_true, ne_eq, not_false_eq_true, true_iff, reduceCtorEq]
      exact Or.inr ⟨w, by simp, List.prefix_rfl⟩
    · simp only [hp, if_false]
      by_cases hpre : p <+: w.data
      · simp only [hpre, if_true, ne_eq, not_false_eq_true, true_iff, reduceCtorEq]
        exact Or.inr ⟨w, by simp, hpre⟩
      · simp only [hpre, if_false, ih', List.mem_append, List.mem_singleton]
        constructor
        · rintro (h1 | ⟨x, hx, hpx⟩)
          · exact Or.inl h1
          · exact Or.inr ⟨x, Or.inl hx, hpx⟩
        · rintro (h1 | ⟨x, hx | hx, hpx⟩)
          · exact Or.inl h1
          · exact Or.inr ⟨x, hx, hpx⟩
          · subst hx; exact absurd hpx hpre

theorem obs_build_val {ws : List String} (h : ∀ w ∈ ws, AZ w) (p : List Char) :
    (∃ v, (Trie.build ws).obs p = some v ∧ v.val = true) ↔ String.mk p ∈ ws := by
  induction ws using List.reverseRecOn with
  | nil =>
    show (∃ v, Trie.empty.obs p = some v ∧ _) ↔ _
    rw [obs_empty]
    by_cases hp : p = [] <;> simp [hp, NodeView.fresh]
  | append_singleton ws w ih =>
    have h' : ∀ x ∈ ws, AZ x := fun x hx => h x (List.mem_append_left _ hx)
    have hw : AZ w := h w (List.mem_append_right _ (List.mem_singleton_self w))
    rw [build_append, obs_insert (WF_build h').slots hw]
    have ih' := ih h'
    by_cases hp : p = w.data
    · subst hp
      simp
    · have hpw : String.mk p ≠ w := fun e => hp (by rw [← e])
      simp only [hp, if_false, List.mem_append, List.mem_singleton, hpw, or_false, ← ih']
      cases ho : (Trie.build ws).obs p with
      | none =>
        by_cases hpre : p <+: w.data <;> simp [hpre, NodeView.fresh]
      | some u =>
        by_cases hpre : p <+: w.data <;> simp [hpre]


/-! ## Search iterators -/

theorem head_foldl_next (ch : NodePtr) (s : List Char) :
    (s.foldl SearchIterator.next { curNode := ch }).curNode.head? =
      Node.descend ch.head? s := by
  induction s generalizing ch with
  | nil => rw [descend_nil]; rfl
  | cons c cs ih =>
    cases ch with
    | nil =>
      simp only [List.foldl_cons, SearchIterator.next, List.head?_nil, descend_none]
      rw [ih]
      simp [descend_none]
    | cons n ps =>
      simp only [List.foldl_cons, List.head?_cons, descend_cons]
      cases hc : n.child (Node.index c) with
      | none =>
        simp only [SearchIterator.next, hc]
        rw [ih]
        simp [descend_none]
      | some m =>
        simp only [SearchIterator.next, hc]
        rw [ih]
        rfl

theorem head_cursorAt (t : Trie) (s : String) :
    (t.cursorAt s).curNode.head? = Node.descend (some t.root) s.data :=
  head_foldl_next [t.root] s.data

theorem inSet_eq (it : SearchIterator) :
    it.inSet = (it.curNode.head?.map Node.value_here).getD false := by
  unfold SearchIterator.inSet
  cases it.curNode <;> rfl

theorem reachable_eq (it : SearchIterator) : it.reachable = it.curNode.head?.isSome := by
  unfold SearchIterator.reachable
  cases it.curNode <;> rfl

theorem getCacheString_eq (it : SearchIterator) :
    it.getCacheString = it.curNode.head?.bind Node.str := by
  unfold SearchIterator.getCacheString
  cases it.curNode <;> rfl

theorem inSet_cursorAt (t : Trie) (s : String) :
    (t.cursorAt s).inSet = decide (t.find s = .FOUND) := by
  rw [inSet_eq, head_cursorAt, find_eq_obs]
  unfold Trie.obs Node.obs
  cases Node.descend (some t.root) s.data with
  | none => simp
  | some m =>
    simp only [Option.map_some', Option.getD_some, Node.view]
    by_cases hv : m.value_here = true <;> simp [hv]

theorem reachable_cursorAt (t : Trie) (s : String) :
    (t.cursorAt s).reachable = decide (t.find s ≠ .NOPREFIX) := by
  rw [reachable_eq, head_cursorAt, find_eq_obs]
  unfold Trie.obs Node.obs
  cases Node.descend (some t.root) s.data with
  | none => simp
  | some m =>
    simp only [Option.map_some', Option.isSome_some, Node.view]
    by_cases hv : m.value_here = true <;> simp [hv]

/-! ## `insertForeignIt` -/

theorem insertForeignItRec_eq {r : Node} (h : r.LenOK) (chain : NodePtr) (c : Char)
    (haz : ∀ x ∈ Trie.pathOf chain c, isAZ x) :
    Trie.insertForeignItRec chain r c =
      (Node.ensure r (Trie.pathOf chain c), (Trie.pathOf chain c).map Node.index) := by
  induction chain generalizing c with
  | nil => rfl
  | cons m ps ih =>
    have hq : ∀ x ∈ Trie.pathOf ps m.char_here, isAZ x := by
      intro x hx
      apply haz
      simp only [Trie.pathOf, List.mem_append]
      exact Or.inl hx
    simp only [Trie.insertForeignItRec, ih m.char_here hq, Trie.pathOf]
    by_cases hc : c = nul
    · simp [hc]
    · simp only [hc, if_false, List.map_append, List.map_cons, List.map_nil]
      rw [ensure_append h hq]

theorem not_isAZ_nul : ¬ isAZ nul := by decide

theorem pathOf_foldl_next {t : Trie} (h : t.WF) (s q : List Char) (n : Node) (ps : NodePtr)
    (hq : Node.descend (some t.root) q = some n)
    (hJ : ∀ c, Trie.pathOf (n :: ps) c = q ++ (if c = nul then [] else [c]))
    (hne : (s.foldl SearchIterator.next { curNode := n :: ps }).curNode ≠ []) (c : Char) :
    Trie.pathOf (s.foldl SearchIterator.next { curNode := n :: ps }).curNode c =
      (q ++ s) ++ (if c = nul then [] else [c]) := by
  induction s generalizing q n ps with
  | nil => simpa using hJ c
  | cons d ds ih =>
    simp only [List.foldl_cons] at hne ⊢
    cases hc : n.child (Node.index d) with
    | none =>
      exfalso
      apply hne
      simp only [SearchIterator.next, hc]
      have := head_foldl_next [] ds
      simp only [List.head?_nil, descend_none] at this
      exact List.head?_eq_none_iff.1 this
    | some m =>
      simp only [SearchIterator.next, hc] at hne ⊢
      have hqm : Node.descend (some t.root) (q ++ [d]) = some m := by
        rw [descend_append, hq, descend_cons, hc, descend_nil]
      have hch : m.char_here = d := by
        have := h.chars (q ++ [d]) m.view (by unfold Trie.obs Node.obs; rw [hqm]; rfl)
        simpa [Node.view] using this
      have hlen : n.children.length = 26 :=
        h.slots q n.view (by unfold Trie.obs Node.obs; rw [hq]; rfl)
      have hd : d ≠ nul := by
        intro e
        have := isAZ_of_child hlen hc
        rw [e] at this
        exact not_isAZ_nul this
      have hJ' : ∀ c, Trie.pathOf (m :: n :: ps) c = (q ++ [d]) ++ (if c = nul then [] else [c]) := by
        intro c
        show Trie.pathOf (n :: ps) m.char_here ++ _ = _
        rw [hJ, hch]
        simp [hd]
      have := ih (q ++ [d]) m (n :: ps) hqm hJ' hne
      simpa using this

theorem pathOf_cursorAt {t : Trie} (h : t.WF) (s : String)
    (hne : (t.cursorAt s).curNode ≠ []) : Trie.pathOf (t.cursorAt s).curNode nul = s.data := by
  have := pathOf_foldl_next h s.data [] t.root [] rfl (by intro c; rfl) hne nul
  simpa using this

theorem obs_insertForeignIt {t : Trie} (h : t.root.LenOK) (it : SearchIterator)
    (haz : ∀ c ∈ Trie.pathOf it.curNode nul, isAZ c) (x : List Char) :
    (t.insertForeignIt it).obs x =
      if x = Trie.pathOf it.curNode nul then
        some { (t.obs x).getD (NodeView.fresh x) with
          val := true
          cache :=
            match it.getCacheString with
            | some s => some s
            | none => ((t.obs x).getD (NodeView.fresh x)).cache }
      else if x <+: Trie.pathOf it.curNode nul then some ((t.obs x).getD (NodeView.fresh x))
      else t.obs x := by
  unfold Trie.insertForeignIt Trie.obs
  simp only [insertForeignItRec_eq h it.curNode nul haz]
  cases hs : it.getCacheString with
  | some s =>
    simp only
    rw [obs_modifyAt (fun n => n.setCacheString s) (fun v => { v with cache := some s })
        (fun _ => rfl) (fun _ => rfl),
      obs_modifyAt (fun n => n.setValue true) (fun v => { v with val := true })
        (fun _ => rfl) (fun _ => rfl),
      obs_ensure h haz]
    by_cases hp : x = Trie.pathOf it.curNode nul
    · simp [hp]
    · simp only [hp, if_false]
      split <;> simp
  | none =>
    simp only
    rw [obs_modifyAt (fun n => n.setValue true) (fun v => { v with val := true })
        (fun _ => rfl) (fun _ => rfl),
      obs_ensure h haz]
    by_cases hp : x = Trie.pathOf it.curNode nul
    · simp [hp]
    · simp only [hp, if_false]
      split <;> simp


/-! ## Claims about `insert`, `find` and iterators -/

/-- C3: in a trie built from the empty trie by `insert` calls on strings over A-Z,
`find(s) == FOUND`, and equally `get(s)`, holds exactly for the inserted strings `s`
(so a word is found right after its insertion and after any further insertions). -/
theorem find_found_iff_inserted (ws : List String) (hws : ∀ w ∈ ws, AZ w) (s : String)
    (_hs : AZ s) :
    ((Trie.build ws).find s = .FOUND ↔ s ∈ ws) ∧ ((Trie.build ws).get s = true ↔ s ∈ ws) := by
  have key : (Trie.build ws).find s = .FOUND ↔ s ∈ ws := by
    rw [find_eq_found_iff, obs_build_val hws]
  refine ⟨key, ?_⟩
  unfold Trie.get
  rw [decide_eq_true_iff]
  exact key

theorem find_found_iff_inserted_witness :
    (∀ w ∈ ["CAT", "AT"], AZ w) ∧ AZ "CAT" ∧
      ((Trie.build ["CAT", "AT"]).find "CAT" = .FOUND ↔ "CAT" ∈ ["CAT", "AT"]) ∧
      ((Trie.build ["CAT", "AT"]).get "CAT" = true ↔ "CAT" ∈ ["CAT", "AT"]) :=
  ⟨by decide, by decide,
    find_found_iff_inserted ["CAT", "AT"] (by decide) "CAT" (by decide)⟩

/-- C4, as the code has it: in a trie built from the empty trie by `insert` calls on
strings over A-Z, for a string `s` over A-Z that is non-empty, or when at least one
word was inserted, `find(s) == NOPREFIX` exactly when no inserted word begins with
`s`, and `find(s) == NOTFOUND` exactly when `s` is not an inserted word but a prefix
of a longer inserted word. -/
theorem find_three_way (ws : List String) (hws : ∀ w ∈ ws, AZ w) (s : String) (_hs : AZ s)
    (hne : s ≠ "" ∨ ws ≠ []) :
    ((Trie.build ws).find s = .NOPREFIX ↔ ¬ ∃ w ∈ ws, s.data <+: w.data) ∧
      ((Trie.build ws).find s = .NOTFOUND ↔
        s ∉ ws ∧ ∃ w ∈ ws, s.data <+: w.data ∧ s.length < w.length) := by
  have hex : (Trie.build ws).obs s.data ≠ none ↔ ∃ w ∈ ws, s.data <+: w.data := by
    rw [obs_build_isSome hws]
    constructor
    · rintro (h | h)
      · rcases hne with h' | h'
        · exact absurd (String.ext h) h'
        · cases ws with
          | nil => exact absurd rfl h'
          | cons w ws => exact ⟨w, List.mem_cons_self w ws, by rw [h]; exact List.nil_prefix⟩
      · exact h
    · exact Or.inr
  have hval := obs_build_val hws s.data
  have hmk : String.mk s.data = s := rfl
  rw [hmk] at hval
  constructor
  · rw [find_eq_noprefix_iff, ← hex]
    simp
  · rw [find_eq_notfound_iff]
    constructor
    · rintro ⟨v, hv, hf⟩
      have hnot : s ∉ ws := by
        intro hin
        obtain ⟨u, hu, hut⟩ := hval.2 hin
        rw [hv] at hu
        cases hu
        rw [hf] at hut
        cases hut
      refine ⟨hnot, ?_⟩
      obtain ⟨w, hw, hpre⟩ := hex.1 (by rw [hv]; simp)
      refine ⟨w, hw, hpre, ?_⟩
      have hle := hpre.length_le
      rcases Nat.lt_or_ge s.data.length w.data.length with h | h
      · exact h
      · exfalso
        have : s.data = w.data := hpre.eq_of_length (Nat.le_antisymm hle h)
        exact hnot (by rw [String.ext this]; exact hw)
    · rintro ⟨hnot, w, hw, hpre, _⟩
      have hsome : (Trie.build ws).obs s.data ≠ none := hex.2 ⟨w, hw, hpre⟩
      cases ho : (Trie.build ws).obs s.data with
      | none => exact absurd ho hsome
      | some v =>
        refine ⟨v, rfl, ?_⟩
        cases hv : v.val with
        | false => rfl
        | true => exact absurd (hval.1 ⟨v, ho, hv⟩) hnot

theorem find_three_way_witness :
    (∀ w ∈ ["CAT", "AT"], AZ w) ∧ AZ "CA" ∧ ("CA" ≠ "" ∨ ["CAT", "AT"] ≠ []) ∧
      ((Trie.build ["CAT", "AT"]).find "CA" = .NOPREFIX ↔
        ¬ ∃ w ∈ ["CAT", "AT"], "CA".data <+: w.data) ∧
      ((Trie.build ["CAT", "AT"]).find "CA" = .NOTFOUND ↔
        "CA" ∉ ["CAT", "AT"] ∧
          ∃ w ∈ ["CAT", "AT"], "CA".data <+: w.data ∧ "CA".length < w.length) :=
  ⟨by decide, by decide, by decide,
    find_three_way ["CAT", "AT"] (by decide) "CA" (by decide) (by decide)⟩

/-- C4 fails on the empty trie: no word was inserted, yet `find("")` is not
`NOPREFIX` (it is `NOTFOUND`, the root always being there). -/
theorem find_empty_string_in_empty_trie :
    ¬ ((Trie.build []).find "" = .NOPREFIX ↔
      ¬ ∃ w ∈ ([] : List String), "".data <+: w.data) := by
  intro h
  have h1 : (Trie.build []).find "" = .NOPREFIX := h.2 (by simp)
  revert h1
  decide

/-- C5, as the code has it: after `insert(w)` on any trie, a proper prefix `p` of
`w` is never `NOPREFIX`, and it is `NOTFOUND` exactly when it was not a word of the
trie before the call. -/
theorem find_proper_prefix_after_insert (t : Trie) (ht : t.WF) (w : String) (hw : AZ w)
    (p : String) (hp : p.data <+: w.data) (hne : p ≠ w) :
    (t.insert w).find p ≠ .NOPREFIX ∧
      ((t.insert w).find p = .NOTFOUND ↔ t.find p ≠ .FOUND) := by
  have hd : p.data ≠ w.data := fun e => hne (String.ext e)
  have ho := obs_insert ht.slots hw p.data
  simp only [hd, if_false, hp, if_true] at ho
  constructor
  · rw [Ne, find_eq_noprefix_iff, ho]
    simp
  · rw [find_eq_notfound_iff, Ne, find_eq_found_iff, ho]
    cases hq : t.obs p.data with
    | none => simp [NodeView.fresh]
    | some v => cases hv : v.val <;> simp [hv]

theorem find_proper_prefix_after_insert_witness :
    (Trie.build ["DOG"]).WF ∧ AZ "CAT" ∧ "CA".data <+: "CAT".data ∧ "CA" ≠ "CAT" ∧
      ((Trie.build ["DOG"]).insert "CAT").find "CA" ≠ .NOPREFIX ∧
      (((Trie.build ["DOG"]).insert "CAT").find "CA" = .NOTFOUND ↔
        (Trie.build ["DOG"]).find "CA" ≠ .FOUND) :=
  ⟨WF_build (by decide), by decide, by decide, by decide,
    find_proper_prefix_after_insert (Trie.build ["DOG"]) (WF_build (by decide)) "CAT"
      (by decide) "CA" (by decide) (by decide)⟩

/-- C5 fails when the prefix is itself a word: in the trie holding `A`, after
`insert("AT")` the proper prefix `A` is `FOUND`, not `NOTFOUND`. -/
theorem find_prefix_that_is_a_word :
    ¬ ((Trie.build ["A"]).insert "AT").find "A" = .NOTFOUND := by
  decide

/-- C6: for every trie and string, the iterator obtained from `beginSearch()` by
`next(c)` for each character of the string has `inSet() == (find(s) == FOUND)` and
`reachable() == (find(s) != NOPREFIX)`. -/
theorem cursor_find_equivalence (t : Trie) (s : String) :
    (t.cursorAt s).inSet = decide (t.find s = .FOUND) ∧
      (t.cursorAt s).reachable = decide (t.find s ≠ .NOPREFIX) :=
  ⟨inSet_cursorAt t s, reachable_cursorAt t s⟩

/-- C7: when `w` is a word of the trie `A`, copying `A`'s iterator positioned at the
end of `w` into any trie `B` with `insertForeignIt` makes `B.find(w) == FOUND`. -/
theorem insertForeignIt_copies_word (A B : Trie) (hA : A.WF) (hB : B.WF) (w : String)
    (_hw : AZ w) (hfound : A.find w = .FOUND) :
    (B.insertForeignIt (A.cursorAt w)).find w = .FOUND := by
  obtain ⟨v, hv, _⟩ := (find_eq_found_iff A w).1 hfound
  have hne : (A.cursorAt w).curNode ≠ [] := by
    intro e
    have := head_cursorAt A w
    rw [e] at this
    unfold Trie.obs Node.obs at hv
    rw [← this] at hv
    cases hv
  have hpath := pathOf_cursorAt hA w hne
  have haz : ∀ c ∈ Trie.pathOf (A.cursorAt w).curNode nul, isAZ c := by
    rw [hpath]
    unfold Trie.obs Node.obs at hv
    cases hd : Node.descend (some A.root) w.data with
    | none => rw [hd] at hv; cases hv
    | some m => exact isAZ_of_descend hA.slots hd
  rw [find_eq_found_iff, obs_insertForeignIt hB.slots _ haz, hpath]
  simp

theorem insertForeignIt_copies_word_witness :
    (Trie.build ["CAT"]).WF ∧ (Trie.build ["DOG"]).WF ∧ AZ "CAT" ∧
      (Trie.build ["CAT"]).find "CAT" = .FOUND ∧
      ((Trie.build ["DOG"]).insertForeignIt ((Trie.build ["CAT"]).cursorAt "CAT")).find "CAT" =
        .FOUND :=
  ⟨WF_build (by decide), WF_build (by decide), by decide, by decide,
    insertForeignIt_copies_word (Trie.build ["CAT"]) (Trie.build ["DOG"]) (WF_build (by decide))
      (WF_build (by decide)) "CAT" (by decide) (by decide)⟩


/-! ## Enumeration -/

theorem Node.induct {P : Node → Prop}
    (step : ∀ c v cs s, (∀ m, some m ∈ cs → P m) → P (.mk c v cs s)) (n : Node) : P n :=
  Node.rec (motive_1 := P) (motive_2 := fun cs => ∀ m, some m ∈ cs → P m)
    (motive_3 := fun o => ∀ m, o = some m → P m)
    (fun c v cs s ih => step c v cs s ih)
    (fun m hm => by cases hm)
    (fun o cs iho ihcs m hm => by
      rcases List.mem_cons.1 hm with h | h
      · exact iho m h.symm
      · exact ihcs m h)
    (fun m hm => by cases hm)
    (fun k ihk m hm => by cases hm; exact ihk)
    n

theorem enqueueChildren_nil (p : NodePtr) (q : List String) :
    Trie.enqueueChildren p [] q = q := by
  simp [Trie.enqueueChildren]

theorem enqueueChildren_none (p : NodePtr) (cs : List (Option Node)) (q : List String) :
    Trie.enqueueChildren p (none :: cs) q = Trie.enqueueChildren p cs q := by
  simp [Trie.enqueueChildren]

theorem enqueueChildren_some (p : NodePtr) (m : Node) (cs : List (Option Node))
    (q : List String) :
    Trie.enqueueChildren p (some m :: cs) q =
      Trie.enqueueChildren p cs (Trie.enqueueNode p m q) := by
  simp [Trie.enqueueChildren]

theorem enqueueNode_mk (p : NodePtr) (c : Char) (v : Bool) (cs : List (Option Node))
    (s : Option String) (q : List String) :
    Trie.enqueueNode p (.mk c v cs s) q =
      Trie.enqueueChildren (.mk c v cs s :: p) cs
        (if v then q ++ [Node.toString (.mk c v cs s :: p)] else q) := by
  simp [Trie.enqueueNode]

theorem enqueueChildren_acc_of (p : NodePtr) (cs : List (Option Node))
    (h : ∀ m, some m ∈ cs → ∀ q, Trie.enqueueNode p m q = q ++ Trie.enqueueNode p m [])
    (q : List String) :
    Trie.enqueueChildren p cs q = q ++ Trie.enqueueChildren p cs [] := by
  induction cs generalizing q with
  | nil => simp [enqueueChildren_nil]
  | cons o cs ih =>
    have ih' := ih (fun m hm => h m (List.mem_cons_of_mem o hm))
    cases o with
    | none => rw [enqueueChildren_none, enqueueChildren_none, ih']
    | some m =>
      rw [enqueueChildren_some, enqueueChildren_some, ih', ih' (Trie.enqueueNode p m []),
        h m (List.mem_cons_self _ cs) q, List.append_assoc]

theorem enqueueNode_acc (n : Node) :
    ∀ (p : NodePtr) (q : List String), Trie.enqueueNode p n q = q ++ Trie.enqueueNode p n [] := by
  induction n using Node.induct with
  | step c v cs s ih =>
    intro p q
    rw [enqueueNode_mk, enqueueNode_mk]
    have hk := enqueueChildren_acc_of (.mk c v cs s :: p) cs (fun m hm => ih m hm _)
    rw [hk]
    cases v with
    | false => simp
    | true =>
      simp only [if_true, List.nil_append]
      rw [hk [Node.toString (.mk c true cs s :: p)]]
      simp

theorem enqueueChildren_acc (p : NodePtr) (cs : List (Option Node)) (q : List String) :
    Trie.enqueueChildren p cs q = q ++ Trie.enqueueChildren p cs [] :=
  enqueueChildren_acc_of p cs (fun m _ => enqueueNode_acc m p) q

theorem enqueueChildren_cons (p : NodePtr) (o : Option Node) (cs : List (Option Node)) :
    Trie.enqueueChildren p (o :: cs) [] =
      (match o with
        | none => []
        | some m => Trie.enqueueNode p m []) ++ Trie.enqueueChildren p cs [] := by
  cases o with
  | none => rw [enqueueChildren_none]; rfl
  | some m => rw [enqueueChildren_some, enqueueChildren_acc]


theorem toNat_letter : ∀ i, i < 26 → (letter i).toNat = 65 + i := by
  decide

theorem index_letter {i : Nat} (h : i < 26) : Node.index (letter i) = (i : Int) := by
  unfold Node.index
  rw [toNat_letter i h]
  have : ('A' : Char).toNat = 65 := by decide
  omega

theorem letter_index {c : Char} (h : isAZ c) : letter (Node.index c).toNat = c := by
  apply toNat_inj_of_char
  have h1 := index_toNat_lt_of_isAZ h
  rw [toNat_letter _ h1]
  unfold Node.index
  unfold isAZ at h
  have : ('A' : Char).toNat = 65 := by decide
  omega

theorem letter_lt_letter {i j : Nat} (hij : i < j) (hj : j < 26) : letter i < letter j := by
  show (letter i).toNat < (letter j).toNat
  rw [toNat_letter i (by omega), toNat_letter j hj]
  omega

theorem mk_lt_mk_append (a b : List Char) (c : Char) :
    String.mk a < String.mk (a ++ c :: b) := by
  rw [String.lt_iff_toList_lt]
  have := List.Lex.append_left (· < ·) (List.Lex.nil : List.Lex (· < ·) [] (c :: b)) a
  simpa using this

theorem mk_append_lt_mk_append (a b b' : List Char) {c d : Char} (h : c < d) :
    String.mk (a ++ c :: b) < String.mk (a ++ d :: b') := by
  rw [String.lt_iff_toList_lt]
  exact List.Lex.append_left _ (List.Lex.rel h) a

theorem child_eq_some_iff (n : Node) (i : Int) (m : Node) :
    n.child i = some m ↔ 0 ≤ i ∧ n.children[i.toNat]? = some (some m) := by
  unfold Node.child
  by_cases h0 : 0 ≤ i
  · simp only [h0, if_true, true_and, List.getD_eq_getElem?_getD]
    cases n.children[i.toNat]? with
    | none => simp
    | some o => simp
  · simp [h0]

theorem isWord_none (p : List Char) : ¬ Node.isWord none p := by
  rintro ⟨v, hv, _⟩
  rw [obs_none] at hv
  cases hv

theorem isWord_cons (n : Node) (c : Char) (p : List Char) :
    Node.isWord (some n) (c :: p) ↔ Node.isWord (n.child (Node.index c)) p :=
  Iff.rfl

theorem isWord_nil (n : Node) : Node.isWord (some n) [] ↔ n.value_here = true := by
  unfold Node.isWord
  rw [obs_nil]
  simp [Node.view]

theorem enqueueChildren_spec (parent : NodePtr) (base : List Char) (cs : List (Option Node))
    (k : Nat) (hk : k + cs.length ≤ 26)
    (h : ∀ j m, cs[j]? = some (some m) →
      List.Pairwise (· < ·) (Trie.enqueueNode parent m []) ∧
        ∀ s, s ∈ Trie.enqueueNode parent m [] ↔
          ∃ p, s = String.mk (base ++ letter (k + j) :: p) ∧ Node.isWord (some m) p) :
    List.Pairwise (· < ·) (Trie.enqueueChildren parent cs []) ∧
      ∀ s, s ∈ Trie.enqueueChildren parent cs [] ↔
        ∃ j m p, cs[j]? = some (some m) ∧ s = String.mk (base ++ letter (k + j) :: p) ∧
          Node.isWord (some m) p := by
  induction cs generalizing k with
  | nil => simp [enqueueChildren_nil]
  | cons o cs ih =>
    simp only [List.length_cons] at hk
    have ih' := ih (k + 1) (by omega) (fun j m hj => by
      have := h (j + 1) m (by rw [List.getElem?_cons_succ]; exact hj)
      rw [show k + 1 + j = k + (j + 1) by omega]
      exact this)
    have hrest : ∀ s, s ∈ Trie.enqueueChildren parent cs [] →
        ∃ j p, j < cs.length ∧ s = String.mk (base ++ letter (k + 1 + j) :: p) := by
      intro s hs
      obtain ⟨j, m, p, hj, hs', _⟩ := (ih'.2 s).1 hs
      have hlt : j < cs.length := by
        by_contra hge
        rw [List.getElem?_eq_none (by omega)] at hj
        cases hj
      exact ⟨j, p, hlt, hs'⟩
    rw [enqueueChildren_cons]
    cases o with
    | none =>
      simp only [List.nil_append]
      refine ⟨ih'.1, fun s => ?_⟩
      rw [ih'.2]
      constructor
      · rintro ⟨j, m, p, hj, hs, hw⟩
        exact ⟨j + 1, m, p, by rw [List.getElem?_cons_succ]; exact hj,
          by rw [hs, show k + 1 + j = k + (j + 1) by omega], hw⟩
      · rintro ⟨j, m, p, hj, hs, hw⟩
        cases j with
        | zero => simp at hj
        | succ j =>
          rw [List.getElem?_cons_succ] at hj
          exact ⟨j, m, p, hj, by rw [hs, show k + 1 + j = k + (j + 1) by omega], hw⟩
    | some m0 =>
      have h0 := h 0 m0 (by simp)
      simp only
      refine ⟨?_, fun s => ?_⟩
      · rw [List.pairwise_append]
        refine ⟨h0.1, ih'.1, ?_⟩
        intro a ha b hb
        obtain ⟨p, hp, _⟩ := (h0.2 a).1 ha
        obtain ⟨j, p', hj, hb'⟩ := hrest b hb
        rw [hp, hb']
        exact mk_append_lt_mk_append base p p' (letter_lt_letter (by omega) (by omega))
      · rw [List.mem_append, h0.2, ih'.2]
        constructor
        · rintro (⟨p, hs, hw⟩ | ⟨j, m, p, hj, hs, hw⟩)
          · exact ⟨0, m0, p, by simp, hs, hw⟩
          · exact ⟨j + 1, m, p, by rw [List.getElem?_cons_succ]; exact hj,
              by rw [hs, show k + 1 + j = k + (j + 1) by omega], hw⟩
        · rintro ⟨j, m, p, hj, hs, hw⟩
          cases j with
          | zero =>
            simp only [List.getElem?_cons_zero, Option.some.injEq] at hj
            subst hj
            exact Or.inl ⟨p, hs, hw⟩
          | succ j =>
            rw [List.getElem?_cons_succ] at hj
            exact Or.inr ⟨j, m, p, hj, by rw [hs, show k + 1 + j = k + (j + 1) by omega], hw⟩


theorem children_getElem?_lt {n : Node} (h : n.children.length = 26) {j : Nat} {m : Node}
    (hj : n.children[j]? = some (some m)) : j < 26 := by
  by_contra hge
  rw [List.getElem?_eq_none (by omega)] at hj
  cases hj

theorem child_letter {n : Node} (h : n.children.length = 26) {j : Nat} {m : Node}
    (hj : n.children[j]? = some (some m)) : n.child (Node.index (letter j)) = some m := by
  rw [child_eq_some_iff, index_letter (children_getElem?_lt h hj)]
  exact ⟨by omega, by simpa using hj⟩

theorem Node.CachedAt.atChild {base : List Char} {n : Node} (h : Node.CachedAt base n) {c : Char}
    {m : Node} (hm : n.child (Node.index c) = some m) : Node.CachedAt (base ++ [c]) m := by
  intro p v hv hval
  have := h (c :: p) v (by rw [obs_cons, hm]; exact hv) hval
  simpa using this

theorem enqueueChildren_of_node (n : Node) (base : List Char) (parent : NodePtr)
    (hlen : n.LenOK) (hc : Node.CachedAt base n)
    (ih : ∀ m, some m ∈ n.children → ∀ (b : List Char) (q : NodePtr), m.LenOK →
      Node.CachedAt b m →
        List.Pairwise (· < ·) (Trie.enqueueNode q m []) ∧
          ∀ s, s ∈ Trie.enqueueNode q m [] ↔
            ∃ p, s = String.mk (b ++ p) ∧ Node.isWord (some m) p) :
    List.Pairwise (· < ·) (Trie.enqueueChildren parent n.children []) ∧
      ∀ s, s ∈ Trie.enqueueChildren parent n.children [] ↔
        ∃ c p, s = String.mk (base ++ c :: p) ∧ Node.isWord (some n) (c :: p) := by
  have h26 := hlen.slots26
  have key := enqueueChildren_spec parent base n.children 0 (by omega) (fun j m hj => by
    have hch := child_letter h26 hj
    have := ih m (List.mem_iff_getElem?.2 ⟨j, hj⟩) (base ++ [letter j]) parent
      (hlen.ofChild hch) (hc.atChild hch)
    simpa using this)
  refine ⟨key.1, fun s => ?_⟩
  rw [key.2]
  constructor
  · rintro ⟨j, m, p, hj, hs, hw⟩
    refine ⟨letter j, p, by simpa using hs, ?_⟩
    rw [isWord_cons, child_letter h26 hj]
    exact hw
  · rintro ⟨c, p, hs, hw⟩
    rw [isWord_cons] at hw
    cases hm : n.child (Node.index c) with
    | none => rw [hm] at hw; exact absurd hw (isWord_none p)
    | some m =>
      rw [hm] at hw
      have haz := isAZ_of_child h26 hm
      refine ⟨(Node.index c).toNat, m, p, ((child_eq_some_iff n _ m).1 hm).2, ?_, hw⟩
      simp only [Nat.zero_add, letter_index haz]
      exact hs

theorem enqueueNode_spec (n : Node) :
    ∀ (base : List Char) (parent : NodePtr), n.LenOK → Node.CachedAt base n →
      List.Pairwise (· < ·) (Trie.enqueueNode parent n []) ∧
        ∀ s, s ∈ Trie.enqueueNode parent n [] ↔
          ∃ p, s = String.mk (base ++ p) ∧ Node.isWord (some n) p := by
  induction n using Node.induct with
  | step c v cs s ih =>
    intro base parent hlen hc
    have key := enqueueChildren_of_node (.mk c v cs s) base (.mk c v cs s :: parent) hlen hc ih
    simp only [Node.children] at key
    rw [enqueueNode_mk, enqueueChildren_acc]
    cases v with
    | false =>
      simp only [Bool.false_eq_true, if_false, List.nil_append]
      refine ⟨key.1, fun x => ?_⟩
      rw [key.2]
      constructor
      · rintro ⟨d, p, hx, hw⟩
        exact ⟨d :: p, hx, hw⟩
      · rintro ⟨p, hx, hw⟩
        cases p with
        | nil =>
          rw [isWord_nil] at hw
          cases hw
        | cons d p => exact ⟨d, p, hx, hw⟩
    | true =>
      have hstr : Node.toString (.mk c true cs s :: parent) = String.mk base := by
        have := hc [] (Node.mk c true cs s).view (obs_nil _) rfl
        simp only [Node.view, Node.str, List.append_nil] at this
        simp [Node.toString, Node.str, this]
      simp only [if_true, List.nil_append, hstr]
      refine ⟨?_, fun x => ?_⟩
      · rw [List.pairwise_append]
        refine ⟨List.pairwise_singleton _ _, key.1, ?_⟩
        intro a ha b hb
        rw [List.mem_singleton] at ha
        obtain ⟨d, p, hb', _⟩ := (key.2 b).1 hb
        rw [ha, hb']
        exact mk_lt_mk_append base p d
      · rw [List.mem_append, List.mem_singleton, key.2]
        constructor
        · rintro (hx | ⟨d, p, hx, hw⟩)
          · exact ⟨[], by simpa using hx, (isWord_nil _).2 rfl⟩
          · exact ⟨d :: p, hx, hw⟩
        · rintro ⟨p, hx, hw⟩
          cases p with
          | nil => exact Or.inl (by simpa using hx)
          | cons d p => exact Or.inr ⟨d, p, hx, hw⟩

theorem enqueue_spec {t : Trie} (h : t.WF) (hc : t.Cached) :
    List.Pairwise (· < ·) t.enqueue ∧
      ∀ s : String, s ∈ t.enqueue ↔ s ≠ "" ∧ t.find s = .FOUND := by
  have hc' : Node.CachedAt [] t.root := fun p v hv hval => by simpa using hc p v hv hval
  have key := enqueueChildren_of_node t.root [] [t.root] h.slots hc'
    (fun m _ b q hm hb => enqueueNode_spec m b q hm hb)
  refine ⟨key.1, fun s => ?_⟩
  unfold Trie.enqueue
  rw [key.2, find_eq_found_iff]
  constructor
  · rintro ⟨c, p, hs, hw⟩
    subst hs
    refine ⟨?_, hw⟩
    intro e
    have := congrArg String.data e
    simp at this
  · rintro ⟨hne, hw⟩
    cases hd : s.data with
    | nil => exact absurd (String.ext hd) hne
    | cons c p =>
      refine ⟨c, p, String.ext (by simpa using hd), ?_⟩
      rw [hd] at hw
      exact hw

/-- C8: for a trie built from the empty trie by `insert` calls on strings over A-Z,
in any order and with or without repetitions, `enqueue()` returns its entries in
strictly ascending lexicographic order: each entry is smaller than every later
one, so no entry occurs twice. -/
theorem enqueue_strictly_ascending (ws : List String) (hws : ∀ w ∈ ws, AZ w) :
    List.Pairwise (· < ·) (Trie.build ws).enqueue ∧ (Trie.build ws).enqueue.Nodup := by
  have h := (enqueue_spec (WF_build hws) (Cached_build hws)).1
  exact ⟨h, h.imp (fun hab => ne_of_lt hab)⟩

theorem enqueue_strictly_ascending_witness :
    (∀ w ∈ ["DOG", "CAT", "AT", "CAT"], AZ w) ∧
      List.Pairwise (· < ·) (Trie.build ["DOG", "CAT", "AT", "CAT"]).enqueue ∧
      (Trie.build ["DOG", "CAT", "AT", "CAT"]).enqueue.Nodup :=
  ⟨by decide, enqueue_strictly_ascending ["DOG", "CAT", "AT", "CAT"] (by decide)⟩

/-- C9 at the failing input: after `insert("")` the empty string is an element of
the trie (`get("")` is true) but `enqueue()` does not list it. -/
theorem enqueue_misses_empty_string :
    (Trie.build [""]).get "" = true ∧ "" ∉ (Trie.build [""]).enqueue := by
  decide


/-! ## The board search -/

theorem allWordsRec_zero (b : Board) (si : SearchIterator) (r c : Int) (used : Grid Bool)
    (fw : Trie) : b.allWordsRec 0 si r c used fw = none := rfl

theorem allWordsRec_succ (b : Board) (fuel : Nat) (si : SearchIterator) (r c : Int)
    (used : Grid Bool) (fw : Trie) :
    b.allWordsRec (fuel + 1) si r c used fw =
      if !si.reachable then some (used, fw)
      else
        [r - 1, r, r + 1].foldlM
          (fun st y => [c - 1, c, c + 1].foldlM (fun st x => b.neighbour fuel si st y x) st)
          (used, if si.inSet then fw.insertForeignIt si else fw) := rfl

theorem allWords_eq (b : Board) :
    b.allWords =
      match [(0 : Int), 1, 2, 3, 4].foldlM
          (fun st r => [(0 : Int), 1, 2, 3, 4].foldlM (fun st c => b.start st r c) st)
          ((fun _ _ => false : Grid Bool), Trie.empty) with
      | none => none
      | some st => some st.2.enqueue := rfl

theorem foldlM_nested {σ α β : Type} (f : σ → α → β → Option σ) (ys : List α) (xs : List β)
    (init : σ) :
    ys.foldlM (fun st y => xs.foldlM (fun st x => f st y x) st) init =
      (ys.flatMap fun y => xs.map fun x => (y, x)).foldlM (fun st yx => f st yx.1 yx.2) init := by
  induction ys generalizing init with
  | nil => rfl
  | cons y ys ih =>
    rw [List.foldlM_cons, List.flatMap_cons, List.foldlM_append, List.foldlM_map]
    cases xs.foldlM (fun st x => f st y x) init with
    | none => rfl
    | some st => exact ih st


theorem ofNat_row (a : Fin 5) : (Fin.ofNat ((a.val : Int).toNat) : Fin 5) = a := by
  apply Fin.ext
  simp [Fin.ofNat, Nat.mod_eq_of_lt a.isLt]

theorem at_cell {α : Type} (g : Grid α) (a : Cell) : Grid.at g a.row a.col = g a.1 a.2 := by
  unfold Grid.at Cell.row Cell.col
  rw [ofNat_row, ofNat_row]

theorem set_cell {α : Type} (g : Grid α) (a : Cell) (v : α) :
    Grid.set g a.row a.col v = fun i j => if i = a.1 ∧ j = a.2 then v else g i j := by
  unfold Grid.set Cell.row Cell.col
  rw [ofNat_row, ofNat_row]

theorem set_set_restore (g : Grid Bool) (a : Cell) (h : g a.1 a.2 = false) :
    Grid.set (Grid.set g a.row a.col true) a.row a.col false = g := by
  rw [set_cell, set_cell]
  funext i j
  by_cases hij : i = a.1 ∧ j = a.2
  · simp [hij, h]
  · simp [hij]

theorem cell_of_inBounds {y x : Int} (h : ¬ (x < 0 ∨ y < 0 ∨ y ≥ 5 ∨ x ≥ 5)) :
    ∃ a : Cell, a.row = y ∧ a.col = x := by
  refine ⟨(⟨y.toNat, by omega⟩, ⟨x.toNat, by omega⟩), ?_, ?_⟩
  · simp only [Cell.row]; omega
  · simp only [Cell.col]; omega

theorem cell_inBounds (a : Cell) : ¬ (a.col < 0 ∨ a.row < 0 ∨ a.row ≥ 5 ∨ a.col ≥ 5) := by
  have h1 := a.1.isLt
  have h2 := a.2.isLt
  simp only [Cell.row, Cell.col]
  omega

theorem cell_ext {a a' : Cell} (hr : a.row = a'.row) (hc : a.col = a'.col) : a = a' := by
  apply Prod.ext
  · apply Fin.ext
    simp only [Cell.row] at hr
    omega
  · apply Fin.ext
    simp only [Cell.col] at hc
    omega

theorem unusedCount_set_lt (used : Grid Bool) (a : Cell) (h : used a.1 a.2 = false) :
    unusedCount (Grid.set used a.row a.col true) < unusedCount used := by
  unfold unusedCount
  apply Finset.card_lt_card
  rw [Finset.ssubset_iff_of_subset]
  · refine ⟨a, by simp [h], ?_⟩
    simp [set_cell]
  · intro x hx
    simp only [Finset.mem_filter, Finset.mem_univ, true_and, set_cell] at hx ⊢
    by_cases hxa : x.1 = a.1 ∧ x.2 = a.2
    · simp [hxa] at hx
    · simpa [hxa] using hx

theorem step_cursorAtList (t : Trie) (p : List Char) (ch : Char) :
    Board.step (t.cursorAtList p) ch = t.cursorAtList (p ++ cellLetters ch) := by
  unfold Board.step Trie.cursorAtList cellLetters
  by_cases h : ch = 'Q'
  · simp [h, List.foldl_append]
  · simp [h, List.foldl_append]

theorem head_cursorAtList (t : Trie) (p : List Char) :
    (t.cursorAtList p).curNode.head? = Node.descend (some t.root) p :=
  head_foldl_next [t.root] p

theorem isWord_iff_descend (o : Option Node) (p : List Char) :
    Node.isWord o p ↔ ∃ m, Node.descend o p = some m ∧ m.value_here = true := by
  unfold Node.isWord Node.obs
  constructor
  · rintro ⟨v, hv, hval⟩
    cases hd : Node.descend o p with
    | none => rw [hd] at hv; cases hv
    | some m =>
      rw [hd] at hv
      cases hv
      exact ⟨m, rfl, hval⟩
  · rintro ⟨m, hm, hval⟩
    exact ⟨m.view, by rw [hm]; rfl, hval⟩

theorem not_isWord_of_not_reachable {t : Trie} {p : List Char}
    (h : (t.cursorAtList p).reachable = false) (q : List Char) :
    ¬ Node.isWord (some t.root) (p ++ q) := by
  rw [reachable_eq, head_cursorAtList] at h
  rw [isWord_iff_descend, descend_append]
  cases hd : Node.descend (some t.root) p with
  | none => simp [descend_none]
  | some m => rw [hd] at h; cases h

theorem inSet_cursorAtList (t : Trie) (p : List Char) :
    (t.cursorAtList p).inSet = true ↔ Node.isWord (some t.root) p := by
  rw [inSet_eq, head_cursorAtList, isWord_iff_descend]
  cases Node.descend (some t.root) p with
  | none => simp
  | some m => simp

theorem pathOf_cursorAtList {t : Trie} (h : t.WF) (p : List Char)
    (hr : (t.cursorAtList p).reachable = true) :
    Trie.pathOf (t.cursorAtList p).curNode nul = p ∧ ∀ c ∈ p, isAZ c := by
  have hne : (t.cursorAtList p).curNode ≠ [] := by
    intro e
    rw [reachable_eq, e] at hr
    cases hr
  have := pathOf_foldl_next h p [] t.root [] rfl (by intro c; rfl) hne nul
  refine ⟨by simpa using this, ?_⟩
  rw [reachable_eq, head_cursorAtList] at hr
  cases hd : Node.descend (some t.root) p with
  | none => rw [hd] at hr; cases hr
  | some m => exact isAZ_of_descend h.slots hd

theorem getCacheString_cursorAtList {t : Trie} (hc : t.Cached) (p : List Char)
    (hs : (t.cursorAtList p).inSet = true) :
    (t.cursorAtList p).getCacheString = some (String.mk p) := by
  rw [inSet_cursorAtList] at hs
  obtain ⟨v, hv, hval⟩ := hs
  have := hc p v hv hval
  rw [getCacheString_eq, head_cursorAtList]
  unfold Node.obs at hv
  cases hd : Node.descend (some t.root) p with
  | none => rw [hd] at hv; cases hv
  | some m =>
    rw [hd] at hv
    cases hv
    exact this

theorem insertForeignIt_word {D fw : Trie} (hD : D.WF) (hDc : D.Cached) (hfw : fw.WF)
    (hfc : fw.Cached) (p : List Char) (hs : (D.cursorAtList p).inSet = true) :
    (fw.insertForeignIt (D.cursorAtList p)).WF ∧ (fw.insertForeignIt (D.cursorAtList p)).Cached ∧
      ∀ x, Node.isWord (some (fw.insertForeignIt (D.cursorAtList p)).root) x ↔
        Node.isWord (some fw.root) x ∨ x = p := by
  have hr : (D.cursorAtList p).reachable = true := by
    rw [reachable_eq]
    rw [inSet_eq] at hs
    cases hh : (D.cursorAtList p).curNode.head? with
    | none => rw [hh] at hs; cases hs
    | some m => rfl
  obtain ⟨hpath, haz⟩ := pathOf_cursorAtList hD p hr
  have hcache := getCacheString_cursorAtList hDc p hs
  have hobs : ∀ x, (fw.insertForeignIt (D.cursorAtList p)).obs x =
      if x = p then
        some { (fw.obs x).getD (NodeView.fresh x) with val := true, cache := some (String.mk p) }
      else if x <+: p then some ((fw.obs x).getD (NodeView.fresh x))
      else fw.obs x := by
    intro x
    rw [obs_insertForeignIt hfw.slots _ (by rw [hpath]; exact haz), hpath, hcache]
  refine ⟨⟨?_, ?_⟩, ?_, ?_⟩
  · intro x v hv
    rw [hobs] at hv
    cases ho : fw.obs x with
    | none =>
      rw [ho] at hv
      split at hv
      · cases hv; rfl
      · split at hv
        · cases hv; rfl
        · cases hv
    | some u =>
      rw [ho] at hv
      have := hfw.slots x u ho
      split at hv
      · cases hv; exact this
      · split at hv <;> (cases hv; exact this)
  · intro x v hv
    rw [hobs] at hv
    cases ho : fw.obs x with
    | none =>
      rw [ho] at hv
      split at hv
      · cases hv; rfl
      · split at hv
        · cases hv; rfl
        · cases hv
    | some u =>
      rw [ho] at hv
      have := hfw.chars x u ho
      split at hv
      · cases hv; exact this
      · split at hv <;> (cases hv; exact this)
  · intro x v hv hval
    rw [hobs] at hv
    split at hv
    · rename_i hx
      cases hv
      rw [hx]
    · cases ho : fw.obs x with
      | none =>
        rw [ho] at hv
        split at hv
        · cases hv; cases hval
        · cases hv
      | some u =>
        rw [ho] at hv
        have : v = u := by split at hv <;> (cases hv; rfl)
        subst this
        exact hfc x v ho hval
  · intro x
    unfold Node.isWord
    have hx := hobs x
    unfold Trie.obs at hx
    rw [hx]
    by_cases hxp : x = p
    · simp [hxp]
    · simp only [hxp, if_false, or_false]
      cases ho : Node.obs (some fw.root) x with
      | none =>
        have ho' : fw.obs x = none := ho
        by_cases hpre : x <+: p <;> simp [hpre, ho', NodeView.fresh]
      | some u =>
        have ho' : fw.obs x = some u := ho
        by_cases hpre : x <+: p <;> simp [hpre, ho']


theorem reach_nil (used : Grid Bool) (a : Cell) : Reach used a [] := by
  simp [Reach]

theorem reach_cons (used : Grid Bool) (a a' : Cell) (ext : List Cell) :
    Reach used a (a' :: ext) ↔
      near a a' ∧ used a'.1 a'.2 = false ∧ Reach (Grid.set used a'.row a'.col true) a' ext := by
  unfold Reach
  rw [List.chain_cons, List.nodup_cons, set_cell]
  constructor
  · rintro ⟨⟨h1, h2⟩, ⟨h3, h4⟩, h5⟩
    refine ⟨h1, h5 a' (List.mem_cons_self _ _), h2, h4, fun z hz => ?_⟩
    have hne : ¬ (z.1 = a'.1 ∧ z.2 = a'.2) := by
      rintro ⟨e1, e2⟩
      exact h3 (by rw [← Prod.ext e1 e2]; exact hz)
    simp only [hne, if_false]
    exact h5 z (List.mem_cons_of_mem _ hz)
  · rintro ⟨h1, h2, h3, h4, h5⟩
    refine ⟨⟨h1, h3⟩, ⟨fun hmem => ?_, h4⟩, fun z hz => ?_⟩
    · have := h5 a' hmem
      simp at this
    · rcases List.mem_cons.1 hz with rfl | hz'
      · exact h2
      · have := h5 z hz'
        by_cases hne : z.1 = a'.1 ∧ z.2 = a'.2
        · simp [hne] at this
        · simpa [hne] using this

theorem spell_nil (b : Board) : b.spell [] = [] := rfl

theorem spell_cons (b : Board) (a : Cell) (ext : List Cell) :
    b.spell (a :: ext) = cellLetters (b.board a.1 a.2) ++ b.spell ext := by
  simp [Board.spell]

theorem mem_neighbours (a a' : Cell) :
    (a'.row, a'.col) ∈
        ([a.row - 1, a.row, a.row + 1].flatMap fun y =>
          [a.col - 1, a.col, a.col + 1].map fun x => (y, x)) ↔
      near a a' := by
  unfold near
  simp only [List.flatMap_cons, List.flatMap_nil, List.map_cons, List.map_nil, List.append_nil,
    List.cons_append, List.nil_append, List.mem_cons, Prod.mk.injEq, List.mem_nil_iff, or_false]
  omega

theorem neighbours_loop (b : Board) (fuel : Nat) (hcall : b.CallOK fuel) (p : List Char)
    (used : Grid Bool) (hfuel : unusedCount used ≤ fuel) (L : List (Int × Int)) :
    ∀ fw : Trie, fw.WF → fw.Cached →
      ∃ fw', L.foldlM
            (fun st yx => b.neighbour fuel (b.englishWords.cursorAtList p) st yx.1 yx.2)
            (used, fw) = some (used, fw') ∧ fw'.WF ∧ fw'.Cached ∧
        ∀ x, Node.isWord (some fw'.root) x ↔
          Node.isWord (some fw.root) x ∨
            ∃ a' : Cell, (a'.row, a'.col) ∈ L ∧ used a'.1 a'.2 = false ∧
              b.Added (Grid.set used a'.row a'.col true)
                (p ++ cellLetters (b.board a'.1 a'.2)) a' x := by
  induction L with
  | nil =>
    intro fw hw hc
    exact ⟨fw, rfl, hw, hc, fun x => by simp⟩
  | cons yx L ih =>
    intro fw hw hc
    obtain ⟨y, x⟩ := yx
    rw [List.foldlM_cons]
    by_cases hb : x < 0 ∨ y < 0 ∨ y ≥ 5 ∨ x ≥ 5
    · have hbody : b.neighbour fuel (b.englishWords.cursorAtList p) (used, fw) y x =
          some (used, fw) := by
        simp only [Board.neighbour, hb, if_true]
      rw [hbody]
      obtain ⟨fw', h1, h2, h3, h4⟩ := ih fw hw hc
      refine ⟨fw', h1, h2, h3, fun z => ?_⟩
      rw [h4]
      constructor
      · rintro (h | ⟨a', ha', hu, hadd⟩)
        · exact Or.inl h
        · exact Or.inr ⟨a', List.mem_cons_of_mem _ ha', hu, hadd⟩
      · rintro (h | ⟨a', ha', hu, hadd⟩)
        · exact Or.inl h
        · rcases List.mem_cons.1 ha' with e | ha''
          · exfalso
            simp only [Prod.mk.injEq] at e
            apply cell_inBounds a'
            rw [e.1, e.2]
            exact hb
          · exact Or.inr ⟨a', ha'', hu, hadd⟩
    · obtain ⟨a0, hr, hcl⟩ := cell_of_inBounds hb
      subst hr hcl
      cases hu0 : used a0.1 a0.2 with
      | true =>
        have hbody : b.neighbour fuel (b.englishWords.cursorAtList p) (used, fw) a0.row a0.col =
            some (used, fw) := by
          simp only [Board.neighbour, hb, if_false, at_cell, hu0]
          rfl
        rw [hbody]
        obtain ⟨fw', h1, h2, h3, h4⟩ := ih fw hw hc
        refine ⟨fw', h1, h2, h3, fun z => ?_⟩
        rw [h4]
        constructor
        · rintro (h | ⟨a', ha', hu, hadd⟩)
          · exact Or.inl h
          · exact Or.inr ⟨a', List.mem_cons_of_mem _ ha', hu, hadd⟩
        · rintro (h | ⟨a', ha', hu, hadd⟩)
          · exact Or.inl h
          · rcases List.mem_cons.1 ha' with e | ha''
            · exfalso
              simp only [Prod.mk.injEq] at e
              have := cell_ext e.1 e.2
              subst this
              rw [hu0] at hu
              cases hu
            · exact Or.inr ⟨a', ha'', hu, hadd⟩
      | false =>
        have hlt : unusedCount (Grid.set used a0.row a0.col true) < fuel :=
          Nat.lt_of_lt_of_le (unusedCount_set_lt used a0 hu0) hfuel
        obtain ⟨fw1, g1, g2, g3, g4⟩ :=
          hcall (p ++ cellLetters (b.board a0.1 a0.2)) a0 (Grid.set used a0.row a0.col true) fw
            hlt hw hc
        have hbody : b.neighbour fuel (b.englishWords.cursorAtList p) (used, fw) a0.row a0.col =
            some (used, fw1) := by
          simp only [Board.neighbour, hb, if_false, at_cell, hu0, step_cursorAtList, g1,
            set_set_restore used a0 hu0]
          rfl
        rw [hbody]
        obtain ⟨fw', h1, h2, h3, h4⟩ := ih fw1 g2 g3
        refine ⟨fw', h1, h2, h3, fun z => ?_⟩
        rw [h4, g4]
        constructor
        · rintro ((h | hadd0) | ⟨a', ha', hu, hadd⟩)
          · exact Or.inl h
          · exact Or.inr ⟨a0, List.mem_cons_self _ _, hu0, hadd0⟩
          · exact Or.inr ⟨a', List.mem_cons_of_mem _ ha', hu, hadd⟩
        · rintro (h | ⟨a', ha', hu, hadd⟩)
          · exact Or.inl (Or.inl h)
          · rcases List.mem_cons.1 ha' with e | ha''
            · simp only [Prod.mk.injEq] at e
              have := cell_ext e.1 e.2
              subst this
              exact Or.inl (Or.inr hadd)
            · exact Or.inr ⟨a', ha'', hu, hadd⟩


theorem callOK {b : Board} (hD : b.englishWords.WF) (hDc : b.englishWords.Cached)
    (fuel : Nat) : b.CallOK fuel := by
  induction fuel with
  | zero =>
    intro p a used fw hlt
    exact absurd hlt (Nat.not_lt_zero _)
  | succ fuel ih =>
    intro p a used fw hlt hw hc
    rw [allWordsRec_succ]
    cases hr : (b.englishWords.cursorAtList p).reachable with
    | false =>
      refine ⟨fw, by simp, hw, hc, fun x => ?_⟩
      constructor
      · exact Or.inl
      · rintro (h | ⟨hword, ext, _, hx⟩)
        · exact h
        · rw [hx] at hword
          exact absurd hword (not_isWord_of_not_reachable hr _)
    | true =>
      simp only [Bool.not_true, Bool.false_eq_true, if_false]
      have hfw1 : ∃ fw1, (if (b.englishWords.cursorAtList p).inSet = true then
            fw.insertForeignIt (b.englishWords.cursorAtList p) else fw) = fw1 ∧
          fw1.WF ∧ fw1.Cached ∧
          ∀ x, Node.isWord (some fw1.root) x ↔
            Node.isWord (some fw.root) x ∨
              (x = p ∧ Node.isWord (some b.englishWords.root) p) := by
        cases hs : (b.englishWords.cursorAtList p).inSet with
        | false =>
          refine ⟨fw, by simp, hw, hc, fun x => ?_⟩
          have : ¬ Node.isWord (some b.englishWords.root) p := by
            rw [← inSet_cursorAtList, hs]
            simp
          simp [this]
        | true =>
          obtain ⟨k1, k2, k3⟩ := insertForeignIt_word hD hDc hw hc p hs
          refine ⟨_, by simp, k1, k2, fun x => ?_⟩
          rw [k3]
          have : Node.isWord (some b.englishWords.root) p := (inSet_cursorAtList _ _).1 hs
          simp [this]
      obtain ⟨fw1, e1, w1, c1, m1⟩ := hfw1
      rw [e1, foldlM_nested (fun st y x => b.neighbour fuel (b.englishWords.cursorAtList p) st y x)]
      obtain ⟨fw', h1, h2, h3, h4⟩ :=
        neighbours_loop b fuel ih p used (Nat.le_of_lt_succ hlt) _ fw1 w1 c1
      refine ⟨fw', h1, h2, h3, fun x => ?_⟩
      rw [h4, m1]
      unfold Board.Added
      constructor
      · rintro ((h | ⟨hx, hword⟩) | ⟨a', hmem, hu, hword, ext, hreach, hx⟩)
        · exact Or.inl h
        · refine Or.inr ⟨by rw [hx]; exact hword, [], reach_nil used a, ?_⟩
          rw [hx, spell_nil, List.append_nil]
        · refine Or.inr ⟨hword, a' :: ext, ?_, ?_⟩
          · rw [reach_cons]
            exact ⟨(mem_neighbours a a').1 hmem, hu, hreach⟩
          · rw [hx, spell_cons, List.append_assoc]
      · rintro (h | ⟨hword, ext, hreach, hx⟩)
        · exact Or.inl (Or.inl h)
        · cases ext with
          | nil =>
            rw [spell_nil, List.append_nil] at hx
            refine Or.inl (Or.inr ⟨hx, ?_⟩)
            rw [← hx]
            exact hword
          | cons a' ext =>
            rw [reach_cons] at hreach
            refine Or.inr ⟨a', (mem_neighbours a a').2 hreach.1, hreach.2.1, hword, ext,
              hreach.2.2, ?_⟩
            rw [hx, spell_cons, List.append_assoc]

theorem unusedCount_none : unusedCount (fun _ _ => false) = 25 := by
  unfold unusedCount
  simp

theorem start_loop {b : Board} (hD : b.englishWords.WF) (hDc : b.englishWords.Cached)
    (L : List (Int × Int)) (hL : ∀ yx ∈ L, ¬ (yx.2 < 0 ∨ yx.1 < 0 ∨ yx.1 ≥ 5 ∨ yx.2 ≥ 5)) :
    ∀ fw : Trie, fw.WF → fw.Cached →
      ∃ fw', L.foldlM (fun st rc => b.start st rc.1 rc.2) ((fun _ _ => false : Grid Bool), fw) =
          some ((fun _ _ => false : Grid Bool), fw') ∧ fw'.WF ∧ fw'.Cached ∧
        ∀ x, Node.isWord (some fw'.root) x ↔
          Node.isWord (some fw.root) x ∨
            ∃ a : Cell, (a.row, a.col) ∈ L ∧
              b.Added (Grid.set (fun _ _ => false) a.row a.col true)
                (cellLetters (b.board a.1 a.2)) a x := by
  induction L with
  | nil =>
    intro fw hw hc
    exact ⟨fw, rfl, hw, hc, fun x => by simp⟩
  | cons yx L ih =>
    intro fw hw hc
    obtain ⟨y, x⟩ := yx
    obtain ⟨a0, hr, hcl⟩ := cell_of_inBounds (hL (y, x) (List.mem_cons_self _ _))
    subst hr hcl
    have hlt : unusedCount (Grid.set (fun _ _ => false) a0.row a0.col true) < 25 := by
      have := unusedCount_set_lt (fun _ _ => false) a0 rfl
      rwa [unusedCount_none] at this
    obtain ⟨fw1, g1, g2, g3, g4⟩ :=
      callOK hD hDc 25 ([] ++ cellLetters (b.board a0.1 a0.2)) a0
        (Grid.set (fun _ _ => false) a0.row a0.col true) fw hlt hw hc
    have hbody : b.start ((fun _ _ => false : Grid Bool), fw) a0.row a0.col =
        some ((fun _ _ => false : Grid Bool), fw1) := by
      have hcur : b.englishWords.beginSearch = b.englishWords.cursorAtList [] := rfl
      simp only [Board.start, at_cell, hcur, step_cursorAtList, g1,
        set_set_restore (fun _ _ => false) a0 rfl]
    rw [List.foldlM_cons, hbody]
    obtain ⟨fw', h1, h2, h3, h4⟩ :=
      ih (fun yx hyx => hL yx (List.mem_cons_of_mem _ hyx)) fw1 g2 g3
    refine ⟨fw', h1, h2, h3, fun z => ?_⟩
    rw [h4, g4]
    constructor
    · rintro ((h | hadd0) | ⟨a', ha', hadd⟩)
      · exact Or.inl h
      · exact Or.inr ⟨a0, List.mem_cons_self _ _, by simpa using hadd0⟩
      · exact Or.inr ⟨a', List.mem_cons_of_mem _ ha', hadd⟩
    · rintro (h | ⟨a', ha', hadd⟩)
      · exact Or.inl (Or.inl h)
      · rcases List.mem_cons.1 ha' with e | ha''
        · simp only [Prod.mk.injEq] at e
          have := cell_ext e.1 e.2
          subst this
          exact Or.inl (Or.inr (by simpa using hadd))
        · exact Or.inr ⟨a', ha'', hadd⟩


theorem not_isWord_empty (x : List Char) : ¬ Node.isWord (some Trie.empty.root) x := by
  rintro ⟨v, hv, hval⟩
  have h := obs_empty x
  unfold Trie.obs at h
  rw [h] at hv
  split at hv
  · cases hv; cases hval
  · cases hv

theorem chain_near_iff_adjacent (a : Cell) (ext : List Cell) (h : (a :: ext).Nodup) :
    List.Chain near a ext ↔ List.Chain adjacent a ext := by
  induction ext generalizing a with
  | nil => simp
  | cons a' ext ih =>
    rw [List.chain_cons, List.chain_cons, ih a' (List.nodup_cons.1 h).2]
    have hne : a ≠ a' := by
      intro e
      have := (List.nodup_cons.1 h).1
      rw [e] at this
      exact this (List.mem_cons_self _ _)
    simp [adjacent, hne]

theorem reach_start_iff (a : Cell) (ext : List Cell) :
    Reach (Grid.set (fun _ _ => false) a.row a.col true) a ext ↔ IsBoardPath (a :: ext) := by
  unfold Reach IsBoardPath
  rw [set_cell, List.nodup_cons]
  have hmem : (∀ a' ∈ ext, (if a'.1 = a.1 ∧ a'.2 = a.2 then true else false) = false) ↔
      a ∉ ext := by
    constructor
    · intro h hin
      have := h a hin
      simp at this
    · intro h a' ha'
      have : ¬ (a'.1 = a.1 ∧ a'.2 = a.2) := by
        rintro ⟨e1, e2⟩
        exact h (by rw [← Prod.ext e1 e2]; exact ha')
      simp [this]
  rw [hmem]
  constructor
  · rintro ⟨h1, h2, h3⟩
    have hnd : (a :: ext).Nodup := List.nodup_cons.2 ⟨h3, h2⟩
    exact ⟨List.cons_ne_nil _ _, ⟨h3, h2⟩, (chain_near_iff_adjacent a ext hnd).1 h1⟩
  · rintro ⟨_, ⟨h3, h2⟩, h1⟩
    have hnd : (a :: ext).Nodup := List.nodup_cons.2 ⟨h3, h2⟩
    exact ⟨(chain_near_iff_adjacent a ext hnd).2 h1, h2, h3⟩

theorem all_cells_inBounds :
    ∀ yx ∈ ([(0 : Int), 1, 2, 3, 4].flatMap fun r => [(0 : Int), 1, 2, 3, 4].map fun c => (r, c)),
      ¬ (yx.2 < 0 ∨ yx.1 < 0 ∨ yx.1 ≥ 5 ∨ yx.2 ≥ 5) := by
  intro yx h
  obtain ⟨y, x⟩ := yx
  simp only [List.flatMap_cons, List.flatMap_nil, List.map_cons, List.map_nil, List.append_nil,
    List.cons_append, List.nil_append, List.mem_cons, Prod.mk.injEq, List.mem_nil_iff,
    or_false] at h
  omega

theorem mem_five (i : Fin 5) : ((i.val : Int)) ∈ [(0 : Int), 1, 2, 3, 4] := by
  have h := i.isLt
  simp only [List.mem_cons, List.mem_nil_iff, or_false]
  omega

theorem mem_all_cells (a : Cell) :
    (a.row, a.col) ∈
      ([(0 : Int), 1, 2, 3, 4].flatMap fun r => [(0 : Int), 1, 2, 3, 4].map fun c => (r, c)) := by
  rw [List.mem_flatMap]
  refine ⟨a.row, mem_five a.1, ?_⟩
  rw [List.mem_map]
  exact ⟨a.col, mem_five a.2, rfl⟩

theorem cellLetters_ne_nil (ch : Char) : cellLetters ch ≠ [] := by
  unfold cellLetters
  split <;> simp

theorem allWords_spec {b : Board} (hD : b.englishWords.WF) (hDc : b.englishWords.Cached) :
    ∃ res, b.allWords = some res ∧ List.Pairwise (· < ·) res ∧
      ∀ s : String, s ∈ res ↔
        b.englishWords.find s = .FOUND ∧ ∃ path, IsBoardPath path ∧ b.spell path = s.data := by
  obtain ⟨fw, h1, h2, h3, h4⟩ :=
    start_loop hD hDc _ all_cells_inBounds Trie.empty WF_empty Cached_empty
  have hall : b.allWords = some fw.enqueue := by
    rw [allWords_eq, foldlM_nested (fun st r c => b.start st r c), h1]
  have hspec := enqueue_spec h2 h3
  refine ⟨fw.enqueue, hall, hspec.1, fun s => ?_⟩
  rw [hspec.2, find_eq_found_iff, find_eq_found_iff]
  have hfw : (∃ v, fw.obs s.data = some v ∧ v.val = true) ↔
      Node.isWord (some fw.root) s.data := Iff.rfl
  rw [hfw, h4]
  constructor
  · rintro ⟨_, h | ⟨a, _, hword, ext, hreach, hx⟩⟩
    · exact absurd h (not_isWord_empty _)
    · refine ⟨hword, a :: ext, (reach_start_iff a ext).1 hreach, ?_⟩
      rw [hx, spell_cons]
  · rintro ⟨hword, path, hpath, hx⟩
    cases path with
    | nil => exact absurd rfl hpath.1
    | cons a ext =>
      rw [spell_cons] at hx
      refine ⟨?_, Or.inr ⟨a, mem_all_cells a, hword, ext, (reach_start_iff a ext).2 hpath,
        hx.symm⟩⟩
      intro e
      rw [e] at hx
      have : cellLetters (b.board a.1 a.2) = [] := (List.append_eq_nil.1 hx).1
      exact cellLetters_ne_nil _ this

/-- C1: for a 5x5 grid of letters A-Z and a dictionary built from the empty trie by
`insert` calls on strings over A-Z, `Board::allWords()` returns, and every string it
returns was inserted into the dictionary and is spelled by a non-empty sequence of
pairwise distinct, successively 8-adjacent cells, a `Q` cell contributing `QU`. -/
theorem allWords_sound (g : Grid Char) (_hg : ∀ i j, isAZ (g i j)) (ws : List String)
    (hws : ∀ w ∈ ws, AZ w) :
    ∃ res, Board.allWords { board := g, englishWords := Trie.build ws } = some res ∧
      ∀ s ∈ res, s ∈ ws ∧
        ∃ path, IsBoardPath path ∧
          String.mk (Board.spell { board := g, englishWords := Trie.build ws } path) = s := by
  obtain ⟨res, h1, _, h3⟩ :=
    allWords_spec (b := { board := g, englishWords := Trie.build ws }) (WF_build hws)
      (Cached_build hws)
  refine ⟨res, h1, fun s hs => ?_⟩
  obtain ⟨hfound, path, hpath, hx⟩ := (h3 s).1 hs
  refine ⟨?_, path, hpath, String.ext hx⟩
  have := (find_eq_found_iff (Trie.build ws) s).1 hfound
  exact (obs_build_val hws s.data).1 this

theorem allWords_sound_witness :
    (∀ i j, isAZ (exampleGrid i j)) ∧ (∀ w ∈ ["CAT", "CATS", "AT", "DOG"], AZ w) ∧
      ∃ res,
        Board.allWords
            { board := exampleGrid, englishWords := Trie.build ["CAT", "CATS", "AT", "DOG"] } =
          some res ∧
        ∀ s ∈ res, s ∈ ["CAT", "CATS", "AT", "DOG"] ∧
          ∃ path, IsBoardPath path ∧
            String.mk
                (Board.spell
                  { board := exampleGrid
                    englishWords := Trie.build ["CAT", "CATS", "AT", "DOG"] } path) = s :=
  ⟨by decide, by decide,
    allWords_sound exampleGrid (by decide) ["CAT", "CATS", "AT", "DOG"] (by decide)⟩

theorem int32_of_range {x : Int} (h1 : -2147483648 ≤ x) (h2 : x ≤ 2147483647) :
    int32 x = x := by
  unfold int32
  omega

theorem int32_range (x : Int) : -2147483648 ≤ int32 x ∧ int32 x ≤ 2147483647 := by
  unfold int32
  omega

theorem int32_add_int32 (x y : Int) : int32 (int32 x + y) = int32 (x + y) := by
  unfold int32
  omega

theorem wordPoints_range (n : Nat) : 0 ≤ Board.wordPoints n ∧ Board.wordPoints n ≤ 11 := by
  unfold Board.wordPoints
  split <;> omega

theorem countPoints_foldl (q : List String) (a : Int) (ha : int32 a = a) :
    q.foldl
      (fun pts s =>
        match s.length with
        | 1 => pts
        | 2 => pts
        | 3 => int32 (pts + 1)
        | 4 => int32 (pts + 1)
        | 5 => int32 (pts + 2)
        | 6 => int32 (pts + 3)
        | 7 => int32 (pts + 5)
        | _ => int32 (pts + 11))
      a = int32 (a + (q.map (fun s => Board.wordPoints s.length)).sum) := by
  induction q generalizing a with
  | nil => simpa using ha.symm
  | cons s q ih =>
    simp only [List.foldl_cons, List.map_cons, List.sum_cons]
    have h : (match s.length with
        | 1 => a
        | 2 => a
        | 3 => int32 (a + 1)
        | 4 => int32 (a + 1)
        | 5 => int32 (a + 2)
        | 6 => int32 (a + 3)
        | 7 => int32 (a + 5)
        | _ => int32 (a + 11)) = int32 (a + Board.wordPoints s.length) := by
      unfold Board.wordPoints
      split <;> simp [ha]
    rw [h, ih _ (by have := int32_add_int32 (a + Board.wordPoints s.length) 0; simpa using this),
      int32_add_int32, add_assoc]

theorem wordPoints_ge_eight (n : Nat) (h : 8 ≤ n) : Board.wordPoints n = 11 := by
  unfold Board.wordPoints
  split <;> omega

theorem countPoints_eq (q : List String) :
    Board.countPoints q = int32 ((q.map (fun s => Board.wordPoints s.length)).sum) := by
  unfold Board.countPoints
  rw [countPoints_foldl q 0 (by decide), zero_add]

theorem sum_wordPoints_nonneg (q : List String) :
    0 ≤ (q.map (fun s => Board.wordPoints s.length)).sum := by
  induction q with
  | nil => simp
  | cons s q ih =>
    simp only [List.map_cons, List.sum_cons]
    have := (wordPoints_range s.length).1
    omega

theorem countPoints_replicate (n : Nat) (s : String) :
    Board.countPoints (List.replicate n s) = int32 (n * Board.wordPoints s.length) := by
  rw [countPoints_eq, List.map_replicate, List.sum_replicate, nsmul_eq_mul]

/-- C10, as the code has it: for a sequence of words whose points sum to at most
`2147483647`, `Board::countPoints` returns the sum over the words of points that
depend on the length alone: 0 for lengths 1 and 2, 1 for lengths 3 and 4, 2 for
length 5, 3 for length 6, 5 for length 7 and 11 for length 8 or more; the list
A, AT, CAT, CATS, FRIEND, PYTHONS, ABCDEFGH scores 21. -/
theorem countPoints_scoring_table (q : List String)
    (h : (q.map (fun s => Board.wordPoints s.length)).sum ≤ 2147483647) :
    Board.countPoints q = (q.map (fun s => Board.wordPoints s.length)).sum ∧
      Board.wordPoints 1 = 0 ∧ Board.wordPoints 2 = 0 ∧
      Board.wordPoints 3 = 1 ∧ Board.wordPoints 4 = 1 ∧
      Board.wordPoints 5 = 2 ∧ Board.wordPoints 6 = 3 ∧ Board.wordPoints 7 = 5 ∧
      (∀ n : Nat, 8 ≤ n → Board.wordPoints n = 11) ∧
      Board.countPoints ["A", "AT", "CAT", "CATS", "FRIEND", "PYTHONS", "ABCDEFGH"] = 21 := by
  refine ⟨?_, rfl, rfl, rfl, rfl, rfl, rfl, rfl, wordPoints_ge_eight, by decide⟩
  rw [countPoints_eq]
  have h0 := sum_wordPoints_nonneg q
  exact int32_of_range (by omega) h

theorem countPoints_scoring_table_witness :
    ((["A", "AT", "CAT", "CATS", "FRIEND", "PYTHONS", "ABCDEFGH"].map
        (fun s => Board.wordPoints s.length)).sum ≤ 2147483647) ∧
      Board.countPoints ["A", "AT", "CAT", "CATS", "FRIEND", "PYTHONS", "ABCDEFGH"] =
        (["A", "AT", "CAT", "CATS", "FRIEND", "PYTHONS", "ABCDEFGH"].map
          (fun s => Board.wordPoints s.length)).sum ∧
      Board.wordPoints 1 = 0 ∧ Board.wordPoints 2 = 0 ∧
      Board.wordPoints 3 = 1 ∧ Board.wordPoints 4 = 1 ∧
      Board.wordPoints 5 = 2 ∧ Board.wordPoints 6 = 3 ∧ Board.wordPoints 7 = 5 ∧
      (∀ n : Nat, 8 ≤ n → Board.wordPoints n = 11) ∧
      Board.countPoints ["A", "AT", "CAT", "CATS", "FRIEND", "PYTHONS", "ABCDEFGH"] = 21 :=
  ⟨by decide,
    countPoints_scoring_table ["A", "AT", "CAT", "CATS", "FRIEND", "PYTHONS", "ABCDEFGH"]
      (by decide)⟩

/-- C10 fails for a sequence whose points no longer fit the `int` that sums them
up: 195225787 words of eight letters have 2147483657 points, and
`Board::countPoints` returns -2147483639. -/
theorem countPoints_overflows :
    ((List.replicate 195225787 "ABCDEFGH").map (fun s => Board.wordPoints s.length)).sum =
        2147483657 ∧
      Board.countPoints (List.replicate 195225787 "ABCDEFGH") = -2147483639 ∧
      Board.countPoints (List.replicate 195225787 "ABCDEFGH") ≠
        ((List.replicate 195225787 "ABCDEFGH").map (fun s => Board.wordPoints s.length)).sum := by
  have h8 : Board.wordPoints ("ABCDEFGH" : String).length = 11 := by decide
  have hsum : ((List.replicate 195225787 "ABCDEFGH").map
      (fun s => Board.wordPoints s.length)).sum = 2147483657 := by
    rw [List.map_replicate, List.sum_replicate, nsmul_eq_mul, h8]
    norm_num
  have hpts : Board.countPoints (List.replicate 195225787 "ABCDEFGH") = -2147483639 := by
    rw [countPoints_replicate, h8]
    decide
  refine ⟨hsum, hpts, ?_⟩
  rw [hsum, hpts]
  decide


/-! ## Insertions as additions of one word -/

theorem isAZ_toupper {c : Char} (h : isLetter c) : isAZ (toupper c) := by
  unfold toupper Char.toUpper
  rcases h with h | h
  · have : ¬ (c.toNat ≥ 97 ∧ c.toNat ≤ 122) := by
      unfold isAZ at h
      omega
    simp only [this, if_false]
    exact h
  · simp only [ge_iff_le, h, and_self, if_true]
    have e : c.toNat - 32 = 65 + (c.toNat - 97) := by omega
    unfold isAZ
    rw [e, ← letter, toNat_letter _ (by omega)]
    omega

theorem toupper_of_isAZ {c : Char} (h : isAZ c) : toupper c = c := by
  unfold toupper Char.toUpper
  have : ¬ (c.toNat ≥ 97 ∧ c.toNat ≤ 122) := by
    unfold isAZ at h
    omega
  simp only [this, if_false]

theorem isAZ_map_toupper {w : List Char} (h : ∀ c ∈ w, isLetter c) :
    ∀ c ∈ w.map toupper, isAZ c := by
  intro c hc
  obtain ⟨d, hd, rfl⟩ := List.mem_map.1 hc
  exact isAZ_toupper (h d hd)

theorem AZ_upperString {s : String} (h : Letters s) : AZ (upperString s) :=
  isAZ_map_toupper h

theorem insertCaseRec_eq (n : Node) (w : List Char) :
    Trie.insertCaseRec n w = Trie.insertRec n (w.map toupper) := by
  induction w generalizing n with
  | nil => rfl
  | cons c cs ih => simp only [Trie.insertCaseRec, Trie.insertRec, List.map_cons, ih]

theorem obs_insertRec {n : Node} (h : n.LenOK) {w : List Char} (hw : ∀ c ∈ w, isAZ c)
    (p : List Char) :
    Node.obs (some (Trie.insertRec n w).1) p =
      if p = w then some { (Node.obs (some n) p).getD (NodeView.fresh p) with val := true }
      else if p <+: w then some ((Node.obs (some n) p).getD (NodeView.fresh p))
      else Node.obs (some n) p := by
  rw [insertRec_eq h hw]
  simp only
  rw [obs_modifyAt (fun n => n.setValue true) (fun v => { v with val := true })
      (fun _ => rfl) (fun _ => rfl), obs_ensure h hw]
  by_cases hp : p = w
  · subst hp
    simp
  · simp only [hp, if_false]
    split <;> simp

theorem Adds_insert {t : Trie} (h : t.root.LenOK) {s : String} (hs : AZ s) :
    Trie.Adds t (t.insert s) s.data := by
  constructor
  · exact ⟨some s, by rw [obs_insert h hs]; simp⟩
  · intro p hp hpre
    rw [obs_insert h hs]
    simp [hp, hpre]
  · intro p hpre
    have hp : p ≠ s.data := fun e => hpre (by rw [e])
    rw [obs_insert h hs]
    simp [hp, hpre]

theorem obs_insertCase {t : Trie} (h : t.root.LenOK) {s : String} (hs : Letters s)
    (p : List Char) :
    (t.insertCase s).obs p =
      if p = s.data.map toupper then
        some { (t.obs p).getD (NodeView.fresh p) with val := true, cache := some s }
      else if p <+: s.data.map toupper then some ((t.obs p).getD (NodeView.fresh p))
      else t.obs p := by
  unfold Trie.insertCase Trie.obs
  have haz := isAZ_map_toupper hs
  simp only [insertCaseRec_eq, insertRec_eq h haz]
  rw [obs_modifyAt (fun n => n.setCacheString s) (fun v => { v with cache := some s })
      (fun _ => rfl) (fun _ => rfl),
    obs_modifyAt (fun n => n.setValue true) (fun v => { v with val := true })
      (fun _ => rfl) (fun _ => rfl),
    obs_ensure h haz]
  by_cases hp : p = s.data.map toupper
  · subst hp
    simp
  · simp only [hp, if_false]
    split <;> simp

theorem Adds_insertCase {t : Trie} (h : t.root.LenOK) {s : String} (hs : Letters s) :
    Trie.Adds t (t.insertCase s) (s.data.map toupper) := by
  constructor
  · exact ⟨some s, by rw [obs_insertCase h hs]; simp⟩
  · intro p hp hpre
    rw [obs_insertCase h hs]
    simp [hp, hpre]
  · intro p hpre
    have hp : p ≠ s.data.map toupper := fun e => hpre (by rw [e])
    rw [obs_insertCase h hs]
    simp [hp, hpre]

theorem obs_insertCase_nocache {t : Trie} (h : t.root.LenOK) {s : String} (hs : Letters s)
    (p : List Char) :
    (t.insertCase_nocache s).obs p =
      if p = s.data.map toupper then
        some { (t.obs p).getD (NodeView.fresh p) with val := true }
      else if p <+: s.data.map toupper then some ((t.obs p).getD (NodeView.fresh p))
      else t.obs p := by
  unfold Trie.insertCase_nocache Trie.obs
  simp only [insertCaseRec_eq]
  exact obs_insertRec h (isAZ_map_toupper hs) p

theorem Adds_insertCase_nocache {t : Trie} (h : t.root.LenOK) {s : String} (hs : Letters s) :
    Trie.Adds t (t.insertCase_nocache s) (s.data.map toupper) := by
  constructor
  · exact ⟨((t.obs (s.data.map toupper)).getD (NodeView.fresh (s.data.map toupper))).cache,
      by rw [obs_insertCase_nocache h hs]; simp⟩
  · intro p hp hpre
    rw [obs_insertCase_nocache h hs]
    simp [hp, hpre]
  · intro p hpre
    have hp : p ≠ s.data.map toupper := fun e => hpre (by rw [e])
    rw [obs_insertCase_nocache h hs]
    simp [hp, hpre]

theorem Adds_insertForeignIt {t : Trie} (h : t.root.LenOK) (it : SearchIterator)
    (haz : ∀ c ∈ Trie.pathOf it.curNode nul, isAZ c) :
    Trie.Adds t (t.insertForeignIt it) (Trie.pathOf it.curNode nul) := by
  constructor
  · rw [obs_insertForeignIt h it haz]
    simp only [if_true]
    exact ⟨_, rfl⟩
  · intro p hp hpre
    rw [obs_insertForeignIt h it haz]
    simp [hp, hpre]
  · intro p hpre
    have hp : p ≠ Trie.pathOf it.curNode nul := fun e => hpre (by rw [e])
    rw [obs_insertForeignIt h it haz]
    simp [hp, hpre]

theorem Trie.Adds.wf {t t' : Trie} {w : List Char} (h : Trie.Adds t t' w) (ht : t.WF) :
    t'.WF := by
  have key : ∀ p v, t'.obs p = some v →
      ∃ u, (t.obs p = some u ∨ u = NodeView.fresh p) ∧ v.slots = u.slots ∧ v.ch = u.ch := by
    intro p v hv
    have hgetD : ∃ u, (t.obs p = some u ∨ u = NodeView.fresh p) ∧
        (t.obs p).getD (NodeView.fresh p) = u := by
      cases ho : t.obs p with
      | none => exact ⟨_, Or.inr rfl, rfl⟩
      | some u => exact ⟨u, Or.inl rfl, rfl⟩
    obtain ⟨u, hu, hue⟩ := hgetD
    by_cases hp : p = w
    · obtain ⟨c, hc⟩ := h.target
      subst hp
      rw [hc, hue] at hv
      cases hv
      exact ⟨u, hu, rfl, rfl⟩
    · by_cases hpre : p <+: w
      · rw [h.onPath p hp hpre, hue] at hv
        cases hv
        exact ⟨v, hu, rfl, rfl⟩
      · rw [h.offPath p hpre] at hv
        exact ⟨v, Or.inl hv, rfl, rfl⟩
  constructor
  · intro p v hv
    obtain ⟨u, hu, h1, _⟩ := key p v hv
    rw [h1]
    rcases hu with hu | hu
    · exact ht.slots p u hu
    · rw [hu]; rfl
  · intro p v hv
    obtain ⟨u, hu, _, h2⟩ := key p v hv
    rw [h2]
    rcases hu with hu | hu
    · exact ht.chars p u hu
    · rw [hu]; rfl

theorem Trie.Adds.isWord_iff {t t' : Trie} {w : List Char} (h : Trie.Adds t t' w)
    (x : List Char) :
    Node.isWord (some t'.root) x ↔ Node.isWord (some t.root) x ∨ x = w := by
  show (∃ v, t'.obs x = some v ∧ v.val = true) ↔ (∃ v, t.obs x = some v ∧ v.val = true) ∨ x = w
  by_cases hx : x = w
  · subst hx
    obtain ⟨c, hc⟩ := h.target
    simp [hc]
  · by_cases hpre : x <+: w
    · rw [h.onPath x hx hpre]
      cases ho : t.obs x with
      | none => simp [hx, NodeView.fresh]
      | some u => simp [hx]
    · rw [h.offPath x hpre]
      simp [hx]

theorem Trie.Adds.obs_isSome {t t' : Trie} {w : List Char} (h : Trie.Adds t t' w)
    (x : List Char) : t'.obs x ≠ none ↔ t.obs x ≠ none ∨ x <+: w := by
  by_cases hx : x = w
  · subst hx
    obtain ⟨c, hc⟩ := h.target
    simp [hc]
  · by_cases hpre : x <+: w
    · rw [h.onPath x hx hpre]
      simp [hpre]
    · rw [h.offPath x hpre]
      simp [hpre]


theorem Trie.Adds.find_congr {t t1 t2 : Trie} {w : List Char} (h1 : Trie.Adds t t1 w)
    (h2 : Trie.Adds t t2 w) (s : String) : t1.find s = t2.find s := by
  rw [find_eq_obs, find_eq_obs]
  by_cases hx : s.data = w
  · obtain ⟨c1, e1⟩ := h1.target
    obtain ⟨c2, e2⟩ := h2.target
    rw [hx, e1, e2]
  · by_cases hpre : s.data <+: w
    · rw [h1.onPath _ hx hpre, h2.onPath _ hx hpre]
    · rw [h1.offPath _ hpre, h2.offPath _ hpre]

theorem Trie.Adds.find_target {t t' : Trie} {w : List Char} (h : Trie.Adds t t' w) :
    t'.find (String.mk w) = .FOUND := by
  rw [find_eq_found_iff]
  obtain ⟨c, hc⟩ := h.target
  exact ⟨_, hc, rfl⟩

/-- C13: on every trie and for every string `w` of ASCII letters, `insertCase(w)` and
`insertCase_nocache(w)` each leave the trie with the same `find` results as
`insert(uppercase(w))` does; `cat` is folded to `CAT`, and `find("CAT")` is `FOUND`
after `insertCase("cat")` and after `insertCase_nocache("cat")`. -/
theorem insertCase_folds_case (t : Trie) (ht : t.WF) (w : String) (hw : Letters w) :
    (∀ s, (t.insertCase w).find s = (t.insert (upperString w)).find s) ∧
      (∀ s, (t.insertCase_nocache w).find s = (t.insert (upperString w)).find s) ∧
      upperString "cat" = "CAT" ∧
      (t.insertCase "cat").find "CAT" = .FOUND ∧
      (t.insertCase_nocache "cat").find "CAT" = .FOUND := by
  have hU : Trie.Adds t (t.insert (upperString w)) (w.data.map toupper) :=
    Adds_insert ht.slots (AZ_upperString hw)
  have hcat : Letters "cat" := by decide
  refine ⟨fun s => (Adds_insertCase ht.slots hw).find_congr hU s,
    fun s => (Adds_insertCase_nocache ht.slots hw).find_congr hU s, by decide,
    (Adds_insertCase ht.slots hcat).find_target,
    (Adds_insertCase_nocache ht.slots hcat).find_target⟩

theorem insertCase_folds_case_witness :
    (Trie.build ["DOG"]).WF ∧ Letters "Cat" ∧
      (∀ s, ((Trie.build ["DOG"]).insertCase "Cat").find s =
        ((Trie.build ["DOG"]).insert (upperString "Cat")).find s) :=
  ⟨WF_build (by decide), by decide,
    (insertCase_folds_case (Trie.build ["DOG"]) (WF_build (by decide)) "Cat" (by decide)).1⟩

/-- C12 at the failing input: after `insert("A")` twice the trie has the single
element `A`, but `size()` is 2. -/
theorem size_counts_insert_calls :
    (Trie.build ["A", "A"]).size = 2 ∧
      ∀ s : String, (Trie.build ["A", "A"]).get s = true ↔ s = "A" := by
  refine ⟨rfl, fun s => ?_⟩
  unfold Trie.get
  rw [decide_eq_true_iff, find_eq_found_iff]
  have h := @obs_build_val ["A", "A"] (by decide) s.data
  have hmk : String.mk s.data = s := rfl
  rw [hmk] at h
  rw [h]
  simp

/-- C17: `up()` from the root gives the invalid iterator; on the invalid iterator
`next(c)` and `up()` leave it invalid and `inSet()` and `reachable()` are false;
`next(c)` from a node without a child for `c` gives the invalid iterator. -/
theorem iterator_moves_at_sentinel :
    (∀ t : Trie, t.beginSearch.up.curNode = []) ∧
      (∀ (it : SearchIterator) (c : Char), it.curNode = [] →
        (it.next c).curNode = [] ∧ it.up.curNode = [] ∧ it.inSet = false ∧
          it.reachable = false) ∧
      (∀ (it : SearchIterator) (n : Node) (parent : NodePtr) (c : Char),
        it.curNode = n :: parent → n.child (Node.index c) = none → (it.next c).curNode = []) := by
  refine ⟨fun _ => rfl, ?_, ?_⟩
  · intro it c h
    simp [SearchIterator.next, SearchIterator.up, SearchIterator.inSet,
      SearchIterator.reachable, h]
  · intro it n parent c h hc
    simp [SearchIterator.next, h, hc]


/-! ## Rendering and dice -/

theorem at_fin {α : Type} (g : Grid α) (r c : Fin 5) :
    Grid.at g (r.val : Int) (c.val : Int) = g r c :=
  at_cell g (r, c)

theorem finRange_five : List.finRange 5 = [0, 1, 2, 3, 4] := by
  decide

theorem five_ints :
    [(0 : Int), 1, 2, 3, 4] = (List.finRange 5).map (fun i : Fin 5 => (i.val : Int)) := by
  rw [finRange_five]
  rfl

theorem foldl_append_join {α : Type} (f : α → String) (L : List α) (s : String) :
    L.foldl (fun s c => s ++ f c) s = s ++ String.join (L.map f) := by
  induction L generalizing s with
  | nil => exact String.ext (by simp [String.data_append, String.data_join])
  | cons a L ih =>
    rw [List.foldl_cons, ih, List.map_cons]
    exact String.ext (by simp [String.data_append, String.data_join])

theorem push_cell (s : String) (ch : Char) :
    (if ch = 'Q' then s.push ch ++ "u" else s.push ch ++ " ") = s ++ renderCell ch := by
  unfold renderCell
  by_cases h : ch = 'Q'
  · simp only [h, if_true]
    exact String.ext (by simp [String.data_append, String.data_push])
  · simp only [h, if_false]
    exact String.ext (by simp [String.data_append, String.data_push])

theorem toString_row (b : Board) (r : Fin 5) (s : String) :
    [(0 : Int), 1, 2, 3, 4].foldl
        (fun s c =>
          let s2 := s.push (Grid.at b.board (r.val : Int) c)
          if Grid.at b.board (r.val : Int) c = 'Q' then s2 ++ "u" else s2 ++ " ")
        s = s ++ b.renderRow r := by
  rw [five_ints, List.foldl_map]
  simp only [at_fin, push_cell]
  exact foldl_append_join (fun c => renderCell (b.board r c)) (List.finRange 5) s

theorem length_renderCell (ch : Char) : (renderCell ch).length = 2 := by
  unfold renderCell
  split <;> rfl

theorem length_renderRow (b : Board) (r : Fin 5) : (b.renderRow r).length = 10 := by
  unfold Board.renderRow
  have h5 := finRange_five
  rw [h5]
  simp only [List.map_cons, List.map_nil, String.length, String.data_join, List.flatten_cons,
    List.flatten_nil, List.length_append, List.length_nil]
  have := fun c => length_renderCell (b.board r c)
  simp only [String.length] at this
  simp [this]

theorem toString_eq_render (b : Board) : b.toString = b.render := by
  unfold Board.toString Board.render
  have h0 := toString_row b 0
  have h1 := toString_row b 1
  have h2 := toString_row b 2
  have h3 := toString_row b 3
  have h4 := toString_row b 4
  have e0 : (((0 : Fin 5) : ℕ) : Int) = 0 := rfl
  have e1 : (((1 : Fin 5) : ℕ) : Int) = 1 := rfl
  have e2 : (((2 : Fin 5) : ℕ) : Int) = 2 := rfl
  have e3 : (((3 : Fin 5) : ℕ) : Int) = 3 := rfl
  have e4 : (((4 : Fin 5) : ℕ) : Int) = 4 := rfl
  rw [e0] at h0
  rw [e1] at h1
  rw [e2] at h2
  rw [e3] at h3
  rw [e4] at h4
  have c0 : ((0 : Int) < 4) = True := by decide
  have c1 : ((1 : Int) < 4) = True := by decide
  have c2 : ((2 : Int) < 4) = True := by decide
  have c3 : ((3 : Int) < 4) = True := by decide
  have c4 : ((4 : Int) < 4) = False := by decide
  rw [List.foldl_cons]
  simp only [h0, c0, if_true]
  rw [List.foldl_cons]
  simp only [h1, c1, if_true]
  rw [List.foldl_cons]
  simp only [h2, c2, if_true]
  rw [List.foldl_cons]
  simp only [h3, c3, if_true]
  rw [List.foldl_cons]
  simp only [h4, c4, if_false, List.foldl_nil]
  rw [finRange_five]
  apply String.ext
  simp only [List.map_cons, List.map_nil, String.intercalate, String.intercalate.go,
    String.data_append, List.append_assoc]
  exact List.nil_append _

/-- C18: `Board::toString()` is the five rows joined by single line breaks, without
a line break at the end; a row is its five cells in column order, a `Q` cell
rendered as `Qu` and any other cell as its letter and a space; so every row has 10
characters and the whole string 54. -/
theorem toString_rendering (b : Board) :
    b.toString = "\n".intercalate ((List.finRange 5).map b.renderRow) ∧
      (∀ r, b.renderRow r =
        String.join ((List.finRange 5).map fun c => renderCell (b.board r c))) ∧
      (∀ ch, renderCell ch = if ch = 'Q' then "Qu" else String.mk [ch, ' ']) ∧
      (∀ r, (b.renderRow r).length = 10) ∧ b.toString.length = 54 := by
  refine ⟨toString_eq_render b, fun _ => rfl, fun _ => rfl, length_renderRow b, ?_⟩
  rw [toString_eq_render]
  unfold Board.render
  rw [finRange_five]
  have := length_renderRow b
  simp only [String.length] at this
  simp only [List.map_cons, List.map_nil, String.intercalate, String.intercalate.go,
    String.length, String.data_append, List.length_append, this]
  rfl


theorem dice_faces :
    ∀ i, i < 25 → ∀ k, k < 6 →
      (Board.dice.getD i "").data.getD k 'A' ∈ (Board.dice.getD i "").data ∧
        isAZ ((Board.dice.getD i "").data.getD k 'A') := by
  decide

theorem length_dieRolls (rand : Nat → Nat) : (Board.dieRolls rand).length = 25 := by
  simp [Board.dieRolls]

theorem getD_dieRolls (rand : Nat → Nat) {i : Nat} (h : i < 25) :
    (Board.dieRolls rand).getD i 'A' = (Board.dice.getD i "").data.getD (rand i % 6) 'A' := by
  unfold Board.dieRolls
  rw [List.getD_eq_getElem?_getD, List.getElem?_map, List.getElem?_range h]
  rfl

theorem mem_dieRolls (rand : Nat → Nat) {ch : Char} (h : ch ∈ Board.dieRolls rand) :
    ∃ i, i < 25 ∧ ch = (Board.dice.getD i "").data.getD (rand i % 6) 'A' := by
  unfold Board.dieRolls at h
  obtain ⟨i, hi, rfl⟩ := List.mem_map.1 h
  exact ⟨i, List.mem_range.1 hi, rfl⟩

theorem cells_eq_of_length {α : Type} (L : List α) (d : α) (h : L.length = 25) :
    Grid.cells (fun (row c : Fin 5) => L.getD (5 * row.val + c.val) d) = L := by
  unfold Grid.cells
  rw [finRange_five]
  match L, h with
  | [a0, a1, a2, a3, a4, a5, a6, a7, a8, a9, a10, a11, a12, a13, a14, a15, a16, a17, a18, a19,
      a20, a21, a22, a23, a24], _ => rfl

/-- C19: for any values returned by `rand()` and any rearrangement performed by the
shuffle, after `newGame` the 25 cells hold a rearrangement of the 25 rolled letters,
the `i`-th rolled letter is one of the six faces of the `i`-th die of the table, and
every cell holds a letter A-Z. -/
theorem newGame_cells (rand : Nat → Nat) (shuffle : List Char → List Char)
    (hperm : ∀ l, (shuffle l).Perm l) :
    (Grid.cells (Board.newGame rand shuffle)).Perm (Board.dieRolls rand) ∧
      (Board.dieRolls rand).length = 25 ∧
      (∀ i, i < 25 →
        (Board.dieRolls rand).getD i 'A' ∈ (Board.dice.getD i "").data ∧
          (Board.dice.getD i "").length = 6) ∧
      ∀ r c, isAZ (Board.newGame rand shuffle r c) := by
  have hlen : (shuffle (Board.dieRolls rand)).length = 25 := by
    rw [(hperm _).length_eq, length_dieRolls]
  have hcells : Grid.cells (Board.newGame rand shuffle) = shuffle (Board.dieRolls rand) :=
    cells_eq_of_length _ 'A' hlen
  refine ⟨by rw [hcells]; exact hperm _, length_dieRolls rand, fun i hi => ?_, fun r c => ?_⟩
  · rw [getD_dieRolls rand hi]
    refine ⟨(dice_faces i hi _ (Nat.mod_lt _ (by omega))).1, ?_⟩
    revert i
    decide
  · have hmem : Board.newGame rand shuffle r c ∈ shuffle (Board.dieRolls rand) := by
      unfold Board.newGame
      have h1 := r.isLt
      have h2 := c.isLt
      rw [List.getD_eq_getElem?_getD, List.getElem?_eq_getElem (by omega)]
      exact List.getElem_mem _
    obtain ⟨i, hi, hch⟩ := mem_dieRolls rand ((hperm _).mem_iff.1 hmem)
    rw [hch]
    exact (dice_faces i hi _ (Nat.mod_lt _ (by omega))).2

theorem newGame_cells_witness :
    (∀ l : List Char, (List.reverse l).Perm l) ∧
      (Grid.cells (Board.newGame (fun i => i) List.reverse)).Perm
        (Board.dieRolls (fun i => i)) :=
  ⟨fun l => List.reverse_perm l,
    (newGame_cells (fun i => i) List.reverse (fun l => List.reverse_perm l)).1⟩


/-! ## Enumeration of tries with arbitrary caches -/

theorem sorted_paths_unique {L L' : List (List Char)} (h : L.Pairwise (· < ·))
    (h' : L'.Pairwise (· < ·)) (hm : ∀ p, p ∈ L ↔ p ∈ L') : L = L' := by
  have hnd : L.Nodup := h.imp (fun hab => ne_of_lt hab)
  have hnd' : L'.Nodup := h'.imp (fun hab => ne_of_lt hab)
  exact List.eq_of_perm_of_sorted ((List.perm_ext_iff_of_nodup hnd hnd').2 hm) h h'

theorem Node.CharsOK.below {n : Node} (h : n.CharsOK) {c : Char} {m : Node}
    (hm : n.child (Node.index c) = some m) : m.CharsOK := by
  intro p d v hv
  exact h (c :: p) d v (by rw [List.cons_append, obs_cons, hm]; exact hv)

theorem Node.CharsOK.char_child {n : Node} (h : n.CharsOK) {c : Char} {m : Node}
    (hm : n.child (Node.index c) = some m) : m.char_here = c := by
  have := h [] c m.view (by rw [List.nil_append, obs_cons, hm]; rfl)
  simpa [Node.view] using this

theorem CharsOK_of_WF {t : Trie} (h : t.WF) : t.root.CharsOK := by
  intro p c v hv
  have := h.chars (p ++ [c]) v hv
  simpa [List.getLastD_eq_getLast?] using this

theorem isAZ_letter {j : Nat} (h : j < 26) : isAZ (letter j) := by
  unfold isAZ
  rw [toNat_letter j h]
  omega

theorem letter_ne_nul {j : Nat} (h : j < 26) : letter j ≠ nul := by
  intro e
  have := isAZ_letter h
  rw [e] at this
  exact not_isAZ_nul this

theorem enqueueChildren_paths (parent : NodePtr) (E : List Char → String)
    (cs : List (Option Node)) (k : Nat) (hk : k + cs.length ≤ 26)
    (h : ∀ j m, cs[j]? = some (some m) →
      ∃ L : List (List Char),
        Trie.enqueueNode parent m [] = L.map (fun p => E (letter (k + j) :: p)) ∧
          L.Pairwise (· < ·) ∧ ∀ p, p ∈ L ↔ Node.isWord (some m) p) :
    ∃ L : List (List Char),
      Trie.enqueueChildren parent cs [] = L.map E ∧ L.Pairwise (· < ·) ∧
        ∀ p, p ∈ L ↔
          ∃ j m p', cs[j]? = some (some m) ∧ p = letter (k + j) :: p' ∧
            Node.isWord (some m) p' := by
  induction cs generalizing k with
  | nil => exact ⟨[], by simp [enqueueChildren_nil], List.Pairwise.nil, by simp⟩
  | cons o cs ih =>
    simp only [List.length_cons] at hk
    obtain ⟨Lr, hr1, hr2, hr3⟩ := ih (k + 1) (by omega) (fun j m hj => by
      have := h (j + 1) m (by rw [List.getElem?_cons_succ]; exact hj)
      rw [show k + 1 + j = k + (j + 1) by omega]
      exact this)
    have shift : ∀ p, (∃ j m p', (o :: cs)[j]? = some (some m) ∧ p = letter (k + j) :: p' ∧
          Node.isWord (some m) p') ↔
        (∃ m p', o = some m ∧ p = letter k :: p' ∧ Node.isWord (some m) p') ∨
          ∃ j m p', cs[j]? = some (some m) ∧ p = letter (k + 1 + j) :: p' ∧
            Node.isWord (some m) p' := by
      intro p
      constructor
      · rintro ⟨j, m, p', hj, hp, hw⟩
        cases j with
        | zero =>
          simp only [List.getElem?_cons_zero, Option.some.injEq] at hj
          exact Or.inl ⟨m, p', hj, hp, hw⟩
        | succ j =>
          rw [List.getElem?_cons_succ] at hj
          exact Or.inr ⟨j, m, p', hj, by rw [hp, show k + 1 + j = k + (j + 1) by omega], hw⟩
      · rintro (⟨m, p', ho, hp, hw⟩ | ⟨j, m, p', hj, hp, hw⟩)
        · exact ⟨0, m, p', by simp [ho], hp, hw⟩
        · exact ⟨j + 1, m, p', by rw [List.getElem?_cons_succ]; exact hj,
            by rw [hp, show k + 1 + j = k + (j + 1) by omega], hw⟩
    have hrest : ∀ p ∈ Lr, ∃ j p', j < cs.length ∧ p = letter (k + 1 + j) :: p' := by
      intro p hp
      obtain ⟨j, m, p', hj, hp', _⟩ := (hr3 p).1 hp
      have hlt : j < cs.length := by
        by_contra hge
        rw [List.getElem?_eq_none (by omega)] at hj
        cases hj
      exact ⟨j, p', hlt, hp'⟩
    rw [enqueueChildren_cons]
    cases o with
    | none =>
      refine ⟨Lr, by simpa using hr1, hr2, fun p => ?_⟩
      rw [shift, hr3]
      simp
    | some m0 =>
      obtain ⟨L0, h01, h02, h03⟩ := h 0 m0 (by simp)
      refine ⟨L0.map (fun p => letter k :: p) ++ Lr, ?_, ?_, fun p => ?_⟩
      · simp only [h01, hr1, List.map_append, List.map_map]
        rfl
      · rw [List.pairwise_append]
        refine ⟨?_, hr2, ?_⟩
        · rw [List.pairwise_map]
          exact h02.imp (fun hab => List.Lex.cons_iff.2 hab)
        · intro a ha b hb
          obtain ⟨a', _, rfl⟩ := List.mem_map.1 ha
          obtain ⟨j, b', hj, rfl⟩ := hrest b hb
          exact List.Lex.rel (letter_lt_letter (by omega) (by omega))
      · rw [shift, List.mem_append, hr3, List.mem_map]
        constructor
        · rintro (⟨a, ha, rfl⟩ | hR)
          · exact Or.inl ⟨m0, a, rfl, rfl, (h03 a).1 ha⟩
          · exact Or.inr hR
        · rintro (⟨m, p', ho, hp, hw⟩ | hR)
          · cases ho
            exact Or.inl ⟨p', (h03 p').2 hw, hp.symm⟩
          · exact Or.inr hR

theorem enqueueChildren_of_node_paths (n : Node) (base : List Char) (parent : NodePtr)
    (hlen : n.LenOK) (hch : n.CharsOK)
    (hbuild : Node.buildString "" (n :: parent) = String.mk base)
    (ih : ∀ m, some m ∈ n.children → ∀ (b : List Char) (q : NodePtr), m.LenOK → m.CharsOK →
      Node.buildString "" (m :: q) = String.mk b →
        ∃ L : List (List Char),
          Trie.enqueueNode q m [] =
              L.map (fun p => effString (Node.obs (some m) p) (b ++ p)) ∧
            L.Pairwise (· < ·) ∧ ∀ p, p ∈ L ↔ Node.isWord (some m) p) :
    ∃ L : List (List Char),
      Trie.enqueueChildren (n :: parent) n.children [] =
          L.map (fun p => effString (Node.obs (some n) p) (base ++ p)) ∧
        L.Pairwise (· < ·) ∧
        ∀ p, p ∈ L ↔ p ≠ [] ∧ Node.isWord (some n) p := by
  have h26 := hlen.slots26
  obtain ⟨L, h1, h2, h3⟩ := enqueueChildren_paths (n :: parent)
    (fun p => effString (Node.obs (some n) p) (base ++ p)) n.children 0 (by omega)
    (fun j m hj => by
      have hchild := child_letter h26 hj
      have hj26 := children_getElem?_lt h26 hj
      have hb : Node.buildString "" (m :: n :: parent) = String.mk (base ++ [letter j]) := by
        have hc := hch.char_child hchild
        show (if m.char_here = nul then "" else
          (Node.buildString "" (n :: parent)).push m.char_here) = _
        rw [hc, if_neg (letter_ne_nul hj26), hbuild]
        rfl
      obtain ⟨L, e1, e2, e3⟩ := ih m (List.mem_iff_getElem?.2 ⟨j, hj⟩) (base ++ [letter j])
        (n :: parent) (hlen.ofChild hchild) (hch.below hchild) hb
      refine ⟨L, ?_, e2, e3⟩
      rw [e1]
      apply List.map_congr_left
      intro p _
      simp only [Nat.zero_add, obs_cons, hchild, List.append_assoc, List.singleton_append])
  refine ⟨L, h1, h2, fun p => ?_⟩
  rw [h3]
  constructor
  · rintro ⟨j, m, p', hj, hp, hw⟩
    subst hp
    refine ⟨List.cons_ne_nil _ _, ?_⟩
    rw [isWord_cons, Nat.zero_add, child_letter h26 hj]
    exact hw
  · rintro ⟨hne, hw⟩
    cases p with
    | nil => exact absurd rfl hne
    | cons c p' =>
      rw [isWord_cons] at hw
      cases hm : n.child (Node.index c) with
      | none => rw [hm] at hw; exact absurd hw (isWord_none p')
      | some m =>
        rw [hm] at hw
        have haz := isAZ_of_child h26 hm
        exact ⟨(Node.index c).toNat, m, p', ((child_eq_some_iff n _ m).1 hm).2,
          by rw [Nat.zero_add, letter_index haz], hw⟩

theorem enqueueNode_paths (n : Node) :
    ∀ (base : List Char) (parent : NodePtr), n.LenOK → n.CharsOK →
      Node.buildString "" (n :: parent) = String.mk base →
        ∃ L : List (List Char),
          Trie.enqueueNode parent n [] =
              L.map (fun p => effString (Node.obs (some n) p) (base ++ p)) ∧
            L.Pairwise (· < ·) ∧ ∀ p, p ∈ L ↔ Node.isWord (some n) p := by
  induction n using Node.induct with
  | step c v cs s ih =>
    intro base parent hlen hch hbuild
    obtain ⟨L, h1, h2, h3⟩ :=
      enqueueChildren_of_node_paths (.mk c v cs s) base parent hlen hch hbuild ih
    simp only [Node.children] at h1
    rw [enqueueNode_mk, enqueueChildren_acc, h1]
    cases v with
    | false =>
      refine ⟨L, by simp, h2, fun p => ?_⟩
      rw [h3]
      constructor
      · exact fun hp => hp.2
      · intro hw
        refine ⟨?_, hw⟩
        rintro rfl
        rw [isWord_nil] at hw
        cases hw
    | true =>
      have hstr : Node.toString (.mk c true cs s :: parent) =
          effString (Node.obs (some (Node.mk c true cs s)) []) (base ++ []) := by
        rw [obs_nil, List.append_nil]
        unfold effString Node.toString
        cases s with
        | none => simp [Node.str, Node.view, hbuild]
        | some x => simp [Node.str, Node.view]
      refine ⟨[] :: L, by simp [hstr], ?_, fun p => ?_⟩
      · rw [List.pairwise_cons]
        refine ⟨fun b hb => ?_, h2⟩
        have := ((h3 b).1 hb).1
        cases b with
        | nil => exact absurd rfl this
        | cons d b' => exact List.Lex.nil
      · rw [List.mem_cons, h3]
        constructor
        · rintro (rfl | hp)
          · exact (isWord_nil _).2 rfl
          · exact hp.2
        · intro hw
          by_cases hp : p = []
          · exact Or.inl hp
          · exact Or.inr ⟨hp, hw⟩

theorem buildString_root {t : Trie} (h : t.WF) :
    Node.buildString "" [t.root] = String.mk [] := by
  have := h.chars [] t.root.view rfl
  simp only [Node.view, List.getLastD_nil] at this
  simp [Node.buildString, this]

theorem enqueue_paths {t : Trie} (h : t.WF) :
    ∃ L : List (List Char),
      t.enqueue = L.map (fun p => effString (t.obs p) p) ∧ L.Pairwise (· < ·) ∧
        ∀ p, p ∈ L ↔ p ≠ [] ∧ Node.isWord (some t.root) p := by
  have := enqueueChildren_of_node_paths t.root [] [] h.slots (CharsOK_of_WF h)
    (buildString_root h) (fun m _ b q h1 h2 h3 => enqueueNode_paths m b q h1 h2 h3)
  simpa using this


theorem obs_of_prefix {o : Option Node} {p w : List Char} {v : NodeView}
    (hw : Node.obs o w = some v) (hp : p <+: w) : ∃ u, Node.obs o p = some u := by
  obtain ⟨q, rfl⟩ := hp
  unfold Node.obs at hw ⊢
  rw [descend_append] at hw
  cases hd : Node.descend o p with
  | none => rw [hd, descend_none] at hw; cases hw
  | some m => exact ⟨m.view, rfl⟩

theorem getCacheString_cursorAt (t : Trie) (w : String) :
    (t.cursorAt w).getCacheString = (t.obs w.data).bind NodeView.cache := by
  rw [getCacheString_eq, head_cursorAt]
  unfold Trie.obs Node.obs
  cases Node.descend (some t.root) w.data <;> rfl

theorem obs_insert_existing {t : Trie} (h : t.WF) {w : String} (hw : AZ w) {v : NodeView}
    (hv : t.obs w.data = some v) (p : List Char) :
    (t.insert w).obs p =
      if p = w.data then some { v with val := true, cache := some w } else t.obs p := by
  rw [obs_insert h.slots hw]
  by_cases hp : p = w.data
  · subst hp
    simp [hv]
  · simp only [hp, if_false]
    by_cases hpre : p <+: w.data
    · obtain ⟨u, hu⟩ := obs_of_prefix hv hpre
      have hu' : t.obs p = some u := hu
      simp [hpre, hu']
    · simp [hpre]

/-- C11, as the code has it: on every trie whose `size()` is an `int` below
`2147483647`, `insert(w)` of a word `w` over A-Z that is already in the trie
increases `size()` by exactly 1 and leaves `find(s)` unchanged for every string `s`;
`enqueue()` is unchanged as well when the node of `w` cached nothing or `w`
itself. -/
theorem reinsert_keeps_content (t : Trie) (ht : t.WF) (hmin : -2147483648 ≤ t.size)
    (hmax : t.size < 2147483647) (w : String) (hw : AZ w) (hfound : t.find w = .FOUND) :
    (t.insert w).size = t.size + 1 ∧ (∀ s, (t.insert w).find s = t.find s) ∧
      ((t.cursorAt w).getCacheString = none ∨ (t.cursorAt w).getCacheString = some w →
        (t.insert w).enqueue = t.enqueue) := by
  obtain ⟨v, hv, hval⟩ := (find_eq_found_iff t w).1 hfound
  have hobs := obs_insert_existing ht hw hv
  have hsize : (t.insert w).size = t.size + 1 := by
    show int32 (t.m_size + 1) = t.m_size + 1
    have h1 : -2147483648 ≤ t.m_size := hmin
    have h2 : t.m_size < 2147483647 := hmax
    exact int32_of_range (by omega) (by omega)
  refine ⟨hsize, fun s => ?_, fun hcache => ?_⟩
  · rw [find_eq_obs, find_eq_obs, hobs]
    by_cases hs : s.data = w.data
    · simp [hs, hv, hval]
    · simp [hs]
  · have hadd := Adds_insert ht.slots hw
    obtain ⟨L, h1, h2, h3⟩ := enqueue_paths ht
    obtain ⟨L', h1', h2', h3'⟩ := enqueue_paths (hadd.wf ht)
    have hL : L' = L := by
      apply sorted_paths_unique h2' h2
      intro p
      rw [h3', h3, hadd.isWord_iff]
      constructor
      · rintro ⟨hne, hword | rfl⟩
        · exact ⟨hne, hword⟩
        · exact ⟨hne, v, hv, hval⟩
      · rintro ⟨hne, hword⟩
        exact ⟨hne, Or.inl hword⟩
    rw [h1', h1, hL]
    apply List.map_congr_left
    intro p _
    rw [hobs]
    by_cases hp : p = w.data
    · subst hp
      rw [getCacheString_cursorAt, hv] at hcache
      simp only [if_true, hv]
      unfold effString
      have hc : v.cache = none ∨ v.cache = some w := hcache
      show (some w).getD _ = (v.cache).getD (String.mk w.data)
      rcases hc with hc | hc
      · rw [hc]
        rfl
      · rw [hc]
    · simp [hp]

theorem reinsert_keeps_content_witness :
    (Trie.build ["CAT", "AT"]).WF ∧ -2147483648 ≤ (Trie.build ["CAT", "AT"]).size ∧
      (Trie.build ["CAT", "AT"]).size < 2147483647 ∧ AZ "CAT" ∧
      (Trie.build ["CAT", "AT"]).find "CAT" = .FOUND ∧
      ((Trie.build ["CAT", "AT"]).insert "CAT").size = (Trie.build ["CAT", "AT"]).size + 1 ∧
      (∀ s, ((Trie.build ["CAT", "AT"]).insert "CAT").find s =
        (Trie.build ["CAT", "AT"]).find s) ∧
      (((Trie.build ["CAT", "AT"]).cursorAt "CAT").getCacheString = none ∨
          ((Trie.build ["CAT", "AT"]).cursorAt "CAT").getCacheString = some "CAT" →
        ((Trie.build ["CAT", "AT"]).insert "CAT").enqueue = (Trie.build ["CAT", "AT"]).enqueue) :=
  ⟨WF_build (by decide), by decide, by decide, by decide, by decide,
    reinsert_keeps_content (Trie.build ["CAT", "AT"]) (WF_build (by decide)) (by decide)
      (by decide) "CAT" (by decide) (by decide)⟩

/-- C11 fails when the node caches another spelling: after `insertCase("cat")` the
word `CAT` is in the trie, and `insert("CAT")` changes `enqueue()` from `cat` to
`CAT`. -/
theorem reinsert_changes_cached_spelling :
    (Trie.empty.insertCase "cat").find "CAT" = .FOUND ∧
      ((Trie.empty.insertCase "cat").insert "CAT").enqueue ≠
        (Trie.empty.insertCase "cat").enqueue := by
  decide

theorem reinsert_size_wraps :
    ({ root := (Trie.build ["A"]).root, m_size := 2147483647 } : Trie).find "A" = .FOUND ∧
      (({ root := (Trie.build ["A"]).root, m_size := 2147483647 } : Trie).insert "A").size =
        -2147483648 := by
  decide


/-! ## The board search for arbitrary dictionaries -/

theorem neighbours_keep (b : Board) (Q : SearchIterator → Prop) (P : Trie → Prop)
    (hQ : ∀ si ch, Q si → Q (Board.step si ch)) (fuel : Nat) (hcall : b.RunsOK Q P fuel)
    (si : SearchIterator) (hsi : Q si) (used : Grid Bool) (hfuel : unusedCount used ≤ fuel)
    (L : List (Int × Int)) :
    ∀ fw : Trie, P fw →
      ∃ fw', L.foldlM (fun st yx => b.neighbour fuel si st yx.1 yx.2) (used, fw) =
          some (used, fw') ∧ P fw' := by
  induction L with
  | nil =>
    intro fw hp
    exact ⟨fw, rfl, hp⟩
  | cons yx L ih =>
    intro fw hp
    obtain ⟨y, x⟩ := yx
    rw [List.foldlM_cons]
    by_cases hb : x < 0 ∨ y < 0 ∨ y ≥ 5 ∨ x ≥ 5
    · have hbody : b.neighbour fuel si (used, fw) y x = some (used, fw) := by
        simp only [Board.neighbour, hb, if_true]
      rw [hbody]
      exact ih fw hp
    · obtain ⟨a0, hr, hcl⟩ := cell_of_inBounds hb
      subst hr hcl
      cases hu0 : used a0.1 a0.2 with
      | true =>
        have hbody : b.neighbour fuel si (used, fw) a0.row a0.col = some (used, fw) := by
          simp only [Board.neighbour, hb, if_false, at_cell, hu0]
          rfl
        rw [hbody]
        exact ih fw hp
      | false =>
        have hlt : unusedCount (Grid.set used a0.row a0.col true) < fuel :=
          Nat.lt_of_lt_of_le (unusedCount_set_lt used a0 hu0) hfuel
        obtain ⟨fw1, g1, g2⟩ :=
          hcall (Board.step si (b.board a0.1 a0.2)) a0.row a0.col
            (Grid.set used a0.row a0.col true) fw (hQ si _ hsi) hp hlt
        have hbody : b.neighbour fuel si (used, fw) a0.row a0.col = some (used, fw1) := by
          simp only [Board.neighbour, hb, if_false, at_cell, hu0, g1,
            set_set_restore used a0 hu0]
          rfl
        rw [hbody]
        exact ih fw1 g2

theorem runsOK (b : Board) (Q : SearchIterator → Prop) (P : Trie → Prop)
    (hQ : ∀ si ch, Q si → Q (Board.step si ch))
    (hP : ∀ si fw, Q si → P fw → si.reachable = true → si.inSet = true →
      P (fw.insertForeignIt si))
    (fuel : Nat) : b.RunsOK Q P fuel := by
  induction fuel with
  | zero =>
    intro si r c used fw _ _ hlt
    exact absurd hlt (Nat.not_lt_zero _)
  | succ fuel ih =>
    intro si r c used fw hsi hp hlt
    rw [allWordsRec_succ]
    cases hr : si.reachable with
    | false => exact ⟨fw, by simp, hp⟩
    | true =>
      simp only [Bool.not_true, Bool.false_eq_true, if_false]
      have hp1 : P (if si.inSet = true then fw.insertForeignIt si else fw) := by
        cases hs : si.inSet with
        | false => simpa using hp
        | true => simpa using hP si fw hsi hp hr hs
      rw [foldlM_nested (fun st y x => b.neighbour fuel si st y x)]
      exact neighbours_keep b Q P hQ fuel ih si hsi used (Nat.le_of_lt_succ hlt) _ _ hp1

theorem start_keep (b : Board) (Q : SearchIterator → Prop) (P : Trie → Prop)
    (hQ : ∀ si ch, Q si → Q (Board.step si ch))
    (hP : ∀ si fw, Q si → P fw → si.reachable = true → si.inSet = true →
      P (fw.insertForeignIt si))
    (hQ0 : Q b.englishWords.beginSearch)
    (L : List (Int × Int)) (hL : ∀ yx ∈ L, ¬ (yx.2 < 0 ∨ yx.1 < 0 ∨ yx.1 ≥ 5 ∨ yx.2 ≥ 5)) :
    ∀ fw : Trie, P fw →
      ∃ fw', L.foldlM (fun st rc => b.start st rc.1 rc.2) ((fun _ _ => false : Grid Bool), fw) =
          some ((fun _ _ => false : Grid Bool), fw') ∧ P fw' := by
  induction L with
  | nil =>
    intro fw hp
    exact ⟨fw, rfl, hp⟩
  | cons yx L ih =>
    intro fw hp
    obtain ⟨y, x⟩ := yx
    obtain ⟨a0, hr, hcl⟩ := cell_of_inBounds (hL (y, x) (List.mem_cons_self _ _))
    subst hr hcl
    have hlt : unusedCount (Grid.set (fun _ _ => false) a0.row a0.col true) < 25 := by
      have := unusedCount_set_lt (fun _ _ => false) a0 rfl
      rwa [unusedCount_none] at this
    obtain ⟨fw1, g1, g2⟩ :=
      runsOK b Q P hQ hP 25 (Board.step b.englishWords.beginSearch (b.board a0.1 a0.2))
        a0.row a0.col (Grid.set (fun _ _ => false) a0.row a0.col true) fw (hQ _ _ hQ0) hp hlt
    have hbody : b.start ((fun _ _ => false : Grid Bool), fw) a0.row a0.col =
        some ((fun _ _ => false : Grid Bool), fw1) := by
      simp only [Board.start, at_cell, g1, set_set_restore (fun _ _ => false) a0 rfl]
    rw [List.foldlM_cons, hbody]
    exact ih (fun yx hyx => hL yx (List.mem_cons_of_mem _ hyx)) fw1 g2

theorem allWords_keep (b : Board) (Q : SearchIterator → Prop) (P : Trie → Prop)
    (hQ : ∀ si ch, Q si → Q (Board.step si ch))
    (hP : ∀ si fw, Q si → P fw → si.reachable = true → si.inSet = true →
      P (fw.insertForeignIt si))
    (hQ0 : Q b.englishWords.beginSearch) (hP0 : P Trie.empty) :
    ∃ fw, b.allWords = some fw.enqueue ∧ P fw := by
  obtain ⟨fw, h1, h2⟩ := start_keep b Q P hQ hP hQ0 _ all_cells_inBounds Trie.empty hP0
  refine ⟨fw, ?_, h2⟩
  rw [allWords_eq, foldlM_nested (fun st r c => b.start st r c), h1]

theorem unusedCount_le (used : Grid Bool) : unusedCount used ≤ 25 := by
  unfold unusedCount
  have := Finset.card_filter_le (Finset.univ : Finset Cell) (fun a => used a.1 a.2 = false)
  simpa using this

/-- C20: for every grid and dictionary, a call of the recursive helper of
`Board::allWords` returns as soon as its depth budget exceeds the number of unmarked
cells, since a nested call is made only on an unmarked cell and with that cell
marked; there are at most 25 unmarked cells, and `allWords()`, which marks the
start cell and gives each search the depth budget 25, returns. -/
theorem allWords_terminates (b : Board) :
    (∀ (fuel : Nat) (si : SearchIterator) (r c : Int) (used : Grid Bool) (fw : Trie),
        unusedCount used < fuel →
          ∃ fw', b.allWordsRec fuel si r c used fw = some (used, fw')) ∧
      (∀ (used : Grid Bool) (a : Cell), used a.1 a.2 = false →
        unusedCount (Grid.set used a.row a.col true) < unusedCount used) ∧
      (∀ used : Grid Bool, unusedCount used ≤ 25) ∧
      ∃ res, b.allWords = some res := by
  refine ⟨fun fuel si r c used fw hlt => ?_, unusedCount_set_lt, unusedCount_le, ?_⟩
  · obtain ⟨fw', h, _⟩ :=
      runsOK b (fun _ => True) (fun _ => True) (fun _ _ _ => trivial)
        (fun _ _ _ _ _ _ => trivial) fuel si r c used fw trivial trivial hlt
    exact ⟨fw', h⟩
  · obtain ⟨fw, h, _⟩ :=
      allWords_keep b (fun _ => True) (fun _ => True) (fun _ _ _ => trivial)
        (fun _ _ _ _ _ _ => trivial) trivial trivial
    exact ⟨_, h⟩


/-! ## Dictionaries loaded with `insertCase` -/

theorem loadWords_append (lines : List String) (w : String) :
    Board.loadWords (lines ++ [w]) = (Board.loadWords lines).insertCase w := by
  simp [Board.loadWords, List.foldl_append]

theorem WF_loadWords {lines : List String} (h : ∀ w ∈ lines, Letters w) :
    (Board.loadWords lines).WF := by
  induction lines using List.reverseRecOn with
  | nil => exact WF_empty
  | append_singleton ws w ih =>
    rw [loadWords_append]
    have ih' := ih fun x hx => h x (List.mem_append_left _ hx)
    exact (Adds_insertCase ih'.slots
      (h w (List.mem_append_right _ (List.mem_singleton_self w)))).wf ih'

theorem CachedUpper_empty : Trie.empty.CachedUpper := by
  intro p v hv hval
  rw [obs_empty] at hv
  split at hv
  · cases hv; cases hval
  · cases hv

theorem CachedUpper_of_obs {t t' : Trie} {w : List Char} {s : String} (hc : t.CachedUpper)
    (hs : s.data.map toupper = w)
    (hobs : ∀ p, t'.obs p =
      if p = w then some { (t.obs p).getD (NodeView.fresh p) with val := true, cache := some s }
      else if p <+: w then some ((t.obs p).getD (NodeView.fresh p))
      else t.obs p) : t'.CachedUpper := by
  intro p v hv hval
  rw [hobs] at hv
  split at hv
  · rename_i hp
    cases hv
    exact ⟨s, rfl, by rw [hs, hp]⟩
  · cases ho : t.obs p with
    | none =>
      rw [ho] at hv
      split at hv
      · cases hv; cases hval
      · cases hv
    | some u =>
      rw [ho] at hv
      have : v = u := by split at hv <;> (cases hv; rfl)
      subst this
      exact hc p v ho hval

theorem CachedUpper_loadWords {lines : List String} (h : ∀ w ∈ lines, Letters w) :
    (Board.loadWords lines).CachedUpper := by
  induction lines using List.reverseRecOn with
  | nil => exact CachedUpper_empty
  | append_singleton ws w ih =>
    rw [loadWords_append]
    have h' : ∀ x ∈ ws, Letters x := fun x hx => h x (List.mem_append_left _ hx)
    exact CachedUpper_of_obs (ih h') rfl
      (obs_insertCase (WF_loadWords h').slots
        (h w (List.mem_append_right _ (List.mem_singleton_self w))))

theorem insertForeignIt_keeps_upper {D fw : Trie} (hD : D.WF) (hDc : D.CachedUpper)
    (hfw : fw.WF ∧ fw.CachedUpper) (p : List Char)
    (hr : (D.cursorAtList p).reachable = true) (hs : (D.cursorAtList p).inSet = true) :
    (fw.insertForeignIt (D.cursorAtList p)).WF ∧
      (fw.insertForeignIt (D.cursorAtList p)).CachedUpper := by
  obtain ⟨hpath, haz⟩ := pathOf_cursorAtList hD p hr
  have haz' : ∀ c ∈ Trie.pathOf (D.cursorAtList p).curNode nul, isAZ c := by
    rw [hpath]; exact haz
  have hadd := Adds_insertForeignIt hfw.1.slots (D.cursorAtList p) haz'
  refine ⟨hadd.wf hfw.1, ?_⟩
  obtain ⟨v, hv, hval⟩ := (inSet_cursorAtList D p).1 hs
  obtain ⟨s, hcs, hsp⟩ := hDc p v hv hval
  have hcache : (D.cursorAtList p).getCacheString = some s := by
    rw [getCacheString_eq, head_cursorAtList]
    unfold Node.obs at hv
    cases hd : Node.descend (some D.root) p with
    | none => rw [hd] at hv; cases hv
    | some m =>
      rw [hd] at hv
      cases hv
      exact hcs
  apply CachedUpper_of_obs hfw.2 hsp
  intro x
  rw [obs_insertForeignIt hfw.1.slots _ haz', hpath, hcache]

theorem enqueue_upper_ascending {t : Trie} (h : t.WF) (hc : t.CachedUpper) :
    List.Pairwise (· < ·) (t.enqueue.map upperString) := by
  obtain ⟨L, h1, h2, h3⟩ := enqueue_paths h
  have hmap : t.enqueue.map upperString = L.map String.mk := by
    rw [h1, List.map_map]
    apply List.map_congr_left
    intro p hp
    obtain ⟨v, hv, hval⟩ := ((h3 p).1 hp).2
    obtain ⟨s, hs, hsp⟩ := hc p v hv hval
    have hv' : t.obs p = some v := hv
    have he : effString (t.obs p) p = s := by
      unfold effString
      rw [hv']
      show (v.cache).getD _ = s
      rw [hs]
      rfl
    show upperString (effString (t.obs p) p) = String.mk p
    rw [he]
    unfold upperString
    rw [hsp]
  rw [hmap, List.pairwise_map]
  exact h2.imp (fun hab => String.lt_iff_toList_lt.2 hab)

theorem map_toupper_of_isAZ {w : List Char} (h : ∀ c ∈ w, isAZ c) : w.map toupper = w := by
  induction w with
  | nil => rfl
  | cons c cs ih =>
    rw [List.map_cons, toupper_of_isAZ (h c (List.mem_cons_self _ _)),
      ih (fun d hd => h d (List.mem_cons_of_mem _ hd))]

theorem insertCase_of_AZ (t : Trie) {s : String} (h : AZ s) : t.insertCase s = t.insert s := by
  unfold Trie.insertCase Trie.insert
  rw [insertCaseRec_eq, map_toupper_of_isAZ h]

theorem loadWords_of_AZ {lines : List String} (h : ∀ w ∈ lines, AZ w) :
    Board.loadWords lines = Trie.build lines := by
  induction lines using List.reverseRecOn with
  | nil => rfl
  | append_singleton ws w ih =>
    rw [loadWords_append, build_append, ih (fun x hx => h x (List.mem_append_left _ hx)),
      insertCase_of_AZ _ (h w (List.mem_append_right _ (List.mem_singleton_self w)))]

/-- C15, as the code has it: for a grid of letters A-Z and a dictionary loaded by
`insertCase` of word-list lines of ASCII letters, `Board::allWords()` returns its
words in strictly ascending lexicographic order of their upper-case forms, the words
themselves being spelled as in the word list; when every line is upper case, the
vector itself is in strictly ascending lexicographic order. -/
theorem allWords_ascending_upper (g : Grid Char) (_hg : ∀ i j, isAZ (g i j))
    (lines : List String) (hl : ∀ w ∈ lines, Letters w) :
    ∃ res, Board.allWords { board := g, englishWords := Board.loadWords lines } = some res ∧
      List.Pairwise (· < ·) (res.map upperString) ∧
      ((∀ w ∈ lines, AZ w) → List.Pairwise (· < ·) res) := by
  have hD := WF_loadWords hl
  have hDc := CachedUpper_loadWords hl
  obtain ⟨fw, h1, h2⟩ :=
    allWords_keep { board := g, englishWords := Board.loadWords lines }
      (fun si => ∃ p, si = (Board.loadWords lines).cursorAtList p)
      (fun fw => fw.WF ∧ fw.CachedUpper)
      (fun si ch ⟨p, hp⟩ => ⟨p ++ cellLetters ch, by rw [hp, step_cursorAtList]⟩)
      (fun si fw ⟨p, hp⟩ hfw hr hs => by
        subst hp
        exact insertForeignIt_keeps_upper hD hDc hfw p hr hs)
      ⟨[], rfl⟩ ⟨WF_empty, CachedUpper_empty⟩
  refine ⟨fw.enqueue, h1, enqueue_upper_ascending h2.1 h2.2, fun haz => ?_⟩
  obtain ⟨res, e1, e2, _⟩ :=
    allWords_spec (b := { board := g, englishWords := Trie.build lines }) (WF_build haz)
      (Cached_build haz)
  rw [loadWords_of_AZ haz, e1] at h1
  cases h1
  exact e2

theorem allWords_ascending_upper_witness :
    (∀ i j, isAZ (exampleGrid i j)) ∧ (∀ w ∈ ["at", "Cat"], Letters w) ∧
      ∃ res,
        Board.allWords { board := exampleGrid, englishWords := Board.loadWords ["at", "Cat"] } =
          some res ∧
        List.Pairwise (· < ·) (res.map upperString) ∧
        ((∀ w ∈ ["at", "Cat"], AZ w) → List.Pairwise (· < ·) res) :=
  ⟨by decide, by decide, allWords_ascending_upper exampleGrid (by decide) ["at", "Cat"] (by decide)⟩

/-- C15 fails for a word list that is not all upper case: with the lines `at` and
`Cat` the example board yields `at`, `Cat`, which is not in ascending order. -/
theorem allWords_not_ascending :
    ∃ res,
      Board.allWords { board := exampleGrid, englishWords := Board.loadWords ["at", "Cat"] } =
        some res ∧
      ¬ List.Pairwise (· ≤ ·) res := by
  refine ⟨["at", "Cat"], by decide!, ?_⟩
  intro h
  have h1 : "at" ≤ "Cat" := (List.pairwise_cons.1 h).1 "Cat" (List.mem_singleton_self _)
  have h2 : "Cat" < "at" := String.lt_iff_toList_lt.2 (List.Lex.rel (by decide))
  exact h1 h2


/-! ## `enqueue_nocache` -/

theorem letter_eq (i : Nat) : Char.ofNat ('A'.toNat + i) = letter i := rfl

theorem data_setLastChar (s : String) (c : Char) :
    (setLastChar s c).data = s.data.dropLast ++ [c] := rfl

theorem enqueueNocacheChildren_nil (k : Nat) (pre : String) (q : List String) :
    Trie.enqueueNocacheChildren [] k pre q = q := by
  simp [Trie.enqueueNocacheChildren]

theorem enqueueNocacheChildren_none (cs : List (Option Node)) (k : Nat) (pre : String)
    (q : List String) :
    Trie.enqueueNocacheChildren (none :: cs) k pre q =
      Trie.enqueueNocacheChildren cs (k + 1) (setLastChar pre (letter k)) q := by
  simp only [Trie.enqueueNocacheChildren]
  rfl

theorem enqueueNocacheChildren_some (m : Node) (cs : List (Option Node)) (k : Nat)
    (pre : String) (q : List String) :
    Trie.enqueueNocacheChildren (some m :: cs) k pre q =
      Trie.enqueueNocacheChildren cs (k + 1) (setLastChar pre (letter k))
        (Trie.enqueueNocacheNode m (setLastChar pre (letter k)) q) := by
  simp only [Trie.enqueueNocacheChildren]
  rfl

theorem enqueueNocacheNode_mk (c : Char) (v : Bool) (cs : List (Option Node))
    (s : Option String) (pre : String) (q : List String) :
    Trie.enqueueNocacheNode (.mk c v cs s) pre q =
      Trie.enqueueNocacheChildren cs 0 (pre.push 'X') (if v then q ++ [pre] else q) := by
  simp [Trie.enqueueNocacheNode]

theorem mem_enqueueNocacheChildren (cs : List (Option Node))
    (ih : ∀ m, some m ∈ cs → ∀ (pre : String) (q : List String) (s : String),
      s ∈ Trie.enqueueNocacheNode m pre q →
        s ∈ q ∨ ∃ p, s = String.mk (pre.data ++ p) ∧ Node.isWord (some m) p)
    (k : Nat) (pre : String) (q : List String) (s : String)
    (hs : s ∈ Trie.enqueueNocacheChildren cs k pre q) :
    s ∈ q ∨ ∃ j m p, cs[j]? = some (some m) ∧
      s = String.mk (pre.data.dropLast ++ letter (k + j) :: p) ∧ Node.isWord (some m) p := by
  induction cs generalizing k pre q with
  | nil =>
    rw [enqueueNocacheChildren_nil] at hs
    exact Or.inl hs
  | cons o cs ihl =>
    have ih' := ihl (fun m hm => ih m (List.mem_cons_of_mem _ hm))
    have hdrop : (setLastChar pre (letter k)).data.dropLast = pre.data.dropLast := by
      rw [data_setLastChar, List.dropLast_concat]
    have lift : (∃ j m p, cs[j]? = some (some m) ∧
          s = String.mk ((setLastChar pre (letter k)).data.dropLast ++ letter (k + 1 + j) :: p) ∧
            Node.isWord (some m) p) →
        ∃ j m p, (o :: cs)[j]? = some (some m) ∧
          s = String.mk (pre.data.dropLast ++ letter (k + j) :: p) ∧ Node.isWord (some m) p := by
      rintro ⟨j, m, p, hj, hsp, hw⟩
      exact ⟨j + 1, m, p, by rw [List.getElem?_cons_succ]; exact hj,
        by rw [hsp, hdrop, show k + 1 + j = k + (j + 1) by omega], hw⟩
    cases o with
    | none =>
      rw [enqueueNocacheChildren_none] at hs
      rcases ih' (k + 1) _ q hs with h1 | h1
      · exact Or.inl h1
      · exact Or.inr (lift h1)
    | some m0 =>
      rw [enqueueNocacheChildren_some] at hs
      rcases ih' (k + 1) _ _ hs with h1 | h1
      · rcases ih m0 (List.mem_cons_self _ _) _ q s h1 with h2 | ⟨p, hp, hw⟩
        · exact Or.inl h2
        · refine Or.inr ⟨0, m0, p, by simp, ?_, hw⟩
          rw [hp, data_setLastChar]
          simp
      · exact Or.inr (lift h1)

theorem mem_enqueueNocacheNode (n : Node) :
    ∀ (pre : String) (q : List String) (s : String), n.LenOK →
      s ∈ Trie.enqueueNocacheNode n pre q →
        s ∈ q ∨ ∃ p, s = String.mk (pre.data ++ p) ∧ Node.isWord (some n) p := by
  induction n using Node.induct with
  | step c v cs st ih =>
    intro pre q s hlen hs
    have h26 : cs.length = 26 := hlen.slots26
    have ih' : ∀ m, some m ∈ cs → ∀ (pre : String) (q : List String) (s : String),
        s ∈ Trie.enqueueNocacheNode m pre q →
          s ∈ q ∨ ∃ p, s = String.mk (pre.data ++ p) ∧ Node.isWord (some m) p := by
      intro m hm pre q s hs
      obtain ⟨j, hj⟩ := List.mem_iff_getElem?.1 hm
      exact ih m hm pre q s
        (hlen.ofChild (child_letter (n := Node.mk c v cs st) h26 hj)) hs
    rw [enqueueNocacheNode_mk] at hs
    rcases mem_enqueueNocacheChildren cs ih' 0 _ _ s hs with h1 | ⟨j, m, p, hj, hsp, hw⟩
    · cases v with
      | false => exact Or.inl (by simpa using h1)
      | true =>
        simp only [if_true, List.mem_append, List.mem_singleton] at h1
        rcases h1 with h1 | h1
        · exact Or.inl h1
        · exact Or.inr ⟨[], by simp [h1], (isWord_nil _).2 rfl⟩
    · refine Or.inr ⟨letter j :: p, ?_, ?_⟩
      · rw [hsp]
        simp [String.data_push]
      · rw [isWord_cons, child_letter (n := Node.mk c v cs st) h26 hj]
        exact hw

theorem mem_enqueueNocacheRoot (cs : List (Option Node))
    (hlen : ∀ m, some m ∈ cs → m.LenOK) (k : Nat) (q : List String) (s : String)
    (hs : s ∈ Trie.enqueueNocacheRoot cs k q) :
    s ∈ q ∨ ∃ j m p, cs[j]? = some (some m) ∧ s = String.mk (letter (k + j) :: p) ∧
      Node.isWord (some m) p := by
  induction cs generalizing k q with
  | nil =>
    simp only [Trie.enqueueNocacheRoot] at hs
    exact Or.inl hs
  | cons o cs ihl =>
    have ih' := ihl (fun m hm => hlen m (List.mem_cons_of_mem _ hm))
    have lift : (∃ j m p, cs[j]? = some (some m) ∧ s = String.mk (letter (k + 1 + j) :: p) ∧
          Node.isWord (some m) p) →
        ∃ j m p, (o :: cs)[j]? = some (some m) ∧ s = String.mk (letter (k + j) :: p) ∧
          Node.isWord (some m) p := by
      rintro ⟨j, m, p, hj, hsp, hw⟩
      exact ⟨j + 1, m, p, by rw [List.getElem?_cons_succ]; exact hj,
        by rw [hsp, show k + 1 + j = k + (j + 1) by omega], hw⟩
    cases o with
    | none =>
      simp only [Trie.enqueueNocacheRoot] at hs
      rcases ih' (k + 1) q hs with h1 | h1
      · exact Or.inl h1
      · exact Or.inr (lift h1)
    | some m0 =>
      simp only [Trie.enqueueNocacheRoot, letter_eq] at hs
      rcases ih' (k + 1) _ hs with h1 | h1
      · rcases mem_enqueueNocacheNode m0 _ q s (hlen m0 (List.mem_cons_self _ _)) h1 with
          h2 | ⟨p, hp, hw⟩
        · exact Or.inl h2
        · refine Or.inr ⟨0, m0, p, by simp, ?_, hw⟩
          rw [hp]
          rfl
      · exact Or.inr (lift h1)

theorem mem_enqueue_nocache {t : Trie} (h : t.WF) {s : String}
    (hs : s ∈ t.enqueue_nocache) : AZ s ∧ Node.isWord (some t.root) s.data := by
  have h26 : t.root.children.length = 26 := Node.LenOK.slots26 h.slots
  have hlen : ∀ m, some m ∈ t.root.children → m.LenOK := by
    intro m hm
    obtain ⟨j, hj⟩ := List.mem_iff_getElem?.1 hm
    exact Node.LenOK.ofChild h.slots (child_letter h26 hj)
  rcases mem_enqueueNocacheRoot t.root.children hlen 0 [] s hs with h1 | ⟨j, m, p, hj, hsp, hw⟩
  · cases h1
  · have hword : Node.isWord (some t.root) s.data := by
      rw [hsp, Nat.zero_add, isWord_cons, child_letter h26 hj]
      exact hw
    refine ⟨?_, hword⟩
    obtain ⟨m', hm', _⟩ := (isWord_iff_descend _ _).1 hword
    exact isAZ_of_descend h.slots hm'


theorem run_append (ops : List TrieOp) (op : TrieOp) :
    Trie.run (ops ++ [op]) = TrieOp.apply (Trie.run ops) op := by
  simp [Trie.run, List.foldl_append]

theorem run_invariant {ops : List TrieOp} (h : ∀ op ∈ ops, op.inLanguage) :
    (Trie.run ops).WF ∧
      ∀ p, Node.isWord (some (Trie.run ops).root) p →
        ∃ op ∈ ops, p = op.word.data.map toupper := by
  induction ops using List.reverseRecOn with
  | nil => exact ⟨WF_empty, fun p hp => absurd hp (not_isWord_empty p)⟩
  | append_singleton ops op ih =>
    obtain ⟨hwf, hwords⟩ := ih (fun x hx => h x (List.mem_append_left _ hx))
    have hop : op.inLanguage := h op (List.mem_append_right _ (List.mem_singleton_self op))
    have old : ∀ p, Node.isWord (some (Trie.run ops).root) p →
        ∃ o ∈ ops ++ [op], p = o.word.data.map toupper := by
      intro p hp
      obtain ⟨o, ho, hpo⟩ := hwords p hp
      exact ⟨o, List.mem_append_left _ ho, hpo⟩
    have new : ∃ o ∈ ops ++ [op], op.word.data.map toupper = o.word.data.map toupper :=
      ⟨op, List.mem_append_right _ (List.mem_singleton_self op), rfl⟩
    have ofAdds : ∀ t', Trie.Adds (Trie.run ops) t' (op.word.data.map toupper) →
        t'.WF ∧ ∀ p, Node.isWord (some t'.root) p →
          ∃ o ∈ ops ++ [op], p = o.word.data.map toupper := by
      intro t' hadd
      refine ⟨hadd.wf hwf, fun p hp => ?_⟩
      rcases (hadd.isWord_iff p).1 hp with h1 | h1
      · exact old p h1
      · rw [h1]
        exact new
    rw [run_append]
    cases op with
    | insert s =>
      have hs : AZ s := hop
      have hadd := Adds_insert hwf.slots hs
      rw [← map_toupper_of_isAZ hs] at hadd
      exact ofAdds _ hadd
    | insertCase s => exact ofAdds _ (Adds_insertCase hwf.slots hop)
    | insertCase_nocache s => exact ofAdds _ (Adds_insertCase_nocache hwf.slots hop)

/-- C14, as the code has it: for a trie built from the empty trie by any mix of
`insert` calls on strings over A-Z and `insertCase` and `insertCase_nocache` calls on
strings of ASCII letters, every string returned by `enqueue_nocache()` consists of
letters A-Z only and is the upper-case form of one of the strings passed to the
calls. -/
theorem enqueue_nocache_upper (ops : List TrieOp) (h : ∀ op ∈ ops, op.inLanguage) :
    ∀ s ∈ (Trie.run ops).enqueue_nocache, AZ s ∧ ∃ op ∈ ops, s = upperString op.word := by
  intro s hs
  obtain ⟨hwf, hwords⟩ := run_invariant h
  obtain ⟨haz, hword⟩ := mem_enqueue_nocache hwf hs
  refine ⟨haz, ?_⟩
  obtain ⟨op, hop, hp⟩ := hwords s.data hword
  exact ⟨op, hop, String.ext hp⟩

theorem enqueue_nocache_upper_witness :
    (∀ op ∈ [TrieOp.insertCase "cat", TrieOp.insert "AT", TrieOp.insertCase_nocache "Dog"],
        op.inLanguage) ∧
      ∀ s ∈ (Trie.run
          [TrieOp.insertCase "cat", TrieOp.insert "AT", TrieOp.insertCase_nocache "Dog"]).enqueue_nocache,
        AZ s ∧
          ∃ op ∈ [TrieOp.insertCase "cat", TrieOp.insert "AT", TrieOp.insertCase_nocache "Dog"],
            s = upperString op.word :=
  ⟨by decide,
    enqueue_nocache_upper
      [TrieOp.insertCase "cat", TrieOp.insert "AT", TrieOp.insertCase_nocache "Dog"] (by decide)⟩

/-- C14 fails for `insert` on a string of ASCII letters that is not upper case:
`insert("cat")` on a new trie subscripts the array `children[26]` with
`index('c') = 34`; in the embedding with the subscripts checked the call has no
result, so no trie is built for `enqueue_nocache()` to list. -/
theorem insert_lower_case_has_no_result :
    Letters "cat" ∧ Node.index 'c' = 34 ∧ Heap.slot (Node.index 'c') = none ∧
      Heap.Trie.insert (Heap.Trie.new []).1 (Heap.Trie.new []).2 "cat" = none := by
  decide


/-! ## Tries built by insertion calls -/

theorem Trie.Adds.noDead {t t' : Trie} {w : List Char} (h : Trie.Adds t t' w)
    (hd : t.NoDead) : t'.NoDead := by
  intro p hp hne
  rcases (h.obs_isSome p).1 hp with h1 | h1
  · obtain ⟨e, he⟩ := hd p h1 hne
    exact ⟨e, (h.isWord_iff _).2 (Or.inl he)⟩
  · obtain ⟨e, he⟩ := h1
    exact ⟨e, (h.isWord_iff _).2 (Or.inr he)⟩

theorem NoDead_empty : Trie.empty.NoDead := by
  intro p hp hne
  rw [obs_empty] at hp
  simp [hne] at hp

theorem isAZ_pathOf_cursorAt {A : Trie} (hA : A.WF) (p : String) :
    ∀ c ∈ Trie.pathOf (A.cursorAt p).curNode nul, isAZ c := by
  cases hr : (A.cursorAt p).reachable with
  | true =>
    have := pathOf_cursorAtList hA p.data hr
    have e : A.cursorAt p = A.cursorAtList p.data := rfl
    rw [e, this.1]
    exact this.2
  | false =>
    rw [reachable_eq] at hr
    cases hc : (A.cursorAt p).curNode with
    | nil => simp [Trie.pathOf]
    | cons m ps => rw [hc] at hr; cases hr

theorem Trie.Built.wf_noDead {t : Trie} (h : t.Built) : t.WF ∧ t.NoDead := by
  induction h with
  | empty => exact ⟨WF_empty, NoDead_empty⟩
  | insert s _ hs ih =>
    have hadd := Adds_insert ih.1.slots hs
    exact ⟨hadd.wf ih.1, hadd.noDead ih.2⟩
  | insertCase s _ hs ih =>
    have hadd := Adds_insertCase ih.1.slots hs
    exact ⟨hadd.wf ih.1, hadd.noDead ih.2⟩
  | insertCase_nocache s _ hs ih =>
    have hadd := Adds_insertCase_nocache ih.1.slots hs
    exact ⟨hadd.wf ih.1, hadd.noDead ih.2⟩
  | insertForeignIt p _ _ iht ihA =>
    have hadd := Adds_insertForeignIt iht.1.slots _ (isAZ_pathOf_cursorAt ihA.1 p)
    exact ⟨hadd.wf iht.1, hadd.noDead iht.2⟩

theorem cursorAt_foldl (t : Trie) (s : String) (e : List Char) :
    e.foldl SearchIterator.next (t.cursorAt s) = t.cursorAtList (s.data ++ e) := by
  unfold Trie.cursorAt Trie.cursorAtList
  rw [List.foldl_append]

theorem reachable_cursorAtList (t : Trie) (p : List Char) :
    (t.cursorAtList p).reachable = true ↔ t.obs p ≠ none := by
  rw [reachable_eq, head_cursorAtList]
  unfold Trie.obs Node.obs
  cases Node.descend (some t.root) p <;> simp

/-- C16, as the code has it: in a trie built by insertion calls, for the iterator
reached from `beginSearch()` by the `next` calls of a string `s`, `reachable()` is
true exactly when some further `next` calls move the iterator onto a word of the
trie, provided `s` is non-empty or the trie holds at least one word. -/
theorem reachable_iff_word_ahead (t : Trie) (hb : t.Built) (s : String)
    (h : s ≠ "" ∨ ∃ w, t.find w = .FOUND) :
    (t.cursorAt s).reachable = true ↔
      ∃ e : List Char, (e.foldl SearchIterator.next (t.cursorAt s)).inSet = true := by
  obtain ⟨_, hnd⟩ := hb.wf_noDead
  have e0 : t.cursorAt s = t.cursorAtList s.data := rfl
  constructor
  · intro hr
    rw [e0, reachable_cursorAtList] at hr
    by_cases hs : s.data = []
    · rcases h with h1 | ⟨w, hw⟩
      · exact absurd (String.ext hs) h1
      · refine ⟨w.data, ?_⟩
        rw [cursorAt_foldl, inSet_cursorAtList, hs, List.nil_append]
        exact (find_eq_found_iff t w).1 hw
    · obtain ⟨e, he⟩ := hnd s.data hr hs
      exact ⟨e, by rw [cursorAt_foldl, inSet_cursorAtList]; exact he⟩
  · rintro ⟨e, he⟩
    rw [cursorAt_foldl, inSet_cursorAtList] at he
    obtain ⟨v, hv, _⟩ := he
    obtain ⟨u, hu⟩ := obs_of_prefix hv (List.prefix_append s.data e)
    rw [e0, reachable_cursorAtList]
    show Node.obs (some t.root) s.data ≠ none
    rw [hu]
    simp

theorem reachable_iff_word_ahead_witness :
    (Trie.empty.insert "CAT").Built ∧ ("CA" ≠ "" ∨ ∃ w, (Trie.empty.insert "CAT").find w = .FOUND) ∧
      (((Trie.empty.insert "CAT").cursorAt "CA").reachable = true ↔
        ∃ e : List Char,
          (e.foldl SearchIterator.next ((Trie.empty.insert "CAT").cursorAt "CA")).inSet = true) :=
  ⟨Trie.Built.insert "CAT" Trie.Built.empty (by decide), Or.inl (by decide),
    reachable_iff_word_ahead (Trie.empty.insert "CAT")
      (Trie.Built.insert "CAT" Trie.Built.empty (by decide)) "CA" (Or.inl (by decide))⟩

/-- C16 fails on the empty trie: the iterator at the root is `reachable()` although
no sequence of `next` calls moves it onto a word. -/
theorem reachable_on_empty_trie :
    ¬ ((Trie.empty.cursorAt "").reachable = true ↔
      ∃ e : List Char, (e.foldl SearchIterator.next (Trie.empty.cursorAt "")).inSet = true) := by
  intro h
  obtain ⟨e, he⟩ := h.1 rfl
  rw [cursorAt_foldl, inSet_cursorAtList] at he
  exact not_isWord_empty _ he


/-! ## Dead branches -/

/-- C23: in a trie built from the empty trie by `insert`, `insertCase`,
`insertCase_nocache` and `insertForeignIt` calls, every node other than the root has
a word node in its subtree (itself included); so for every non-empty string `s` with
`find(s) != NOPREFIX` some word of the trie begins with `s`. -/
theorem no_dead_branches (t : Trie) (hb : t.Built) :
    (∀ (p : List Char) (n : Node), p ≠ [] → Node.descend (some t.root) p = some n →
        ∃ (e : List Char) (m : Node),
          Node.descend (some n) e = some m ∧ m.value_here = true) ∧
      ∀ s : String, s ≠ "" → t.find s ≠ .NOPREFIX →
        ∃ w : String, t.find w = .FOUND ∧ s.data <+: w.data := by
  obtain ⟨_, hnd⟩ := hb.wf_noDead
  constructor
  · intro p n hp hn
    have hobs : t.obs p ≠ none := by
      unfold Trie.obs Node.obs
      rw [hn]
      simp
    obtain ⟨e, he⟩ := hnd p hobs hp
    obtain ⟨m, hm, hv⟩ := (isWord_iff_descend _ _).1 he
    rw [descend_append, hn] at hm
    exact ⟨e, m, hm, hv⟩
  · intro s hs hf
    have hobs : t.obs s.data ≠ none := fun h => hf ((find_eq_noprefix_iff t s).2 h)
    have hne : s.data ≠ [] := fun h => hs (String.ext h)
    obtain ⟨e, he⟩ := hnd s.data hobs hne
    exact ⟨String.mk (s.data ++ e), (find_eq_found_iff t _).2 he, List.prefix_append _ _⟩

theorem no_dead_branches_witness :
    (Trie.empty.insert "CAT").Built ∧
      (∀ (p : List Char) (n : Node), p ≠ [] →
        Node.descend (some (Trie.empty.insert "CAT").root) p = some n →
          ∃ (e : List Char) (m : Node),
            Node.descend (some n) e = some m ∧ m.value_here = true) ∧
      ∀ s : String, s ≠ "" → (Trie.empty.insert "CAT").find s ≠ .NOPREFIX →
        ∃ w : String, (Trie.empty.insert "CAT").find w = .FOUND ∧ s.data <+: w.data :=
  ⟨Trie.Built.insert "CAT" Trie.Built.empty (by decide),
    no_dead_branches (Trie.empty.insert "CAT")
      (Trie.Built.insert "CAT" Trie.Built.empty (by decide))⟩

/-! ## Scoring and word length -/

theorem countPoints_single (s : String) : Board.countPoints [s] = Board.wordPoints s.length := by
  rw [countPoints_eq]
  have h := wordPoints_range s.length
  simp only [List.map_cons, List.map_nil, List.sum_cons, List.sum_nil, add_zero]
  exact int32_of_range (by omega) (by omega)

theorem wordPoints_mono {n k : Nat} (hn : 1 ≤ n) (h : n ≤ k) :
    Board.wordPoints n ≤ Board.wordPoints k := by
  by_cases h8 : 8 ≤ k
  · rw [wordPoints_ge_eight k h8]
    unfold Board.wordPoints
    split <;> omega
  · have hk : k < 8 := by omega
    interval_cases k <;> interval_cases n <;> decide

/-- C25: the one-word list holding the empty string scores 11 points, the one-word
list `A` scores 0, although the empty string is the shorter; for two strings of
which the shorter is not empty, the shorter scores no more than the longer. -/
theorem countPoints_empty_word :
    Board.countPoints [""] = 11 ∧ Board.countPoints ["A"] = 0 ∧
      ("" : String).length ≤ ("A" : String).length ∧
      ∀ a b : String, a ≠ "" → a.length ≤ b.length →
        Board.countPoints [a] ≤ Board.countPoints [b] := by
  refine ⟨rfl, rfl, by decide, fun a b ha hab => ?_⟩
  rw [countPoints_single, countPoints_single]
  apply wordPoints_mono _ hab
  have : a.data ≠ [] := fun h => ha (String.ext h)
  have h0 : a.data.length ≠ 0 := fun h => this (List.length_eq_zero.1 h)
  have h1 : a.length = a.data.length := rfl
  omega

/-! ## `insertForeignIt` against `insert` -/

theorem enqueue_congr {t1 t2 : Trie} (h1 : t1.WF) (h2 : t2.WF)
    (hw : ∀ p, Node.isWord (some t1.root) p ↔ Node.isWord (some t2.root) p)
    (he : ∀ p, Node.isWord (some t1.root) p →
      effString (t1.obs p) p = effString (t2.obs p) p) :
    t1.enqueue = t2.enqueue := by
  obtain ⟨L, e1, s1, m1⟩ := enqueue_paths h1
  obtain ⟨L', e2, s2, m2⟩ := enqueue_paths h2
  have hL : L = L' := by
    apply sorted_paths_unique s1 s2
    intro p
    rw [m1, m2, hw]
  rw [e1, e2, ← hL]
  apply List.map_congr_left
  intro p hp
  exact he p ((m1 p).1 hp).2

theorem cache_build {ws : List String} (h : ∀ w ∈ ws, AZ w) (p : List Char) (v : NodeView)
    (hv : (Trie.build ws).obs p = some v) : v.cache = none ∨ v.cache = some (String.mk p) := by
  induction ws using List.reverseRecOn generalizing p v with
  | nil =>
    have hv' : Trie.empty.obs p = some v := hv
    rw [obs_empty] at hv'
    by_cases hp : p = []
    · rw [if_pos hp] at hv'
      cases hv'
      exact Or.inl rfl
    · rw [if_neg hp] at hv'
      cases hv'
  | append_singleton ws w ih =>
    have hws : ∀ x ∈ ws, AZ x := fun x hx => h x (List.mem_append_left _ hx)
    have hw : AZ w := h w (List.mem_append_right _ (List.mem_singleton_self w))
    rw [build_append, obs_insert (WF_build hws).slots hw] at hv
    have hold : ∀ u, u = ((Trie.build ws).obs p).getD (NodeView.fresh p) →
        u.cache = none ∨ u.cache = some (String.mk p) := by
      intro u hu
      cases ho : (Trie.build ws).obs p with
      | none =>
        rw [ho] at hu
        subst hu
        exact Or.inl rfl
      | some x =>
        rw [ho] at hu
        subst hu
        exact ih hws p _ ho
    by_cases hp : p = w.data
    · rw [if_pos hp] at hv
      cases hv
      right
      show some w = some (String.mk p)
      rw [hp]
    · rw [if_neg hp] at hv
      by_cases hpre : p <+: w.data
      · rw [if_pos hpre] at hv
        cases hv
        exact hold _ rfl
      · rw [if_neg hpre] at hv
        exact ih hws p v hv

/-- C22, as the code has it: for a trie `A` built by `insert` calls on strings over
A-Z, a string `s` over A-Z whose path exists in `A`, and a trie `B` built by
insertion calls, `B.insertForeignIt` on the iterator of `A` at `s` gives the same
`find` results and the same `size()` as `B.insert(s)` and makes no string other than
`s` a word; the `enqueue()` output is the same as well when `s` is a word of `A`, or
the node of `s` in `B` cached nothing or `s` itself. -/
theorem insertForeignIt_as_insert (ws : List String) (hws : ∀ w ∈ ws, AZ w) (s : String)
    (hs : AZ s) (hex : (Trie.build ws).find s ≠ .NOPREFIX) (B : Trie) (hB : B.Built) :
    (∀ x, (B.insertForeignIt ((Trie.build ws).cursorAt s)).find x = (B.insert s).find x) ∧
      (B.insertForeignIt ((Trie.build ws).cursorAt s)).size = (B.insert s).size ∧
      (∀ p : String, p ≠ s →
        ((B.insertForeignIt ((Trie.build ws).cursorAt s)).find p = .FOUND ↔
          B.find p = .FOUND)) ∧
      ((Trie.build ws).find s = .FOUND ∨ (B.cursorAt s).getCacheString = none ∨
          (B.cursorAt s).getCacheString = some s →
        (B.insertForeignIt ((Trie.build ws).cursorAt s)).enqueue = (B.insert s).enqueue) := by
  have hA := WF_build hws
  have hBw := hB.wf_noDead.1
  have hne : ((Trie.build ws).cursorAt s).curNode ≠ [] := by
    have hr : ((Trie.build ws).cursorAt s).reachable = true := by
      rw [reachable_cursorAt]
      exact decide_eq_true hex
    intro h
    unfold SearchIterator.reachable at hr
    rw [h] at hr
    cases hr
  have hpath := pathOf_cursorAt hA s hne
  have haz : ∀ c ∈ Trie.pathOf ((Trie.build ws).cursorAt s).curNode nul, isAZ c := by
    rw [hpath]
    exact hs
  have hadd1 := Adds_insertForeignIt hBw.slots _ haz
  rw [hpath] at hadd1
  have hadd2 := Adds_insert hBw.slots hs
  refine ⟨hadd1.find_congr hadd2, rfl, fun p hp => ?_, fun hc => ?_⟩
  · rw [find_eq_found_iff, find_eq_found_iff]
    have h := hadd1.isWord_iff p.data
    unfold Node.isWord at h
    unfold Trie.obs
    rw [h]
    constructor
    · rintro (h | h)
      · exact h
      · exact absurd (String.ext h) hp
    · exact Or.inl
  · apply enqueue_congr (hadd1.wf hBw) (hadd2.wf hBw)
    · intro p
      rw [hadd1.isWord_iff, hadd2.isWord_iff]
    · intro p _
      rw [obs_insertForeignIt hBw.slots _ haz, obs_insert hBw.slots hs, hpath]
      by_cases hp : p = s.data
      · subst hp
        simp only [if_true]
        obtain ⟨vA, hvA⟩ : ∃ vA, (Trie.build ws).obs s.data = some vA := by
          cases ho : (Trie.build ws).obs s.data with
          | none => exact absurd ((find_eq_noprefix_iff _ s).2 ho) hex
          | some v => exact ⟨v, rfl⟩
        have hmk : String.mk s.data = s := rfl
        have hcA := cache_build hws s.data vA hvA
        rw [hmk] at hcA
        rw [getCacheString_cursorAt, hvA]
        rw [getCacheString_cursorAt] at hc
        show effString (some _) s.data = effString (some _) s.data
        unfold effString
        rcases hcA with hcA | hcA
        · have hB' : (B.obs s.data).bind NodeView.cache = none ∨
              (B.obs s.data).bind NodeView.cache = some s := by
            rcases hc with hc | hc
            · obtain ⟨v, hv, hval⟩ := (find_eq_found_iff _ s).1 hc
              rw [hvA] at hv
              cases hv
              have := Cached_build hws s.data vA hvA hval
              rw [hcA] at this
              cases this
            · exact hc
          show (Option.getD (match (some vA).bind NodeView.cache with
            | some c => some c
            | none => ((B.obs s.data).getD (NodeView.fresh s.data)).cache) _) = _
          show (Option.getD (match vA.cache with
            | some c => some c
            | none => ((B.obs s.data).getD (NodeView.fresh s.data)).cache) _) = _
          rw [hcA]
          show (((B.obs s.data).getD (NodeView.fresh s.data)).cache).getD (String.mk s.data) = s
          cases ho : B.obs s.data with
          | none => rfl
          | some u =>
            rw [ho] at hB'
            show (u.cache).getD (String.mk s.data) = s
            have hB'' : u.cache = none ∨ u.cache = some s := hB'
            rcases hB'' with h | h
            · rw [h]
              rfl
            · rw [h]
              rfl
        · show (Option.getD (match vA.cache with
            | some c => some c
            | none => ((B.obs s.data).getD (NodeView.fresh s.data)).cache) _) = _
          rw [hcA]
          rfl
      · simp only [if_neg hp]

theorem insertForeignIt_as_insert_witness :
    (∀ w ∈ ["CATS"], AZ w) ∧ AZ "CAT" ∧ (Trie.build ["CATS"]).find "CAT" ≠ .NOPREFIX ∧
      (Trie.empty.insert "CAR").Built ∧
      (∀ x, ((Trie.empty.insert "CAR").insertForeignIt
          ((Trie.build ["CATS"]).cursorAt "CAT")).find x =
        ((Trie.empty.insert "CAR").insert "CAT").find x) ∧
      ((Trie.empty.insert "CAR").insertForeignIt ((Trie.build ["CATS"]).cursorAt "CAT")).size =
        ((Trie.empty.insert "CAR").insert "CAT").size ∧
      (∀ p : String, p ≠ "CAT" →
        (((Trie.empty.insert "CAR").insertForeignIt
            ((Trie.build ["CATS"]).cursorAt "CAT")).find p = .FOUND ↔
          (Trie.empty.insert "CAR").find p = .FOUND)) ∧
      ((Trie.build ["CATS"]).find "CAT" = .FOUND ∨
          ((Trie.empty.insert "CAR").cursorAt "CAT").getCacheString = none ∨
          ((Trie.empty.insert "CAR").cursorAt "CAT").getCacheString = some "CAT" →
        ((Trie.empty.insert "CAR").insertForeignIt
            ((Trie.build ["CATS"]).cursorAt "CAT")).enqueue =
          ((Trie.empty.insert "CAR").insert "CAT").enqueue) :=
  ⟨by decide, by decide, by decide, Trie.Built.insert "CAR" Trie.Built.empty (by decide),
    insertForeignIt_as_insert ["CATS"] (by decide) "CAT" (by decide) (by decide)
      (Trie.empty.insert "CAR") (Trie.Built.insert "CAR" Trie.Built.empty (by decide))⟩

/-- C22 fails for a path that is not a word of `A` when `B` cached another spelling:
with `A` holding `CATS` and `B` built by `insertCase("cat")`, the copy of the path
`CAT` leaves `enqueue()` at `cat`, whereas `insert("CAT")` makes it `CAT`. -/
theorem insertForeignIt_keeps_local_spelling :
    (Trie.build ["CATS"]).find "CAT" = .NOTFOUND ∧
      ((Trie.empty.insertCase "cat").insertForeignIt
          ((Trie.build ["CATS"]).cursorAt "CAT")).enqueue = ["cat"] ∧
      ((Trie.empty.insertCase "cat").insert "CAT").enqueue = ["CAT"] ∧
      ((Trie.empty.insertCase "cat").insertForeignIt
          ((Trie.build ["CATS"]).cursorAt "CAT")).enqueue ≠
        ((Trie.empty.insertCase "cat").insert "CAT").enqueue := by
  decide

/-! ## The pointer-level embedding: the shape of the memory -/

namespace Heap

theorem hAllWordsRec_succ (b : Board) (fuel : Nat) (si : SearchIterator) (r c : Int)
    (st : SearchState) :
    b.allWordsRec (fuel + 1) si r c st =
      if !si.reachable then some st
      else
        match Board.found si st with
        | none => none
        | some st0 =>
          [r - 1, r, r + 1].foldlM
            (fun st y => [c - 1, c, c + 1].foldlM (fun st x => b.neighbour fuel si st y x) st)
            st0 := by
  rw [Board.allWordsRec]
  unfold Board.found
  cases si.reachable <;> simp only [Bool.not_true, Bool.not_false, if_true, if_false,
    Bool.false_eq_true]
  cases si.inSet st.1 <;> rfl

theorem hAllWordsLoops_eq (b : Board) (m : Mem) :
    b.allWordsLoops m =
      [(0 : Int), 1, 2, 3, 4].foldlM
        (fun st r => [(0 : Int), 1, 2, 3, 4].foldlM (fun st c => b.start st r c) st)
        ((Trie.new m).1, fun _ _ => false, (Trie.new m).2) := rfl



theorem slot_of_isAZ {c : Char} (h : isAZ c) :
    slot (Boggle.Node.index c) = some (Boggle.Node.index c).toNat := by
  have h0 := index_nonneg_of_isAZ h
  have h1 := index_toNat_lt_of_isAZ h
  unfold slot
  rw [if_pos]
  omega

theorem isAZ_of_slot {c : Char} {k : Nat} (h : slot (Boggle.Node.index c) = some k) :
    isAZ c ∧ k = (Boggle.Node.index c).toNat ∧ k < 26 := by
  unfold slot at h
  by_cases hr : 0 ≤ Boggle.Node.index c ∧ Boggle.Node.index c < 26
  · rw [if_pos hr] at h
    cases h
    have h1 : (Boggle.Node.index c).toNat < 26 := by omega
    exact ⟨isAZ_of_index hr.1 h1, rfl, h1⟩
  · rw [if_neg hr] at h
    cases h

theorem lookup_lt {m : Mem} {a : Nat} {n : Node} (h : m[a]? = some n) : a < m.length := by
  obtain ⟨h', _⟩ := List.getElem?_eq_some.1 h
  exact h'

theorem lookup_of_lt {m : Mem} {a : Nat} (h : a < m.length) : ∃ n : Node, m[a]? = some n :=
  ⟨m[a], List.getElem?_eq_getElem h⟩

theorem lookup_set {m : Mem} {a : Nat} (h : a < m.length) (n' : Node) (x : Nat) :
    (m.set a n')[x]? = if x = a then some n' else m[x]? := by
  rw [List.getElem?_set]
  by_cases hx : x = a
  · subst hx
    simp [h]
  · have : ¬ a = x := fun e => hx e.symm
    simp [hx, this]

theorem lookup_append (m : Mem) (n' : Node) (x : Nat) :
    (m ++ [n'])[x]? = if x = m.length then some n' else m[x]? := by
  by_cases hx : x = m.length
  · subst hx
    simp
  · rw [if_neg hx]
    by_cases hlt : x < m.length
    · exact List.getElem?_append_left hlt
    · have h1 : m.length < x := by omega
      rw [List.getElem?_eq_none (by simp; omega), List.getElem?_eq_none (by omega)]

theorem update_eq {m : Mem} {a : Nat} {n : Node} (h : m[a]? = some n) (f : Node → Node) :
    update m a f = some (m.set a (f n)) := by
  unfold update
  rw [h]

theorem Inv.set {m : Mem} (hi : Inv m) {a : Nat} {n n' : Node} (hn : m[a]? = some n)
    (hp : n'.parent = n.parent) (hc : n'.char_here = n.char_here)
    (hch : n'.children = n.children) : Inv (m.set a n') := by
  have ha := lookup_lt hn
  have old : ∀ (x : Nat) (y : Node), (m.set a n')[x]? = some y →
      ∃ y0 : Node, m[x]? = some y0 ∧ y.parent = y0.parent ∧ y.char_here = y0.char_here ∧
        y.children = y0.children := by
    intro x y hy
    rw [lookup_set ha] at hy
    by_cases hx : x = a
    · rw [if_pos hx] at hy
      cases hy
      exact ⟨n, by rw [hx]; exact hn, hp, hc, hch⟩
    · rw [if_neg hx] at hy
      exact ⟨y, hy, rfl, rfl, rfl⟩
  have new : ∀ (x : Nat) (y0 : Node), m[x]? = some y0 →
      ∃ y : Node, (m.set a n')[x]? = some y ∧ y.parent = y0.parent ∧
        y.char_here = y0.char_here := by
    intro x y0 hy
    rw [lookup_set ha]
    by_cases hx : x = a
    · rw [if_pos hx]
      rw [hx, hn] at hy
      cases hy
      exact ⟨n', rfl, hp, hc⟩
    · rw [if_neg hx]
      exact ⟨y0, hy, rfl, rfl⟩
  constructor
  · intro x y hy
    obtain ⟨y0, h0, _, _, e⟩ := old x y hy
    rw [e]
    exact hi.slots x y0 h0
  · intro x y k b hy hk
    obtain ⟨y0, h0, _, _, e⟩ := old x y hy
    rw [e] at hk
    obtain ⟨hlt, nb, hb, hbp, hbc⟩ := hi.child x y0 k b h0 hk
    obtain ⟨nb', hb', hbp', hbc'⟩ := new b nb hb
    exact ⟨hlt, nb', hb', by rw [hbp', hbp], by rw [hbc', hbc]⟩
  · intro x y p hy hpar
    obtain ⟨y0, h0, e1, e2, _⟩ := old x y hy
    rw [e1] at hpar
    rw [e2]
    exact hi.parent x y0 p h0 hpar
  · intro x y hy hpar
    obtain ⟨y0, h0, e1, e2, _⟩ := old x y hy
    rw [e1] at hpar
    rw [e2]
    exact hi.root x y0 h0 hpar

theorem Inv.append {m : Mem} (hi : Inv m) (c : Char) (p : Option Nat)
    (h : (p = none ∧ c = nul) ∨ ∃ a, p = some a ∧ a < m.length ∧ isAZ c) :
    Inv (m ++ [Node.new c p]) := by
  have old : ∀ (x : Nat) (y : Node), (m ++ [Node.new c p])[x]? = some y →
      m[x]? = some y ∨ (x = m.length ∧ y = Node.new c p) := by
    intro x y hy
    rw [lookup_append] at hy
    by_cases hx : x = m.length
    · rw [if_pos hx] at hy
      cases hy
      exact Or.inr ⟨hx, rfl⟩
    · rw [if_neg hx] at hy
      exact Or.inl hy
  have new : ∀ (x : Nat) (y : Node), m[x]? = some y → (m ++ [Node.new c p])[x]? = some y := by
    intro x y hy
    rw [lookup_append, if_neg (Nat.ne_of_lt (lookup_lt hy))]
    exact hy
  have nochild : ∀ k b : Nat, (Node.new c p).children[k]? ≠ some (some b) := by
    intro k b hk
    unfold Node.new at hk
    simp only [List.getElem?_replicate] at hk
    by_cases h26 : k < 26
    · rw [if_pos h26] at hk
      cases hk
    · rw [if_neg h26] at hk
      cases hk
  constructor
  · intro x y hy
    rcases old x y hy with h0 | ⟨_, rfl⟩
    · exact hi.slots x y h0
    · simp [Node.new]
  · intro x y k b hy hk
    rcases old x y hy with h0 | ⟨_, rfl⟩
    · obtain ⟨hlt, nb, hb, hbp, hbc⟩ := hi.child x y k b h0 hk
      exact ⟨hlt, nb, new b nb hb, hbp, hbc⟩
    · exact absurd hk (nochild k b)
  · intro x y q hy hpar
    rcases old x y hy with h0 | ⟨hx, rfl⟩
    · exact hi.parent x y q h0 hpar
    · rcases h with ⟨hp, _⟩ | ⟨a, hp, ha, hc⟩
      · rw [hp] at hpar
        cases hpar
      · rw [hp] at hpar
        cases hpar
        exact ⟨by omega, hc⟩
  · intro x y hy hpar
    rcases old x y hy with h0 | ⟨hx, rfl⟩
    · exact hi.root x y h0 hpar
    · rcases h with ⟨_, hc⟩ | ⟨a, hp, _, _⟩
      · exact hc
      · rw [hp] at hpar
        cases hpar

theorem Inv.link {m : Mem} (hi : Inv m) {a b k : Nat} {n nb : Node} (hn : m[a]? = some n)
    (hb : m[b]? = some nb) (hab : a < b) (hp : nb.parent = some a)
    (hc : nb.char_here = letter k) :
    Inv (m.set a { n with children := n.children.set k (some b) }) := by
  have ha := lookup_lt hn
  have look : ∀ (x : Nat) (y : Node),
      (m.set a { n with children := n.children.set k (some b) })[x]? = some y →
      (x = a ∧ y = { n with children := n.children.set k (some b) }) ∨
        (x ≠ a ∧ m[x]? = some y) := by
    intro x y hy
    rw [lookup_set ha] at hy
    by_cases hx : x = a
    · rw [if_pos hx] at hy
      cases hy
      exact Or.inl ⟨hx, rfl⟩
    · rw [if_neg hx] at hy
      exact Or.inr ⟨hx, hy⟩
  have new : ∀ (x : Nat) (y0 : Node), m[x]? = some y0 →
      ∃ y : Node, (m.set a { n with children := n.children.set k (some b) })[x]? = some y ∧
        y.parent = y0.parent ∧ y.char_here = y0.char_here := by
    intro x y0 hy
    rw [lookup_set ha]
    by_cases hx : x = a
    · rw [if_pos hx]
      rw [hx, hn] at hy
      cases hy
      exact ⟨_, rfl, rfl, rfl⟩
    · rw [if_neg hx]
      exact ⟨y0, hy, rfl, rfl⟩
  constructor
  · intro x y hy
    rcases look x y hy with ⟨_, rfl⟩ | ⟨_, h0⟩
    · simp only [List.length_set]
      exact hi.slots a n hn
    · exact hi.slots x y h0
  · intro x y j d hy hj
    rcases look x y hy with ⟨hx, rfl⟩ | ⟨_, h0⟩
    · subst hx
      simp only [List.getElem?_set] at hj
      by_cases hkj : k = j
      · subst hkj
        rw [if_pos rfl] at hj
        by_cases hl : k < n.children.length
        · rw [if_pos hl] at hj
          cases hj
          obtain ⟨nb', hb', hbp', hbc'⟩ := new b nb hb
          exact ⟨hab, nb', hb', by rw [hbp', hp], by rw [hbc', hc]⟩
        · rw [if_neg hl] at hj
          cases hj
      · rw [if_neg hkj] at hj
        obtain ⟨hlt, nd, hd, hdp, hdc⟩ := hi.child x n j d hn hj
        obtain ⟨nd', hd', hdp', hdc'⟩ := new d nd hd
        exact ⟨hlt, nd', hd', by rw [hdp', hdp], by rw [hdc', hdc]⟩
    · obtain ⟨hlt, nd, hd, hdp, hdc⟩ := hi.child x y j d h0 hj
      obtain ⟨nd', hd', hdp', hdc'⟩ := new d nd hd
      exact ⟨hlt, nd', hd', by rw [hdp', hdp], by rw [hdc', hdc]⟩
  · intro x y q hy hpar
    rcases look x y hy with ⟨hx, rfl⟩ | ⟨_, h0⟩
    · subst hx
      exact hi.parent x n q hn hpar
    · exact hi.parent x y q h0 hpar
  · intro x y hy hpar
    rcases look x y hy with ⟨hx, rfl⟩ | ⟨_, h0⟩
    · subst hx
      exact hi.root x n hn hpar
    · exact hi.root x y h0 hpar



theorem child_eq {m : Mem} (hi : Inv m) {a : Nat} {n : Node} (hn : m[a]? = some n) {c : Char}
    (hc : isAZ c) :
    ∃ v : Option Nat, n.children[(Boggle.Node.index c).toNat]? = some v ∧
      child m a (Boggle.Node.index c) = some v := by
  have hk := index_toNat_lt_of_isAZ hc
  have h26 := hi.slots a n hn
  have hlt : (Boggle.Node.index c).toNat < n.children.length := by omega
  refine ⟨n.children[(Boggle.Node.index c).toNat], List.getElem?_eq_getElem hlt, ?_⟩
  unfold child
  rw [hn, slot_of_isAZ hc]
  exact List.getElem?_eq_getElem hlt

theorem get_ok {m : Mem} (hi : Inv m) {a : Nat} (ha : a < m.length) {c : Char} (hc : isAZ c) :
    ∃ (m' : Mem) (b : Nat), get m a c = some (m', b) ∧ Inv m' ∧ m.length ≤ m'.length ∧
      a < b ∧ b < m'.length ∧ ∀ x, x < a → m'[x]? = m[x]? := by
  obtain ⟨n, hn⟩ := lookup_of_lt ha
  obtain ⟨v, hv, hchild⟩ := child_eq hi hn hc
  unfold get
  rw [hchild]
  cases v with
  | some b =>
    obtain ⟨hab, nb, hb, _, _⟩ := hi.child a n _ b hn hv
    exact ⟨m, b, rfl, hi, Nat.le_refl _, hab, lookup_lt hb, fun _ _ => rfl⟩
  | none =>
    have hn1 : (m ++ [Node.new c (some a)])[a]? = some n := by
      rw [lookup_append, if_neg (Nat.ne_of_lt ha)]
      exact hn
    have hb1 : (m ++ [Node.new c (some a)])[m.length]? = some (Node.new c (some a)) := by
      rw [lookup_append, if_pos rfl]
    have hi1 : Inv (m ++ [Node.new c (some a)]) :=
      hi.append c (some a) (Or.inr ⟨a, rfl, ha, hc⟩)
    have hi2 := hi1.link (k := (Boggle.Node.index c).toNat) hn1 hb1 ha rfl
      (letter_index hc).symm
    have hset : setChild (m ++ [Node.new c (some a)]) a (Boggle.Node.index c) m.length =
        some ((m ++ [Node.new c (some a)]).set a
          { n with children := n.children.set (Boggle.Node.index c).toNat (some m.length) }) := by
      unfold setChild
      rw [slot_of_isAZ hc]
      exact update_eq hn1 _
    simp only [hset]
    refine ⟨_, _, rfl, hi2, ?_, ha, ?_, ?_⟩
    · simp
    · simp
    · intro x hx
      rw [lookup_set (lookup_lt hn1), if_neg (Nat.ne_of_lt hx), lookup_append,
        if_neg (by omega)]

theorem setValue_ok {m : Mem} (hi : Inv m) {a : Nat} (ha : a < m.length) :
    ∃ m' : Mem, setValue m a = some m' ∧ Inv m' ∧ m'.length = m.length ∧
      ∀ x, x ≠ a → m'[x]? = m[x]? := by
  obtain ⟨n, hn⟩ := lookup_of_lt ha
  refine ⟨_, update_eq hn _, hi.set hn rfl rfl rfl, by simp, fun x hx => ?_⟩
  rw [lookup_set ha, if_neg hx]

theorem setCacheString_ok {m : Mem} (hi : Inv m) {a : Nat} (ha : a < m.length) (s : String) :
    ∃ m' : Mem, setCacheString m a s = some m' ∧ Inv m' ∧ m'.length = m.length ∧
      ∀ x, x ≠ a → m'[x]? = m[x]? := by
  obtain ⟨n, hn⟩ := lookup_of_lt ha
  refine ⟨_, update_eq hn _, hi.set hn rfl rfl rfl, by simp, fun x hx => ?_⟩
  rw [lookup_set ha, if_neg hx]

theorem insertRec_ok (cs : List Char) (hcs : ∀ c ∈ cs, isAZ c) :
    ∀ (m : Mem) (n : Nat), Inv m → n < m.length →
      ∃ (m' : Mem) (b : Nat), insertRec cs m n = some (m', b) ∧ Inv m' ∧
        m.length ≤ m'.length ∧ n ≤ b ∧ b < m'.length ∧ ∀ x, x < n → m'[x]? = m[x]? := by
  induction cs with
  | nil =>
    intro m n hi hn
    obtain ⟨m', h1, h2, h3, h4⟩ := setValue_ok hi hn
    refine ⟨m', n, ?_, h2, by omega, Nat.le_refl _, by omega, fun x hx => h4 x (by omega)⟩
    simp only [insertRec, h1]
  | cons c cs ih =>
    intro m n hi hn
    obtain ⟨m1, b, g1, g2, g3, g4, g5, g6⟩ :=
      get_ok hi hn (hcs c (List.mem_cons_self _ _))
    obtain ⟨m2, d, k1, k2, k3, k4, k5, k6⟩ :=
      ih (fun x hx => hcs x (List.mem_cons_of_mem _ hx)) m1 b g2 g5
    refine ⟨m2, d, ?_, k2, by omega, by omega, k5, fun x hx => ?_⟩
    · simp only [insertRec, g1, k1]
    · rw [k6 x (by omega), g6 x hx]

theorem hInsertCaseRec_eq (cs : List Char) (m : Mem) (n : Nat) :
    insertCaseRec cs m n = insertRec (cs.map toupper) m n := by
  induction cs generalizing m n with
  | nil => rfl
  | cons c cs ih =>
    simp only [insertCaseRec, insertRec, List.map_cons]
    cases get m n (toupper c) with
    | none => rfl
    | some r => exact ih r.1 r.2

theorem insertForeignItRec_ok (m : Mem) (hi : Inv m) (r : Nat) (hr : r < m.length) :
    ∀ (fuel : Nat) (it : SearchIterator) (c : Char),
      (∀ a, it.curNode = some a → a < m.length ∧ a + 2 ≤ fuel) → 1 ≤ fuel →
      (c = nul ∨ isAZ c) →
      ∃ (m' : Mem) (n : Nat), insertForeignItRec m fuel it r c = some (m', n) ∧ Inv m' ∧
        m.length ≤ m'.length ∧ r ≤ n ∧ n < m'.length ∧ ∀ x, x < r → m'[x]? = m[x]? := by
  intro fuel
  induction fuel with
  | zero =>
    intro it c _ h1 _
    exact absurd h1 (by omega)
  | succ fuel ih =>
    intro it c hit _ hc
    rw [insertForeignItRec]
    cases hcur : it.curNode with
    | none =>
      have : it.reachable = false := by
        unfold SearchIterator.reachable
        rw [hcur]
      simp only [this, Bool.not_false, if_true]
      exact ⟨m, r, rfl, hi, Nat.le_refl _, Nat.le_refl _, hr, fun _ _ => rfl⟩
    | some a =>
      have hre : it.reachable = true := by
        unfold SearchIterator.reachable
        rw [hcur]
      obtain ⟨ha, hfuel⟩ := hit a hcur
      obtain ⟨na, hna⟩ := lookup_of_lt ha
      have h1 : it.charHere m = some na.char_here := by
        unfold SearchIterator.charHere
        rw [hcur]
        simp only [hna]
      have h2 : it.up m = some { curNode := na.parent } := by
        unfold SearchIterator.up
        rw [hcur]
        simp only [hna]
      have htmp : na.char_here = nul ∨ isAZ na.char_here := by
        cases hp : na.parent with
        | none => exact Or.inl (hi.root a na hna hp)
        | some p => exact Or.inr (hi.parent a na p hna hp).2
      obtain ⟨m1, n, g1, g2, g3, g4, g5, g6⟩ :=
        ih { curNode := na.parent } na.char_here
          (fun p hp => by
            have := (hi.parent a na p hna hp).1
            exact ⟨by omega, by omega⟩)
          (by omega) htmp
      simp only [hre, Bool.not_true, Bool.false_eq_true, if_false, h1, h2, g1]
      by_cases hc0 : c = nul
      · rw [if_pos hc0]
        exact ⟨m1, n, rfl, g2, g3, g4, g5, g6⟩
      · rw [if_neg hc0]
        have hcz : isAZ c := hc.resolve_left hc0
        obtain ⟨m2, b, k1, k2, k3, k4, k5, k6⟩ := get_ok g2 g5 hcz
        exact ⟨m2, b, k1, k2, by omega, by omega, k5,
          fun x hx => by rw [k6 x (by omega), g6 x hx]⟩



theorem Inv.empty : Inv [] := by
  constructor <;> intro a n <;> simp

theorem Inv.newTrie {m : Mem} (hi : Inv m) : Inv (Trie.new m).1 :=
  hi.append nul none (Or.inl ⟨rfl, rfl⟩)

theorem lookup_newTrie (m : Mem) (x : Nat) (hx : x < m.length) : (Trie.new m).1[x]? = m[x]? := by
  show (m ++ [Node.new nul none])[x]? = m[x]?
  rw [lookup_append, if_neg (Nat.ne_of_lt hx)]

theorem hInsert_ok {m : Mem} (hi : Inv m) {t : Trie} (ht : t.root < m.length) {s : String}
    (hs : AZ s) :
    ∃ (m' : Mem) (t' : Trie), t.insert m s = some (m', t') ∧ Inv m' ∧ m.length ≤ m'.length ∧
      t'.root = t.root ∧ ∀ x, x < t.root → m'[x]? = m[x]? := by
  obtain ⟨m1, b, g1, g2, g3, g4, g5, g6⟩ := insertRec_ok s.data hs m t.root hi ht
  obtain ⟨m2, k1, k2, k3, k4⟩ := setCacheString_ok g2 g5 s
  refine ⟨m2, { t with m_size := int32 (t.m_size + 1) }, ?_, k2, by omega, rfl, fun x hx => ?_⟩
  · simp only [Trie.insert, g1, k1]
  · rw [k4 x (by omega), g6 x hx]

theorem hInsertCase_ok {m : Mem} (hi : Inv m) {t : Trie} (ht : t.root < m.length) {s : String}
    (hs : Letters s) :
    ∃ (m' : Mem) (t' : Trie), t.insertCase m s = some (m', t') ∧ Inv m' ∧
      m.length ≤ m'.length ∧ t'.root = t.root ∧ ∀ x, x < t.root → m'[x]? = m[x]? := by
  obtain ⟨m1, b, g1, g2, g3, g4, g5, g6⟩ :=
    insertRec_ok (s.data.map toupper) (isAZ_map_toupper hs) m t.root hi ht
  obtain ⟨m2, k1, k2, k3, k4⟩ := setCacheString_ok g2 g5 s
  refine ⟨m2, { t with m_size := int32 (t.m_size + 1) }, ?_, k2, by omega, rfl, fun x hx => ?_⟩
  · simp only [Trie.insertCase, hInsertCaseRec_eq, g1, k1]
  · rw [k4 x (by omega), g6 x hx]

theorem hInsertCase_nocache_ok {m : Mem} (hi : Inv m) {t : Trie} (ht : t.root < m.length)
    {s : String} (hs : Letters s) :
    ∃ (m' : Mem) (t' : Trie), t.insertCase_nocache m s = some (m', t') ∧ Inv m' ∧
      m.length ≤ m'.length ∧ t'.root = t.root ∧ ∀ x, x < t.root → m'[x]? = m[x]? := by
  obtain ⟨m1, b, g1, g2, g3, g4, g5, g6⟩ :=
    insertRec_ok (s.data.map toupper) (isAZ_map_toupper hs) m t.root hi ht
  refine ⟨m1, { t with m_size := int32 (t.m_size + 1) }, ?_, g2, g3, rfl, g6⟩
  simp only [Trie.insertCase_nocache, hInsertCaseRec_eq, g1]

theorem hInsertForeignIt_ok {m : Mem} (hi : Inv m) {t : Trie} (ht : t.root < m.length)
    {it : SearchIterator} (hv : Valid m it) :
    ∃ (m' : Mem) (t' : Trie), t.insertForeignIt m it = some (m', t') ∧ Inv m' ∧
      m.length ≤ m'.length ∧ t'.root = t.root ∧ ∀ x, x < t.root → m'[x]? = m[x]? := by
  obtain ⟨m1, n, g1, g2, g3, g4, g5, g6⟩ :=
    insertForeignItRec_ok m hi t.root ht (m.length + 1) it nul
      (fun a ha => ⟨hv a ha, by have := hv a ha; omega⟩) (by omega) (Or.inl rfl)
  obtain ⟨m2, k1, k2, k3, k4⟩ := setValue_ok g2 g5
  have hcache : ∃ o : Option String, it.getCacheString m2 = some o := by
    unfold SearchIterator.getCacheString
    cases hcur : it.curNode with
    | none => exact ⟨none, rfl⟩
    | some a =>
      have ha : a < m2.length := by
        have := hv a hcur
        omega
      obtain ⟨na, hna⟩ := lookup_of_lt ha
      exact ⟨na.str, by simp only [hna]⟩
  obtain ⟨o, ho⟩ := hcache
  cases o with
  | none =>
    refine ⟨m2, { t with m_size := int32 (t.m_size + 1) }, ?_, k2, by omega, rfl, fun x hx => ?_⟩
    · simp only [Trie.insertForeignIt, g1, k1, ho]
    · rw [k4 x (by omega), g6 x hx]
  | some s =>
    obtain ⟨m3, j1, j2, j3, j4⟩ := setCacheString_ok k2 (by omega : n < m2.length) s
    refine ⟨m3, { t with m_size := int32 (t.m_size + 1) }, ?_, j2, by omega, rfl, fun x hx => ?_⟩
    · simp only [Trie.insertForeignIt, g1, k1, ho, j1]
    · rw [j4 x (by omega), k4 x (by omega), g6 x hx]

theorem Built.inv {m : Mem} (h : Built m) : Inv m := by
  induction h with
  | empty => exact Inv.empty
  | newTrie _ ih => exact ih.newTrie
  | insert t s r _ ht hs hr ih =>
    obtain ⟨m', t', g1, g2, _⟩ := hInsert_ok ih ht hs
    rw [hr] at g1
    cases g1
    exact g2
  | insertCase t s r _ ht hs hr ih =>
    obtain ⟨m', t', g1, g2, _⟩ := hInsertCase_ok ih ht hs
    rw [hr] at g1
    cases g1
    exact g2
  | insertCase_nocache t s r _ ht hs hr ih =>
    obtain ⟨m', t', g1, g2, _⟩ := hInsertCase_nocache_ok ih ht hs
    rw [hr] at g1
    cases g1
    exact g2
  | insertForeignIt t it r _ ht hv hr ih =>
    obtain ⟨m', t', g1, g2, _⟩ := hInsertForeignIt_ok ih ht hv
    rw [hr] at g1
    cases g1
    exact g2

theorem next_ok {m : Mem} (hi : Inv m) {it : SearchIterator} (hv : Valid m it) {c : Char}
    (hc : isAZ c) : ∃ it' : SearchIterator, it.next m c = some it' ∧ Valid m it' := by
  unfold SearchIterator.next
  cases hcur : it.curNode with
  | none =>
    refine ⟨it, rfl, ?_⟩
    intro a ha
    rw [hcur] at ha
    cases ha
  | some a =>
    obtain ⟨n, hn⟩ := lookup_of_lt (hv a hcur)
    obtain ⟨v, hv1, hv2⟩ := child_eq hi hn hc
    simp only [hv2]
    refine ⟨_, rfl, ?_⟩
    intro b hb
    have hb' : v = some b := hb
    subst hb'
    obtain ⟨_, nb, hnb, _, _⟩ := hi.child a n _ b hn hv1
    exact lookup_lt hnb

theorem step_ok {m : Mem} (hi : Inv m) {it : SearchIterator} (hv : Valid m it) {ch : Char}
    (hc : isAZ ch) : ∃ it' : SearchIterator, Board.step m it ch = some it' ∧ Valid m it' := by
  obtain ⟨it1, h1, h2⟩ := next_ok hi hv hc
  unfold Board.step
  rw [h1]
  by_cases hq : ch = 'Q'
  · simp only [hq, if_true]
    exact next_ok hi h2 (by decide)
  · simp only [hq, if_false]
    exact ⟨it1, rfl, h2⟩

theorem Valid.mono {m m' : Mem} {it : SearchIterator} (h : Valid m it)
    (hl : m.length ≤ m'.length) : Valid m' it :=
  fun a ha => Nat.lt_of_lt_of_le (h a ha) hl



theorem built_exampleMem : Built exampleMem :=
  Built.insert (Trie.new []).2 "AT" (exampleMem, { root := 0, m_size := 1 })
    (Built.newTrie Built.empty) (by decide) (by decide) (by decide)

/-- C24: in a memory built by the constructor and the insertions of `Trie`, the child
stored at index `k` of a node has that node as its parent and holds the character
`'A' + k`; so when `next(c)` moves a valid iterator to a valid iterator, `charHere()`
returns `c` and `up()` moves the iterator back to the node it started from. -/
theorem next_up_round_trip (m : Mem) (hb : Built m) :
    (∀ (a : Nat) (n : Node) (k b : Nat), m[a]? = some n → n.children[k]? = some (some b) →
        ∃ nb : Node, m[b]? = some nb ∧ nb.parent = some a ∧
          nb.char_here = Char.ofNat ('A'.toNat + k)) ∧
      ∀ (it it' : SearchIterator) (c : Char), it.reachable = true → it.next m c = some it' →
        it'.reachable = true → it'.charHere m = some c ∧ it'.up m = some it := by
  have hi := hb.inv
  constructor
  · intro a n k b hn hk
    obtain ⟨_, nb, h1, h2, h3⟩ := hi.child a n k b hn hk
    exact ⟨nb, h1, h2, h3⟩
  · intro it it' c hr hnext hr'
    obtain ⟨cur⟩ := it
    cases cur with
    | none => cases hr
    | some a =>
      unfold SearchIterator.next at hnext
      simp only at hnext
      cases hch : child m a (Boggle.Node.index c) with
      | none =>
        rw [hch] at hnext
        cases hnext
      | some v =>
        rw [hch] at hnext
        cases hnext
        cases v with
        | none => cases hr'
        | some b =>
          unfold child at hch
          cases hn : m[a]? with
          | none =>
            rw [hn] at hch
            cases hch
          | some n =>
            cases hs : slot (Boggle.Node.index c) with
            | none =>
              rw [hn, hs] at hch
              cases hch
            | some k =>
              rw [hn, hs] at hch
              obtain ⟨hc, hk, _⟩ := isAZ_of_slot hs
              obtain ⟨_, nb, h1, h2, h3⟩ := hi.child a n k b hn hch
              have h4 : nb.char_here = c := by
                rw [h3, hk]
                exact letter_index hc
              constructor
              · unfold SearchIterator.charHere
                simp only [h1, h4]
              · unfold SearchIterator.up
                simp only [h1, h2]

theorem next_up_round_trip_witness :
    Built exampleMem ∧
      (∀ (a : Nat) (n : Node) (k b : Nat), exampleMem[a]? = some n →
        n.children[k]? = some (some b) →
          ∃ nb : Node, exampleMem[b]? = some nb ∧ nb.parent = some a ∧
            nb.char_here = Char.ofNat ('A'.toNat + k)) ∧
      ∀ (it it' : SearchIterator) (c : Char), it.reachable = true →
        it.next exampleMem c = some it' → it'.reachable = true →
          it'.charHere exampleMem = some c ∧ it'.up exampleMem = some it :=
  ⟨built_exampleMem, next_up_round_trip exampleMem built_exampleMem⟩


/-! ## The pointer-level embedding: the board search -/

theorem read_cell {α : Type} (g : Grid α) (a : Cell) : read g a.row a.col = some (g a.1 a.2) := by
  have h := cell_inBounds a
  unfold read
  rw [if_pos (by omega), at_cell]

theorem write_cell {α : Type} (g : Grid α) (a : Cell) (v : α) :
    write g a.row a.col v = some (Grid.set g a.row a.col v) := by
  have h := cell_inBounds a
  unfold write
  rw [if_pos (by omega)]

theorem found_ok {m : Mem} (hi : Inv m) {si : SearchIterator} (hv : Valid m si)
    (used : Grid Bool) {fw : Trie} (hfw : fw.root < m.length) :
    ∃ (m' : Mem) (fw' : Trie), Board.found si (m, used, fw) = some (m', used, fw') ∧ Inv m' ∧
      m.length ≤ m'.length ∧ fw'.root = fw.root ∧ ∀ x, x < fw.root → m'[x]? = m[x]? := by
  have hin : ∃ v : Bool, si.inSet m = some v := by
    unfold SearchIterator.inSet
    cases hcur : si.curNode with
    | none => exact ⟨false, rfl⟩
    | some a =>
      obtain ⟨na, hna⟩ := lookup_of_lt (hv a hcur)
      exact ⟨na.value_here, by simp only [hna]⟩
  obtain ⟨v, hin⟩ := hin
  unfold Board.found
  simp only [hin]
  cases v with
  | false => exact ⟨m, fw, by simp, hi, Nat.le_refl _, rfl, fun _ _ => rfl⟩
  | true =>
    obtain ⟨m', fw', g1, g2, g3, g4, g5⟩ := hInsertForeignIt_ok hi hfw hv
    exact ⟨m', fw', by simp [g1], g2, g3, g4, g5⟩

theorem hNeighbours_ok (b : Board) (hg : ∀ i j, isAZ (b.board i j)) (fuel : Nat)
    (hcall : b.RunsOK fuel) (si : SearchIterator) (used : Grid Bool)
    (hfuel : unusedCount used ≤ fuel) (root : Nat) (L : List (Int × Int)) :
    ∀ (m : Mem) (fw : Trie), Inv m → Valid m si → fw.root = root → root < m.length →
      ∃ (m' : Mem) (fw' : Trie),
        L.foldlM (fun st yx => b.neighbour fuel si st yx.1 yx.2) (m, used, fw) =
            some (m', used, fw') ∧ Inv m' ∧ m.length ≤ m'.length ∧ fw'.root = root ∧
          ∀ x, x < root → m'[x]? = m[x]? := by
  induction L with
  | nil =>
    intro m fw hi _ hr _
    exact ⟨m, fw, rfl, hi, Nat.le_refl _, hr, fun _ _ => rfl⟩
  | cons yx L ih =>
    intro m fw hi hv hr hlen
    obtain ⟨y, x⟩ := yx
    rw [List.foldlM_cons]
    by_cases hb : x < 0 ∨ y < 0 ∨ y ≥ 5 ∨ x ≥ 5
    · have hbody : b.neighbour fuel si (m, used, fw) y x = some (m, used, fw) := by
        simp only [Board.neighbour, hb, if_true]
      rw [hbody]
      exact ih m fw hi hv hr hlen
    · obtain ⟨a0, hrow, hcol⟩ := cell_of_inBounds hb
      subst hrow hcol
      cases hu0 : used a0.1 a0.2 with
      | true =>
        have hbody : b.neighbour fuel si (m, used, fw) a0.row a0.col = some (m, used, fw) := by
          simp only [Board.neighbour, hb, if_false, read_cell, hu0]
          rfl
        rw [hbody]
        exact ih m fw hi hv hr hlen
      | false =>
        have hlt : unusedCount (Grid.set used a0.row a0.col true) < fuel :=
          Nat.lt_of_lt_of_le (unusedCount_set_lt used a0 hu0) hfuel
        obtain ⟨it, s1, s2⟩ := step_ok hi hv (hg a0.1 a0.2)
        obtain ⟨m1, fw1, g1, g2, g3, g4, g5⟩ :=
          hcall it a0.row a0.col m (Grid.set used a0.row a0.col true) fw hi s2
            (by omega) hlt
        have hbody : b.neighbour fuel si (m, used, fw) a0.row a0.col =
            some (m1, used, fw1) := by
          simp only [Board.neighbour, hb, if_false, read_cell, write_cell, hu0, s1, g1,
            set_set_restore used a0 hu0]
          rfl
        rw [hbody]
        obtain ⟨m2, fw2, k1, k2, k3, k4, k5⟩ :=
          ih m1 fw1 g2 (hv.mono g3) (by rw [g4, hr]) (by omega)
        exact ⟨m2, fw2, k1, k2, by omega, k4,
          fun z hz => by rw [k5 z hz, g5 z (by omega)]⟩

theorem hRunsOK (b : Board) (hg : ∀ i j, isAZ (b.board i j)) (fuel : Nat) : b.RunsOK fuel := by
  induction fuel with
  | zero =>
    intro si r c m used fw _ _ _ hlt
    exact absurd hlt (Nat.not_lt_zero _)
  | succ fuel ih =>
    intro si r c m used fw hi hv hfw hlt
    rw [hAllWordsRec_succ]
    cases hr : si.reachable with
    | false => exact ⟨m, fw, by simp, hi, Nat.le_refl _, rfl, fun _ _ => rfl⟩
    | true =>
      simp only [Bool.not_true, Bool.false_eq_true, if_false]
      obtain ⟨m0, fw0, f1, f2, f3, f4, f5⟩ := found_ok hi hv used hfw
      rw [f1]
      simp only
      rw [foldlM_nested (fun st y x => b.neighbour fuel si st y x)]
      obtain ⟨m1, fw1, g1, g2, g3, g4, g5⟩ :=
        hNeighbours_ok b hg fuel ih si used (Nat.le_of_lt_succ hlt) fw.root _ m0 fw0 f2
          (hv.mono f3) f4 (by omega)
      exact ⟨m1, fw1, g1, g2, by omega, g4, fun z hz => by rw [g5 z hz, f5 z hz]⟩

theorem hStart_ok (b : Board) (hg : ∀ i j, isAZ (b.board i j)) (root : Nat)
    (L : List (Int × Int)) (hL : ∀ yx ∈ L, ¬ (yx.2 < 0 ∨ yx.1 < 0 ∨ yx.1 ≥ 5 ∨ yx.2 ≥ 5)) :
    ∀ (m : Mem) (fw : Trie), Inv m → b.englishWords.root < m.length → fw.root = root →
      root < m.length →
      ∃ (m' : Mem) (fw' : Trie),
        L.foldlM (fun st rc => b.start st rc.1 rc.2) (m, (fun _ _ => false : Grid Bool), fw) =
            some (m', (fun _ _ => false : Grid Bool), fw') ∧ Inv m' ∧ m.length ≤ m'.length ∧
          fw'.root = root ∧ ∀ x, x < root → m'[x]? = m[x]? := by
  induction L with
  | nil =>
    intro m fw hi _ hr _
    exact ⟨m, fw, rfl, hi, Nat.le_refl _, hr, fun _ _ => rfl⟩
  | cons yx L ih =>
    intro m fw hi hd hr hlen
    obtain ⟨y, x⟩ := yx
    obtain ⟨a0, hrow, hcol⟩ := cell_of_inBounds (hL (y, x) (List.mem_cons_self _ _))
    subst hrow hcol
    have hlt : unusedCount (Grid.set (fun _ _ => false) a0.row a0.col true) < 25 := by
      have := unusedCount_set_lt (fun _ _ => false) a0 rfl
      rwa [unusedCount_none] at this
    have hv0 : Valid m b.englishWords.beginSearch := by
      intro a ha
      cases ha
      exact hd
    obtain ⟨it, s1, s2⟩ := step_ok hi hv0 (hg a0.1 a0.2)
    obtain ⟨m1, fw1, g1, g2, g3, g4, g5⟩ :=
      hRunsOK b hg 25 it a0.row a0.col m (Grid.set (fun _ _ => false) a0.row a0.col true) fw hi
        s2 (by omega) hlt
    have hbody : b.start (m, (fun _ _ => false : Grid Bool), fw) a0.row a0.col =
        some (m1, (fun _ _ => false : Grid Bool), fw1) := by
      simp only [Board.start, read_cell, write_cell, s1, g1,
        set_set_restore (fun _ _ => false) a0 rfl]
    rw [List.foldlM_cons, hbody]
    obtain ⟨m2, fw2, k1, k2, k3, k4, k5⟩ :=
      ih (fun yx hyx => hL yx (List.mem_cons_of_mem _ hyx)) m1 fw1 g2 (by omega)
        (by rw [g4, hr]) (by omega)
    exact ⟨m2, fw2, k1, k2, by omega, k4, fun z hz => by rw [k5 z hz, g5 z (by omega)]⟩

theorem hLoops_ok (b : Board) (hg : ∀ i j, isAZ (b.board i j)) (m : Mem) (hi : Inv m)
    (hd : b.englishWords.root < m.length) :
    ∃ (m' : Mem) (fw : Trie),
      b.allWordsLoops m = some (m', (fun _ _ => false : Grid Bool), fw) ∧ Inv m' ∧
        m.length < m'.length ∧ fw.root = m.length ∧ ∀ x, x < m.length → m'[x]? = m[x]? := by
  have hlen : (Trie.new m).1.length = m.length + 1 := by simp [Trie.new]
  obtain ⟨m', fw, g1, g2, g3, g4, g5⟩ :=
    hStart_ok b hg m.length _ all_cells_inBounds (Trie.new m).1 (Trie.new m).2 hi.newTrie
      (by omega) rfl (by omega)
  refine ⟨m', fw, ?_, g2, by omega, g4, fun x hx => ?_⟩
  · rw [hAllWordsLoops_eq, foldlM_nested (fun st r c => b.start st r c)]
    exact g1
  · rw [g5 x hx, lookup_newTrie m x hx]


/-! ## The pointer-level embedding: `enqueue` -/

theorem enqueueRec_succ (fuel : Nat) (a : Nat) (st : Mem × List String) :
    enqueueRec (fuel + 1) (some a) st =
      match st.1[a]? with
      | none => none
      | some node =>
        match enqueueHere a node st with
        | none => none
        | some st1 => (List.range 26).foldlM (fun st i => enqueueChild fuel a st i) st1 := by
  rw [enqueueRec]
  rfl

theorem hEnqueue_eq (m : Mem) (t : Trie) :
    t.enqueue m = (List.range 26).foldlM (fun st i => enqueueChild m.length t.root st i) (m, []) :=
  rfl

theorem buildString_ok (m : Mem) (hi : Inv m) :
    ∀ (fuel : Nat) (s : String) (a : Nat), a < m.length → a + 2 ≤ fuel →
      ∃ s' : String, buildString m fuel s (some a) = some s' := by
  intro fuel
  induction fuel with
  | zero =>
    intro s a _ h
    exact absurd h (by omega)
  | succ fuel ih =>
    intro s a ha hf
    obtain ⟨na, hna⟩ := lookup_of_lt ha
    rw [buildString]
    simp only [hna]
    by_cases hc : na.char_here = nul
    · rw [if_pos hc]
      exact ⟨s, rfl⟩
    · rw [if_neg hc]
      cases hp : na.parent with
      | none => exact absurd (hi.root a na hna hp) hc
      | some p =>
        have hlt := (hi.parent a na p hna hp).1
        obtain ⟨s1, h1⟩ := ih s p (by omega) (by omega)
        rw [h1]
        exact ⟨_, rfl⟩

theorem toString_ok {m : Mem} (hi : Inv m) {a : Nat} (ha : a < m.length) :
    ∃ (m' : Mem) (s : String), toString m a = some (m', s) ∧ Inv m' ∧ m'.length = m.length ∧
      ∀ x, x ≠ a → m'[x]? = m[x]? := by
  obtain ⟨na, hna⟩ := lookup_of_lt ha
  unfold toString
  simp only [hna]
  cases hs : na.str with
  | some s => exact ⟨m, s, rfl, hi, rfl, fun _ _ => rfl⟩
  | none =>
    obtain ⟨s, h1⟩ := buildString_ok m hi (m.length + 1) "" a ha (by omega)
    obtain ⟨m1, k1, k2, k3, k4⟩ := setCacheString_ok hi ha s
    simp only [h1, k1]
    exact ⟨m1, s, rfl, k2, k3, k4⟩

theorem enqueueHere_ok {m : Mem} (hi : Inv m) {a : Nat} (ha : a < m.length) (node : Node)
    (q : List String) :
    ∃ (m' : Mem) (q' : List String), enqueueHere a node (m, q) = some (m', q') ∧ Inv m' ∧
      m'.length = m.length ∧ ∀ x, x < a → m'[x]? = m[x]? := by
  unfold enqueueHere
  cases node.value_here with
  | false => exact ⟨m, q, by simp, hi, rfl, fun _ _ => rfl⟩
  | true =>
    obtain ⟨m', s, g1, g2, g3, g4⟩ := toString_ok hi ha
    exact ⟨m', q ++ [s], by simp [g1], g2, g3, fun x hx => g4 x (by omega)⟩

theorem enqueueChildren_ok (fuel len a : Nat)
    (hcall : ∀ (b : Nat) (m : Mem) (q : List String), Inv m → m.length = len → a < b →
      b < len →
      ∃ (m' : Mem) (q' : List String), enqueueRec fuel (some b) (m, q) = some (m', q') ∧
        Inv m' ∧ m'.length = len ∧ ∀ x, x < b → m'[x]? = m[x]?)
    (hfuel : 1 ≤ fuel) (L : List Nat) (hL : ∀ i ∈ L, i < 26) :
    ∀ (m : Mem) (q : List String), Inv m → m.length = len → a < len →
      ∃ (m' : Mem) (q' : List String),
        L.foldlM (fun st i => enqueueChild fuel a st i) (m, q) = some (m', q') ∧ Inv m' ∧
          m'.length = len ∧ ∀ x, x ≤ a → m'[x]? = m[x]? := by
  induction L with
  | nil =>
    intro m q hi hl _
    exact ⟨m, q, rfl, hi, hl, fun _ _ => rfl⟩
  | cons i L ih =>
    intro m q hi hl ha
    have hi26 := hL i (List.mem_cons_self _ _)
    obtain ⟨na, hna⟩ := lookup_of_lt (by omega : a < m.length)
    have h26 := hi.slots a na hna
    have hchild : child m a (i : Int) = some na.children[i] := by
      unfold child
      have hs : slot (i : Int) = some i := by
        unfold slot
        rw [if_pos (by omega)]
        simp
      rw [hna, hs]
      exact List.getElem?_eq_getElem (by omega)
    have hstep : ∃ (m1 : Mem) (q1 : List String), enqueueChild fuel a (m, q) i = some (m1, q1) ∧
        Inv m1 ∧ m1.length = len ∧ ∀ x, x ≤ a → m1[x]? = m[x]? := by
      unfold enqueueChild
      simp only [hchild]
      cases hv : na.children[i] with
      | none =>
        obtain ⟨f, rfl⟩ : ∃ f, fuel = f + 1 := ⟨fuel - 1, by omega⟩
        exact ⟨m, q, by rw [enqueueRec], hi, hl, fun _ _ => rfl⟩
      | some b =>
        have hk : na.children[i]? = some (some b) := by
          rw [List.getElem?_eq_getElem (by omega), hv]
        obtain ⟨hab, nb, hnb, _, _⟩ := hi.child a na i b hna hk
        obtain ⟨m1, q1, g1, g2, g3, g4⟩ :=
          hcall b m q hi hl hab (by have := lookup_lt hnb; omega)
        exact ⟨m1, q1, g1, g2, g3, fun x hx => g4 x (by omega)⟩
    obtain ⟨m1, q1, g1, g2, g3, g4⟩ := hstep
    rw [List.foldlM_cons, g1]
    obtain ⟨m2, q2, k1, k2, k3, k4⟩ :=
      ih (fun j hj => hL j (List.mem_cons_of_mem _ hj)) m1 q1 g2 g3 ha
    exact ⟨m2, q2, k1, k2, k3, fun x hx => by rw [k4 x hx, g4 x hx]⟩

theorem enqueueRec_ok (len : Nat) :
    ∀ (fuel : Nat) (b : Nat) (m : Mem) (q : List String), Inv m → m.length = len → b < len →
      len + 1 ≤ fuel + b →
      ∃ (m' : Mem) (q' : List String), enqueueRec fuel (some b) (m, q) = some (m', q') ∧
        Inv m' ∧ m'.length = len ∧ ∀ x, x < b → m'[x]? = m[x]? := by
  intro fuel
  induction fuel with
  | zero =>
    intro b m q _ _ hb hf
    exact absurd hf (by omega)
  | succ fuel ih =>
    intro b m q hi hl hb hf
    obtain ⟨nb, hnb⟩ := lookup_of_lt (by omega : b < m.length)
    rw [enqueueRec_succ]
    simp only [hnb]
    obtain ⟨m1, q1, g1, g2, g3, g4⟩ := enqueueHere_ok hi (by omega : b < m.length) nb q
    rw [g1]
    simp only
    obtain ⟨m2, q2, k1, k2, k3, k4⟩ :=
      enqueueChildren_ok fuel len b
        (fun d m' q' hi' hl' hbd hd => ih d m' q' hi' hl' hd (by omega))
        (by omega) (List.range 26) (fun i hi' => List.mem_range.1 hi') m1 q1 g2
        (by omega) hb
    exact ⟨m2, q2, k1, k2, k3, fun x hx => by rw [k4 x (by omega), g4 x hx]⟩

theorem hEnqueue_ok {m : Mem} (hi : Inv m) {t : Trie} (ht : t.root < m.length) :
    ∃ (m' : Mem) (q : List String), t.enqueue m = some (m', q) ∧ Inv m' ∧
      m'.length = m.length ∧ ∀ x, x ≤ t.root → m'[x]? = m[x]? := by
  rw [hEnqueue_eq]
  exact enqueueChildren_ok m.length m.length t.root
    (fun d m' q' hi' hl' _ hd => enqueueRec_ok m.length m.length d m' q' hi' hl' hd (by omega))
    (by omega) (List.range 26) (fun i hi' => List.mem_range.1 hi') m [] hi rfl ht

theorem hAllWords_ok (b : Board) (hg : ∀ i j, isAZ (b.board i j)) (m : Mem) (hi : Inv m)
    (hd : b.englishWords.root < m.length) :
    ∃ (m' : Mem) (res : List String), b.allWords m = some (m', res) ∧ Inv m' ∧
      m.length < m'.length ∧ ∀ x, x < m.length → m'[x]? = m[x]? := by
  obtain ⟨m1, fw, g1, g2, g3, g4, g5⟩ := hLoops_ok b hg m hi hd
  obtain ⟨m2, q, k1, k2, k3, k4⟩ := hEnqueue_ok g2 (t := fw) (by omega)
  refine ⟨m2, q, ?_, k2, by omega, fun x hx => ?_⟩
  · unfold Board.allWords
    rw [g1]
    exact k1
  · rw [k4 x (by omega), g5 x hx]



theorem hBuild_loop (ws : List String) (hws : ∀ w ∈ ws, AZ w) :
    ∀ (m : Mem) (t : Trie), Inv m → t.root < m.length →
      ∃ (m' : Mem) (t' : Trie),
        ws.foldlM (fun st w => st.2.insert st.1 w) (m, t) = some (m', t') ∧ Inv m' ∧
          t'.root < m'.length := by
  induction ws with
  | nil =>
    intro m t hi ht
    exact ⟨m, t, rfl, hi, ht⟩
  | cons w ws ih =>
    intro m t hi ht
    obtain ⟨m1, t1, g1, g2, g3, g4, _⟩ := hInsert_ok hi ht (hws w (List.mem_cons_self _ _))
    rw [List.foldlM_cons]
    simp only [g1]
    exact ih (fun x hx => hws x (List.mem_cons_of_mem _ hx)) m1 t1 g2 (by omega)

theorem hBuild_ok (ws : List String) (hws : ∀ w ∈ ws, AZ w) :
    ∃ (m : Mem) (t : Trie), Trie.build ws = some (m, t) ∧ Inv m ∧ t.root < m.length :=
  hBuild_loop ws hws (Trie.new []).1 (Trie.new []).2 Inv.empty.newTrie (by decide)

theorem hAllWords_example :
    ((Trie.build ["CAT", "CATS", "AT", "DOG"]).bind fun r =>
      (Board.allWords { board := exampleGrid, englishWords := r.2 } r.1).map fun x => x.2) =
    Boggle.Board.allWords
      { board := exampleGrid, englishWords := Boggle.Trie.build ["CAT", "CATS", "AT", "DOG"] } := by
  decide!

/-- C21: in a memory built by the constructor and the insertions of `Trie`, on a
board of letters A-Z whose dictionary has its root in the memory, a call of the
recursive helper of `Board::allWords` whose depth budget exceeds the number of
unmarked cells returns with the array `used` as it was at entry and with every node
at an address below the root of `foundwords` as it was; `Board::allWords()` as a
whole returns and leaves every node that was in the memory at entry as it was: what
it writes are the nodes of its own `foundwords`.  In the embedding without
pointers the helper returns with `used` as it was for every grid, dictionary,
iterator and cell. -/
theorem allWords_leaves_inputs (b : Board) (hg : ∀ i j, isAZ (b.board i j)) (m : Mem)
    (hb : Built m) (hd : b.englishWords.root < m.length) :
    (∀ (fuel : Nat) (si : SearchIterator) (r c : Int) (used : Grid Bool) (fw : Trie),
        Valid m si → fw.root < m.length → unusedCount used < fuel →
          ∃ (m' : Mem) (fw' : Trie),
            b.allWordsRec fuel si r c (m, used, fw) = some (m', used, fw') ∧
              ∀ x, x < fw.root → m'[x]? = m[x]?) ∧
      (∃ (m' : Mem) (res : List String),
        b.allWords m = some (m', res) ∧ ∀ x, x < m.length → m'[x]? = m[x]?) ∧
      ∀ (b0 : Boggle.Board) (fuel : Nat) (si : Boggle.SearchIterator) (r c : Int)
        (used : Grid Bool) (fw : Boggle.Trie), unusedCount used < fuel →
          ∃ fw' : Boggle.Trie, b0.allWordsRec fuel si r c used fw = some (used, fw') := by
  refine ⟨?_, ?_, ?_⟩
  · intro fuel si r c used fw hv hfw hlt
    obtain ⟨m', fw', g1, _, _, _, g5⟩ := hRunsOK b hg fuel si r c m used fw hb.inv hv hfw hlt
    exact ⟨m', fw', g1, g5⟩
  · obtain ⟨m', res, g1, _, _, g4⟩ := hAllWords_ok b hg m hb.inv hd
    exact ⟨m', res, g1, g4⟩
  · intro b0 fuel si r c used fw hlt
    obtain ⟨fw', h, _⟩ :=
      runsOK b0 (fun _ => True) (fun _ => True) (fun _ _ _ => trivial)
        (fun _ _ _ _ _ _ => trivial) fuel si r c used fw trivial trivial hlt
    exact ⟨fw', h⟩

theorem allWords_leaves_inputs_witness :
    (∀ i j, isAZ (exampleGrid i j)) ∧ Built exampleMem ∧ 0 < exampleMem.length ∧
      (∀ (fuel : Nat) (si : SearchIterator) (r c : Int) (used : Grid Bool) (fw : Trie),
        Valid exampleMem si → fw.root < exampleMem.length → unusedCount used < fuel →
          ∃ (m' : Mem) (fw' : Trie),
            Board.allWordsRec { board := exampleGrid, englishWords := { root := 0, m_size := 1 } }
                fuel si r c (exampleMem, used, fw) = some (m', used, fw') ∧
              ∀ x, x < fw.root → m'[x]? = exampleMem[x]?) ∧
      (∃ (m' : Mem) (res : List String),
        Board.allWords { board := exampleGrid, englishWords := { root := 0, m_size := 1 } }
            exampleMem = some (m', res) ∧
          ∀ x, x < exampleMem.length → m'[x]? = exampleMem[x]?) ∧
      ∀ (b0 : Boggle.Board) (fuel : Nat) (si : Boggle.SearchIterator) (r c : Int)
        (used : Grid Bool) (fw : Boggle.Trie), unusedCount used < fuel →
          ∃ fw' : Boggle.Trie, b0.allWordsRec fuel si r c used fw = some (used, fw') :=
  ⟨by decide, built_exampleMem, by decide,
    allWords_leaves_inputs { board := exampleGrid, englishWords := { root := 0, m_size := 1 } }
      (by decide) exampleMem built_exampleMem (by decide)⟩

/-- C26: for a grid of letters A-Z and a dictionary built by `insert` calls on strings
over A-Z, the index `Node::index` computes for a grid letter and for `U` lies in
`0..25`, and `Board::allWords()` runs to its end in the embedding in which a child
subscript outside `0..25`, a row or column outside `0..4`, `charHere()` on the
invalid iterator and any other dereference of a pointer to no node have no result. -/
theorem allWords_accesses_in_range (g : Grid Char) (hg : ∀ i j, isAZ (g i j))
    (ws : List String) (hws : ∀ w ∈ ws, AZ w) :
    (∀ i j, 0 ≤ Boggle.Node.index (g i j) ∧ Boggle.Node.index (g i j) < 26) ∧
      (0 ≤ Boggle.Node.index 'U' ∧ Boggle.Node.index 'U' < 26) ∧
      ∃ (m : Mem) (t : Trie), Trie.build ws = some (m, t) ∧
        ∃ (m' : Mem) (res : List String),
          Board.allWords { board := g, englishWords := t } m = some (m', res) := by
  refine ⟨fun i j => ?_, by decide, ?_⟩
  · have h0 := index_nonneg_of_isAZ (hg i j)
    have h1 := index_toNat_lt_of_isAZ (hg i j)
    omega
  · obtain ⟨m, t, g1, g2, g3⟩ := hBuild_ok ws hws
    obtain ⟨m', res, k1, _⟩ :=
      hAllWords_ok { board := g, englishWords := t } hg m g2 g3
    exact ⟨m, t, g1, m', res, k1⟩

theorem allWords_accesses_in_range_witness :
    (∀ i j, isAZ (exampleGrid i j)) ∧ (∀ w ∈ ["CAT", "AT"], AZ w) ∧
      (∀ i j, 0 ≤ Boggle.Node.index (exampleGrid i j) ∧
        Boggle.Node.index (exampleGrid i j) < 26) ∧
      (0 ≤ Boggle.Node.index 'U' ∧ Boggle.Node.index 'U' < 26) ∧
      ∃ (m : Mem) (t : Trie), Trie.build ["CAT", "AT"] = some (m, t) ∧
        ∃ (m' : Mem) (res : List String),
          Board.allWords { board := exampleGrid, englishWords := t } m = some (m', res) :=
  ⟨by decide, by decide,
    allWords_accesses_in_range exampleGrid (by decide) ["CAT", "AT"] (by decide)⟩

end Heap
end Boggle
